import Mathlib

/-! MapReduce (`src/src/mapreduce.c`): a shallow embedding and its properties.

The library keeps the emitted `(key, value)` pairs in an array of partitions
(`master_kvlist`).  Each partition is a doubly linked list of key nodes sorted by
`strcmp`; each key node owns a doubly linked list of value nodes sorted by
`strcmp`, and a read cursor `access_next` into that list.

Modelling choices.

* A C string is the list of its bytes before the terminating NUL; a byte is a
  number in `1..255`, the value `strcmp` compares (`unsigned char`).
* A linked list is the Lean list of its nodes in `next` order.  A pointer into a
  list that is only ever followed forwards (`access_next`, `itr`) is the list of
  the nodes from the pointed node onwards; `NULL` is `[]`.
* The globals `partition_fn` and `num_partitions` are set once by `mr_run`; they
  are parameters of the functions that read them.  The global `master_kvlist`
  is the state that is passed along.
* Threads are run one after the other and the mutexes are left out.
* An access outside an array, and a modulus by zero, are undefined in C: the
  function that does it returns `none`.
* `unsigned int` is 32 bits and `unsigned long` 64 bits wide (LP64).
* Every `malloc` succeeds, except in the part on allocation failure, where the
  results of the `malloc` calls are given beforehand (`mr_run_alloc`).
-/

namespace MapReduce

/-! ## C strings -/

/-- One byte of a C string: never the terminator, at most 255. -/
abbrev CChar := { b : Nat // 0 < b ∧ b < 256 }

/-- The bytes of a NUL-terminated string, terminator excluded. -/
abbrev CStr := List CChar

/-- The C string that starts a byte buffer: the bytes before the first NUL (or
the first number that is no byte). -/
def cstr : List Nat → CStr
  | [] => []
  | b :: bs => if h : 0 < b ∧ b < 256 then ⟨b, h⟩ :: cstr bs else []

/-- The function `strcmp`: the bytes are compared as `unsigned char`, the end
of a string counts as the byte 0; the result is the difference of the first two
bytes that differ (only its sign is used by the library). -/
def strcmp : CStr → CStr → Int
  | [], [] => 0
  | [], b :: _ => 0 - (b.val : Int)
  | a :: _, [] => (a.val : Int)
  | a :: as, b :: bs => if a.val = b.val then strcmp as bs else (a.val : Int) - (b.val : Int)

/-! ## The default partitioner -/

/-- The conversion `int ch = *key` of a plain `char`: where `char` is signed
(x86-64) the bytes from 128 on are negative, where it is unsigned (AArch64
Linux) every byte keeps its value. -/
def char_to_int (char_is_signed : Bool) (c : CChar) : Int :=
  if char_is_signed ∧ 128 ≤ c.val then (c.val : Int) - 256 else (c.val : Int)

/-- The conversion of an `int` to `unsigned long`. -/
def int_to_ulong (i : Int) : Nat := (i % (2 ^ 64 : Int)).toNat

/-- The loop `while ((ch = *key++) != '\0') hash = hash * 33 + ch;` of
`mr_default_hashpartition`, from the current `hash`. -/
def hash_loop (char_is_signed : Bool) : CStr → Nat → Nat
  | [], hash => hash
  | c :: key, hash =>
    hash_loop char_is_signed key
      ((hash * 33 % 2 ^ 64 + int_to_ulong (char_to_int char_is_signed c)) % 2 ^ 64)

/-- The function `mr_default_hashpartition(key, num_partitions)`.  The
parameter is an `unsigned int`: the argument is taken modulo `2^32`.  The
result `hash % 0` is undefined. -/
def mr_default_hashpartition (char_is_signed : Bool) (key : CStr) (num_partitions : Nat) :
    Option Nat :=
  let np := num_partitions % 2 ^ 32
  if np = 0 then none else some (hash_loop char_is_signed key 5381 % np)

/-- DJB2 in the words of the specification: start from 5381 and, for each byte
`c` of the key in order, replace `h` by `(h * 33 + c) mod 2^64`. -/
def djb2_spec (key : CStr) : Nat :=
  key.foldl (fun h c => (h * 33 + c.val) % 2 ^ 64) 5381

/-! ## The intermediate store -/

/-- A key node (`struct mr_kvnode`): its key, the values of its value list
(`start`, in `next` order) and the read cursor `access_next` (the values from the
pointed value node onwards, `[]` for `NULL`). -/
structure mr_kvnode where
  key : CStr
  start : List CStr
  access_next : List CStr
deriving DecidableEq, Repr

/-- One entry of `master_kvlist` (`struct mr_master_kvnode`): the key list that
hangs off `start`.  The mutex is not modelled. -/
abbrev mr_master_kvnode := List mr_kvnode

/-- The array `master_kvlist`. -/
abbrev Store := List mr_master_kvnode

/-- The function `mr_master_kvlist_init`: `num_partitions` entries with `start = NULL`. -/
def mr_master_kvlist_init (num_partitions : Nat) : Store :=
  List.replicate num_partitions []

/-- The function `mr_kvnode_new(key)`: no values, `access_next = NULL`. -/
def mr_kvnode_new (key : CStr) : mr_kvnode :=
  { key := key, start := [], access_next := [] }

/-- The `for` loop of `mr_vlist_push` over a value list: the new value goes
before the first value that is greater, or behind the last node. -/
def mr_vlist_push_loop (value : CStr) : List CStr → List CStr
  | [] => []
  | x :: rest =>
    if strcmp x value > 0 then value :: x :: rest
    else if rest = [] then [x, value]
    else x :: mr_vlist_push_loop value rest

/-- The function `mr_vlist_push(kvnode, value)` on the value list `kvnode->start`. -/
def mr_vlist_push (start : List CStr) (value : CStr) : List CStr :=
  if start = [] then [value] else mr_vlist_push_loop value start

/-- The end of `mr_kvlist_push`, on the key node `temp`:
`mr_vlist_push(temp, value); temp->access_next = temp->start;`. -/
def kvnode_push (temp : mr_kvnode) (value : CStr) : mr_kvnode :=
  let start := mr_vlist_push temp.start value
  { temp with start := start, access_next := start }

/-- The `for` loop of `mr_kvlist_push` over a key list, followed by the push of
the value into the node `temp` it has found or made: a new node goes before the
first key that is greater or behind the last node, an equal key is reused. -/
def mr_kvlist_push_loop (key value : CStr) : List mr_kvnode → List mr_kvnode
  | [] => []
  | itr :: rest =>
    if strcmp itr.key key > 0 then kvnode_push (mr_kvnode_new key) value :: itr :: rest
    else if strcmp itr.key key = 0 then kvnode_push itr value :: rest
    else if rest = [] then [itr, kvnode_push (mr_kvnode_new key) value]
    else itr :: mr_kvlist_push_loop key value rest

/-- The body of `mr_kvlist_push` on the key list of one partition. -/
def kvlist_push (key value : CStr) (start : List mr_kvnode) : List mr_kvnode :=
  if start = [] then [kvnode_push (mr_kvnode_new key) value]
  else mr_kvlist_push_loop key value start

/-- The function `mr_kvlist_push(key, value, partition_number)`; `master_kvlist` has
`num_partitions` entries and an index outside it is undefined. -/
def mr_kvlist_push (key value : CStr) (partition_number : Nat) (master_kvlist : Store) :
    Option Store :=
  match master_kvlist[partition_number]? with
  | none => none
  | some start => some (master_kvlist.set partition_number (kvlist_push key value start))

/-- The loop of `mr_get_next_value` over a key list: the first node with the
key gives the value under its cursor, if any, and the cursor moves on. -/
def get_next_loop (key : CStr) : List mr_kvnode → Option CStr × List mr_kvnode
  | [] => (none, [])
  | temp :: rest =>
    if strcmp temp.key key ≠ 0 then
      ((get_next_loop key rest).1, temp :: (get_next_loop key rest).2)
    else
      match temp.access_next with
      | [] => (none, temp :: rest)
      | value :: next => (some value, { temp with access_next := next } :: rest)

/-- The function `mr_get_next_value(key, partition_number)`: the value (`none` for `NULL`)
and the store after the call. -/
def mr_get_next_value (key : CStr) (partition_number : Nat) (master_kvlist : Store) :
    Option (Option CStr × Store) :=
  match master_kvlist[partition_number]? with
  | none => none
  | some start =>
    some ((get_next_loop key start).1,
      master_kvlist.set partition_number (get_next_loop key start).2)

/-- The type `partitioner`; `none` when the call is undefined. -/
abbrev partitioner := CStr → Nat → Option Nat

/-- The type `getter`. -/
abbrev getter := CStr → Nat → Store → Option (Option CStr × Store)

/-- The function `mr_emit(key, value)`: the partition is asked of
`partition_fn`, then the pair is pushed (the lock is not modelled). -/
def mr_emit (partition_fn : partitioner) (num_partitions : Nat) (key value : CStr)
    (master_kvlist : Store) : Option Store :=
  match partition_fn key num_partitions with
  | none => none
  | some partition_number => mr_kvlist_push key value partition_number master_kvlist

/-- A sequence of `mr_emit` calls, in order. -/
def mr_emit_all (partition_fn : partitioner) (num_partitions : Nat) :
    List (CStr × CStr) → Store → Option Store
  | [], s => some s
  | kv :: rest, s =>
    match mr_emit partition_fn num_partitions kv.1 kv.2 s with
    | none => none
    | some s1 => mr_emit_all partition_fn num_partitions rest s1

/-- The getter called until it returns `NULL`: the values it returned before,
in order.  `fuel` bounds the number of calls; `none` when it is used up (or the
partition does not exist). -/
def get_next_all (get_next : getter) (key : CStr) (partition_number : Nat) :
    Nat → Store → Option (List CStr × Store)
  | 0, _ => none
  | fuel + 1, s =>
    match get_next key partition_number s with
    | none => none
    | some (none, s1) => some ([], s1)
    | some (some value, s1) =>
      match get_next_all get_next key partition_number fuel s1 with
      | none => none
      | some (values, s2) => some (value :: values, s2)

/-- The loop of `reduce` in `example/test.c`:
`while ((value = get_next(key, partition_number)) != NULL) count++;`
The result is the final `count` (what is printed) and the store.  The counter is
an `int` (32 bits) that starts from 0: `count++` is defined as long as the new
value is at most `INT_MAX = 2^31 - 1`, beyond that it overflows, which is
undefined.  `fuel` bounds the number of `get_next` calls.  The result is `none`
when the fuel is used up or the behaviour is undefined. -/
def reduce_count (get_next : getter) (key : CStr) (partition_number : Nat) :
    Nat → Nat → Store → Option (Nat × Store)
  | 0, _, _ => none
  | fuel + 1, count, s =>
    match get_next key partition_number s with
    | none => none
    | some (none, s1) => some (count, s1)
    | some (some _, s1) =>
      if count + 1 < 2 ^ 31 then
        reduce_count get_next key partition_number fuel (count + 1) s1
      else none

/-! ## The worker pools -/

/-- The type `mapper`.  A map function acts on the library through `mr_emit`
only, which returns nothing: it is given by the pairs it emits, in order, for a
file name. -/
abbrev mapper := CStr → List (CStr × CStr)

/-- The type `reducer`: the store after the call, `none` when the call does not
return (or is undefined). -/
abbrev reducer := CStr → getter → Nat → Store → Option Store

/-- The fields of `struct mapper_dispatch_packet`. -/
structure mapper_dispatch_packet where
  arglist : List CStr
  mapper_fn : mapper
  this_id : Nat
  step_count : Nat
  iternation : Nat
  total_item_count : Nat

/-- The fields of `struct reducer_dispatch_packet`. -/
structure reducer_dispatch_packet where
  reducer_fn : reducer
  this_id : Nat

/-- What a run has done so far: the store, the calls of the map function
(worker, index into `argv`), the reducer workers created (their `this_id`) and
the calls of the reduce function (key, partition number). -/
structure mr_state where
  master_kvlist : Store
  map_calls : List (Nat × Nat)
  reducer_ids : List Nat
  reduce_calls : List (CStr × Nat)

/-- The call `mapper_fn(arglist[index])` made by worker `this_id`. -/
def mapper_call (partition_fn : partitioner) (num_partitions : Nat)
    (packet : mapper_dispatch_packet) (index : Nat) (st : mr_state) : Option mr_state :=
  match packet.arglist[index]? with
  | none => none
  | some file_name =>
    match mr_emit_all partition_fn num_partitions (packet.mapper_fn file_name)
        st.master_kvlist with
    | none => none
    | some s1 =>
      some { st with master_kvlist := s1,
                     map_calls := st.map_calls ++ [(packet.this_id, index)] }

/-- The loop `for (i = 0; i < packet->iternation; i++)` of `mapper_dispatcher`,
from `i` with `n` rounds to go. -/
def mapper_dispatcher_loop (partition_fn : partitioner) (num_partitions : Nat)
    (packet : mapper_dispatch_packet) : Nat → Nat → mr_state → Option mr_state
  | 0, _, st => some st
  | n + 1, i, st =>
    match mapper_call partition_fn num_partitions packet
        ((packet.this_id + 1 + i * packet.step_count) % 2 ^ 32) st with
    | none => none
    | some st1 => mapper_dispatcher_loop partition_fn num_partitions packet n (i + 1) st1

/-- The function `mapper_dispatcher(packet)`: the loop, then the one call for
what is left over when `total_item_count` is no multiple of `step_count`. -/
def mapper_dispatcher (partition_fn : partitioner) (num_partitions : Nat)
    (packet : mapper_dispatch_packet) (st : mr_state) : Option mr_state :=
  match mapper_dispatcher_loop partition_fn num_partitions packet packet.iternation 0 st with
  | none => none
  | some st1 =>
    if packet.total_item_count >
        (packet.this_id + packet.iternation * packet.step_count) % 2 ^ 32 then
      mapper_call partition_fn num_partitions packet
        ((packet.this_id + 1 + packet.iternation * packet.step_count) % 2 ^ 32) st1
    else some st1

/-- The loop of `reducer_dispatcher` with `itr` at the head of `nodes`.  The
reduce function has the getter only, which leaves keys and `next` links alone:
the nodes still to visit are the rest of the list. -/
def reducer_dispatcher_loop (packet : reducer_dispatch_packet) :
    List mr_kvnode → mr_state → Option mr_state
  | [], st => some st
  | itr :: next, st =>
    match packet.reducer_fn itr.key mr_get_next_value packet.this_id st.master_kvlist with
    | none => none
    | some s1 =>
      reducer_dispatcher_loop packet next
        { st with master_kvlist := s1,
                  reduce_calls := st.reduce_calls ++ [(itr.key, packet.this_id)] }

/-- The function `reducer_dispatcher(packet)`: the loop from
`master_kvlist[this_id].start`. -/
def reducer_dispatcher (packet : reducer_dispatch_packet) (st : mr_state) : Option mr_state :=
  match st.master_kvlist[packet.this_id]? with
  | none => none
  | some start => reducer_dispatcher_loop packet start st

/-- The first two loops over `j` of `mr_run` (fill `mpacketlist[j]`, create the
mapper, later join it), from `j` with `n` rounds to go; mapper `j` runs to its
end when it is created. -/
def mr_run_mappers (partition_fn : partitioner) (num_partitions : Nat) (argc : Int)
    (argv : List CStr) (map : mapper) (num_mappers : Nat) :
    Nat → Nat → mr_state → Option mr_state
  | 0, _, st => some st
  | n + 1, j, st =>
    let total_item_count := ((argc - 1) % (2 ^ 32 : Int)).toNat
    match mapper_dispatcher partition_fn num_partitions
        { arglist := argv, mapper_fn := map, this_id := j,
          total_item_count := total_item_count, step_count := num_mappers,
          iternation := total_item_count / num_mappers } st with
    | none => none
    | some st1 =>
      mr_run_mappers partition_fn num_partitions argc argv map num_mappers n (j + 1) st1

/-- The last two loops over `j` of `mr_run` (fill `rpacketlist[j]`, create the
reducer, later join it), from `j` with `n` rounds to go.  `rpacketlist` has
`num_reducers` entries. -/
def mr_run_reducers (reduce : reducer) (num_reducers : Nat) :
    Nat → Nat → mr_state → Option mr_state
  | 0, _, st => some st
  | n + 1, j, st =>
    if j < num_reducers then
      match reducer_dispatcher { reducer_fn := reduce, this_id := j }
          { st with reducer_ids := st.reducer_ids ++ [j] } with
      | none => none
      | some st1 => mr_run_reducers reduce num_reducers n (j + 1) st1
    else none

/-- The function `mr_run`, every allocation and thread creation succeeding: the state when
the reducers have been joined, before the store is destroyed.  Both loops over
the reducers run `j` up to `num_mappers`, as the source does. -/
def mr_run (argc : Int) (argv : List CStr) (map : mapper) (num_mappers : Nat)
    (reduce : reducer) (num_reducers : Nat) (partition : partitioner) : Option mr_state :=
  let num_mappers := num_mappers % 2 ^ 32
  let num_reducers := num_reducers % 2 ^ 32
  let num_partitions := num_reducers
  match mr_run_mappers partition num_partitions argc argv map num_mappers num_mappers 0
      { master_kvlist := mr_master_kvlist_init num_partitions,
        map_calls := [], reducer_ids := [], reduce_calls := [] } with
  | none => none
  | some st => mr_run_reducers reduce num_reducers num_mappers 0 st

/-! ## The example program (`example/test.c`) -/

/-- The function `reduce` of the example: it counts the values of the key in
an `int` (`reduce_count`) and prints the count; `fuel` bounds the `get_next`
calls. -/
def test_reduce (fuel : Nat) : reducer :=
  fun key get_next partition_number s =>
    match reduce_count get_next key partition_number fuel 0 s with
    | none => none
    | some (_, s1) => some s1

/-! ## Predicates on stores -/

/-- A value list is non-decreasing in byte-lexicographic order. -/
def values_sorted (l : List CStr) : Prop :=
  l.Pairwise (fun a b => strcmp a b ≤ 0)

instance (l : List CStr) : Decidable (values_sorted l) := by
  unfold values_sorted; infer_instance

/-- A key list is strictly ascending in byte-lexicographic order. -/
def keys_sorted (l : List mr_kvnode) : Prop :=
  l.Pairwise (fun a b => strcmp a.key b.key < 0)

instance (l : List mr_kvnode) : Decidable (keys_sorted l) := by
  unfold keys_sorted; infer_instance

/-- The invariant of one partition: keys strictly ascending, and under every
key a value list that is not empty and non-decreasing. -/
def kvlist_inv (l : List mr_kvnode) : Prop :=
  keys_sorted l ∧ ∀ n ∈ l, n.start ≠ [] ∧ values_sorted n.start

instance (l : List mr_kvnode) : Decidable (kvlist_inv l) := by
  unfold kvlist_inv; infer_instance

/-- The store invariant: every partition satisfies `kvlist_inv`. -/
def store_inv (s : Store) : Prop :=
  ∀ part ∈ s, kvlist_inv part

instance (s : Store) : Decidable (store_inv s) := by
  unfold store_inv; infer_instance

/-- The node of a key in a key list, if there is one. -/
def kvlist_find (key : CStr) (l : List mr_kvnode) : Option mr_kvnode :=
  l.find? (fun n => decide (n.key = key))

/-- The keys of a partition, in list order. -/
def kvlist_keys (l : List mr_kvnode) : List CStr :=
  l.map (fun n => n.key)

/-- The values emitted with a key in a sequence of emits, in emit order. -/
def emitted_values (key : CStr) (kvs : List (CStr × CStr)) : List CStr :=
  (kvs.filter (fun kv => decide (kv.1 = key))).map (fun kv => kv.2)

/-- The store `s` holds the pairs `kvs` emitted with `partition_fn` into
`num_partitions` partitions: every key list is strictly ascending; every key
node lies in the partition of its key, its values are, sorted, the values
emitted with the key, and its cursor is at the first value; every emitted key
has a node. -/
def store_holds (partition_fn : partitioner) (num_partitions : Nat)
    (kvs : List (CStr × CStr)) (s : Store) : Prop :=
  s.length = num_partitions
  ∧ (∀ p part, s[p]? = some part →
      keys_sorted part
      ∧ ∀ n ∈ part, partition_fn n.key num_partitions = some p
          ∧ n.access_next = n.start ∧ n.start ≠ [] ∧ values_sorted n.start
          ∧ n.start.Perm (emitted_values n.key kvs))
  ∧ (∀ kv ∈ kvs, ∃ p part n, partition_fn kv.1 num_partitions = some p
      ∧ s[p]? = some part ∧ n ∈ part ∧ n.key = kv.1)

/-- The contract of a partitioner: for every key the result is defined and
below `num_partitions`. -/
def partitioner_in_range (partition_fn : partitioner) (num_partitions : Nat) : Prop :=
  ∀ key, ∃ p, partition_fn key num_partitions = some p ∧ p < num_partitions

/-- A call that reaches the store: an `mr_emit` or a call of the getter. -/
inductive store_op where
  | emit (key value : CStr)
  | get_next (key : CStr) (partition_number : Nat)
deriving DecidableEq, Repr

/-- The store after one call. -/
def run_op (partition_fn : partitioner) (num_partitions : Nat) : store_op → Store → Option Store
  | .emit key value, s => mr_emit partition_fn num_partitions key value s
  | .get_next key partition_number, s =>
    match mr_get_next_value key partition_number s with
    | none => none
    | some (_, s1) => some s1

/-- The store after a sequence of calls, in order. -/
def run_ops (partition_fn : partitioner) (num_partitions : Nat) :
    List store_op → Store → Option Store
  | [], s => some s
  | op :: rest, s =>
    match run_op partition_fn num_partitions op s with
    | none => none
    | some s1 => run_ops partition_fn num_partitions rest s1

/-- The keys and value lists of a store, cursors left out. -/
def store_shape (s : Store) : List (List (CStr × List CStr)) :=
  s.map (fun part => part.map (fun n => (n.key, n.start)))

/-- Every cursor points into the value list of its key node (or is `NULL`). -/
def cursors_valid (s : Store) : Prop :=
  ∀ part ∈ s, ∀ n ∈ part, n.access_next <:+ n.start

/-- What is assumed of a reduce function run by the reducer of partition
`this_id` on the store `s`: wherever the cursors of `s` stand, a call returns
and leaves the keys and values of the store as they are.  A reduce function that
only calls the getter, on partitions that exist, and comes to an end is of this
kind. -/
def reducer_only_reads (reduce : reducer) (this_id : Nat) (s : Store) : Prop :=
  ∀ key s1, store_shape s1 = store_shape s → cursors_valid s1 →
    ∃ s2, reduce key mr_get_next_value this_id s1 = some s2
      ∧ store_shape s2 = store_shape s ∧ cursors_valid s2

/-- The cursor of `key` in a key list is exhausted: the first node with the
key, if there is one, has `access_next = NULL`. -/
def cursor_exhausted (key : CStr) (l : List mr_kvnode) : Prop :=
  ∀ n, kvlist_find key l = some n → n.access_next = []

/-- A call of the getter (and no `mr_emit`). -/
def is_get_next : store_op → Bool
  | .emit _ _ => false
  | .get_next _ _ => true

/-- The indices into `argv` that `mapper_dispatcher` computes for the worker
`this_id`, in the order of its calls, when nothing wraps around: one for each
round of the loop, and one more when the test behind the loop holds. -/
def mapper_indices (total_item_count step_count this_id : Nat) : List Nat :=
  (List.range (total_item_count / step_count)).map (fun i => this_id + 1 + i * step_count)
    ++ (if total_item_count > this_id + total_item_count / step_count * step_count then
          [this_id + 1 + total_item_count / step_count * step_count]
        else [])

/-- The packet `mpacketlist[j]` as `mr_run` fills it. -/
def mr_run_mpacket (argc : Int) (argv : List CStr) (map : mapper) (num_mappers j : Nat) :
    mapper_dispatch_packet :=
  { arglist := argv, mapper_fn := map, this_id := j,
    total_item_count := ((argc - 1) % (2 ^ 32 : Int)).toNat, step_count := num_mappers,
    iternation := ((argc - 1) % (2 ^ 32 : Int)).toNat / num_mappers }

/-- The state of a run before the first worker: the store just initialised. -/
def mr_state_init (num_partitions : Nat) : mr_state :=
  { master_kvlist := mr_master_kvlist_init num_partitions,
    map_calls := [], reducer_ids := [], reduce_calls := [] }

/-! ## Allocation failure

The functions above take every `malloc` to succeed.  Here the results of the
`malloc` calls of a run are given beforehand, in the order of the calls, and
the run is followed up to its end. -/

/-- The places where the library calls `malloc`: the store array
(`mr_master_kvlist_init`), the arrays `mappers`, `mpacketlist`, `reducers` and
`rpacketlist` of `mr_run`, a key node (`mr_kvnode_new`) and a value node
(`mr_vnode_new`). -/
inductive alloc_site where
  | store
  | mappers
  | mpacketlist
  | kvnode
  | vnode
  | reducers
  | rpacketlist
deriving DecidableEq, Repr

/-- How a call of `mr_run` ends: it returns to its caller, the process ends with
`exit(EXIT_FAILURE)`, or the behaviour is undefined. -/
inductive run_end where
  | returned
  | exit_failure
  | undefined
deriving DecidableEq, Repr

/-- The state of a run with the results of the `malloc` calls still to come
(`true` for success; every call after the last listed one succeeds) and the
`malloc` calls made so far with their results. -/
structure alloc_world where
  st : mr_state
  oracle : List Bool
  log : List (alloc_site × Bool)

/-- A step of a run: the run goes on, or it has ended. -/
inductive alloc_step where
  | go (w : alloc_world)
  | stop (how : run_end) (log : List (alloc_site × Bool))

/-- One call of `malloc`: whether it succeeded, and the world after it. -/
def malloc (site : alloc_site) (w : alloc_world) : Bool × alloc_world :=
  match w.oracle with
  | [] => (true, { w with log := w.log ++ [(site, true)] })
  | ok :: rest => (ok, { w with oracle := rest, log := w.log ++ [(site, ok)] })

/-- Whether `mr_kvlist_push` calls `mr_kvnode_new` on a key list: it does unless
the loop meets the key before it meets a greater key or the end. -/
def kvlist_push_new_node (key : CStr) : List mr_kvnode → Bool
  | [] => true
  | itr :: rest =>
    if strcmp itr.key key > 0 then true
    else if strcmp itr.key key = 0 then false
    else kvlist_push_new_node key rest

/-- The function `mr_kvlist_push` with its allocations: `mr_kvnode_new` when a
new key node is needed, then `mr_vnode_new` in `mr_vlist_push`; a `NULL` result
leads to `exit(EXIT_FAILURE)`. -/
def mr_kvlist_push_alloc (key value : CStr) (partition_number : Nat) (w : alloc_world) :
    alloc_step :=
  match w.st.master_kvlist[partition_number]? with
  | none => .stop .undefined w.log
  | some start =>
    let r1 := if kvlist_push_new_node key start then malloc .kvnode w else (true, w)
    if r1.1 = false then .stop .exit_failure r1.2.log
    else
      let r2 := malloc .vnode r1.2
      if r2.1 = false then .stop .exit_failure r2.2.log
      else
        .go { r2.2 with
              st := { r2.2.st with
                      master_kvlist :=
                        r2.2.st.master_kvlist.set partition_number
                          (kvlist_push key value start) } }

/-- A sequence of `mr_emit` calls with their allocations. -/
def mr_emit_all_alloc (partition_fn : partitioner) (num_partitions : Nat) :
    List (CStr × CStr) → alloc_world → alloc_step
  | [], w => .go w
  | kv :: rest, w =>
    match partition_fn kv.1 num_partitions with
    | none => .stop .undefined w.log
    | some partition_number =>
      match mr_kvlist_push_alloc kv.1 kv.2 partition_number w with
      | .stop how log => .stop how log
      | .go w1 => mr_emit_all_alloc partition_fn num_partitions rest w1

/-- The call `mapper_fn(arglist[index])` with its allocations. -/
def mapper_call_alloc (partition_fn : partitioner) (num_partitions : Nat)
    (packet : mapper_dispatch_packet) (index : Nat) (w : alloc_world) : alloc_step :=
  match packet.arglist[index]? with
  | none => .stop .undefined w.log
  | some file_name =>
    match mr_emit_all_alloc partition_fn num_partitions (packet.mapper_fn file_name) w with
    | .stop how log => .stop how log
    | .go w1 =>
      .go { w1 with
            st := { w1.st with map_calls := w1.st.map_calls ++ [(packet.this_id, index)] } }

/-- The loop of `mapper_dispatcher` with its allocations. -/
def mapper_dispatcher_loop_alloc (partition_fn : partitioner) (num_partitions : Nat)
    (packet : mapper_dispatch_packet) : Nat → Nat → alloc_world → alloc_step
  | 0, _, w => .go w
  | n + 1, i, w =>
    match mapper_call_alloc partition_fn num_partitions packet
        ((packet.this_id + 1 + i * packet.step_count) % 2 ^ 32) w with
    | .stop how log => .stop how log
    | .go w1 => mapper_dispatcher_loop_alloc partition_fn num_partitions packet n (i + 1) w1

/-- The function `mapper_dispatcher` with its allocations. -/
def mapper_dispatcher_alloc (partition_fn : partitioner) (num_partitions : Nat)
    (packet : mapper_dispatch_packet) (w : alloc_world) : alloc_step :=
  match mapper_dispatcher_loop_alloc partition_fn num_partitions packet packet.iternation 0
      w with
  | .stop how log => .stop how log
  | .go w1 =>
    if packet.total_item_count >
        (packet.this_id + packet.iternation * packet.step_count) % 2 ^ 32 then
      mapper_call_alloc partition_fn num_partitions packet
        ((packet.this_id + 1 + packet.iternation * packet.step_count) % 2 ^ 32) w1
    else .go w1

/-- The loops of `mr_run` over the mappers with their allocations. -/
def mr_run_mappers_alloc (partition_fn : partitioner) (num_partitions : Nat) (argc : Int)
    (argv : List CStr) (map : mapper) (num_mappers : Nat) :
    Nat → Nat → alloc_world → alloc_step
  | 0, _, w => .go w
  | n + 1, j, w =>
    match mapper_dispatcher_alloc partition_fn num_partitions
        (mr_run_mpacket argc argv map num_mappers j) w with
    | .stop how log => .stop how log
    | .go w1 =>
      mr_run_mappers_alloc partition_fn num_partitions argc argv map num_mappers n (j + 1) w1

/-- The function `mr_run` with its allocations, `oracle` giving their results:
how the call ends, and the `malloc` calls made with their results.  A failure
in `mr_master_kvlist_init` leads to `exit(EXIT_FAILURE)`; a `NULL` for
`mappers`, `mpacketlist`, `reducers` or `rpacketlist` leads to `cleanup`, where
the store is destroyed and `mr_run` returns. -/
def mr_run_alloc (oracle : List Bool) (argc : Int) (argv : List CStr) (map : mapper)
    (num_mappers : Nat) (reduce : reducer) (num_reducers : Nat) (partition : partitioner) :
    run_end × List (alloc_site × Bool) :=
  let r0 := malloc .store
    { st := mr_state_init (num_reducers % 2 ^ 32), oracle := oracle, log := [] }
  if r0.1 = false then (.exit_failure, r0.2.log)
  else
    let r1 := malloc .mappers r0.2
    if r1.1 = false then (.returned, r1.2.log)
    else
      let r2 := malloc .mpacketlist r1.2
      if r2.1 = false then (.returned, r2.2.log)
      else
        match mr_run_mappers_alloc partition (num_reducers % 2 ^ 32) argc argv map
            (num_mappers % 2 ^ 32) (num_mappers % 2 ^ 32) 0 r2.2 with
        | .stop how log => (how, log)
        | .go w3 =>
          let r4 := malloc .reducers w3
          if r4.1 = false then (.returned, r4.2.log)
          else
            let r5 := malloc .rpacketlist r4.2
            if r5.1 = false then (.returned, r5.2.log)
            else
              match mr_run_reducers reduce (num_reducers % 2 ^ 32) (num_mappers % 2 ^ 32) 0
                  r5.2.st with
              | none => (.undefined, r5.2.log)
              | some _ => (.returned, r5.2.log)

/-- No allocation of a log has failed. -/
def log_ok (log : List (alloc_site × Bool)) : Prop :=
  ∀ x ∈ log, x.2 = true

/-- A step of the mapper phase is as it should be: while the run goes on no
allocation has failed; when it has ended, an allocation that failed was that of
a key or value node and the end is `exit(EXIT_FAILURE)`. -/
def alloc_step_ok : alloc_step → Prop
  | .go w => log_ok w.log
  | .stop how log =>
    ∀ site, (site, false) ∈ log →
      (site = alloc_site.kvnode ∨ site = alloc_site.vnode) ∧ how = run_end.exit_failure

/-- A step with allocations agrees with the result of the function that takes
every `malloc` to succeed: both go on with the same state, or both are
undefined. -/
def alloc_refines (r : alloc_step) (o : Option mr_state) : Prop :=
  match o with
  | none => ∃ log, r = .stop .undefined log
  | some st => ∃ log, r = .go { st := st, oracle := [], log := log }

/-- The reduce function called for the keys of a list, one after the other,
with the getter and the partition number `this_id`: the store after the last
call. -/
def reduce_keys (reducer_fn : reducer) (this_id : Nat) : List CStr → Store → Option Store
  | [], s => some s
  | key :: rest, s =>
    match reducer_fn key mr_get_next_value this_id s with
    | none => none
    | some s1 => reduce_keys reducer_fn this_id rest s1

/-- The pairs emitted by a sequence of calls of the map function (worker,
index into `arglist`), in the order of the calls. -/
def map_calls_emits (mapper_fn : mapper) (arglist : List CStr) (calls : List (Nat × Nat)) :
    List (CStr × CStr) :=
  calls.flatMap (fun c =>
    match arglist[c.2]? with
    | some file_name => mapper_fn file_name
    | none => [])

end MapReduce

namespace MapReduce

/-! ## `strcmp` is a three-way comparison for a linear order -/

theorem strcmp_self (a : CStr) : strcmp a a = 0 := by
  induction a with
  | nil => rfl
  | cons x xs ih => simp [strcmp, ih]

theorem strcmp_eq_zero {a b : CStr} : strcmp a b = 0 ↔ a = b := by
  constructor
  · intro h
    induction a generalizing b with
    | nil =>
      cases b with
      | nil => rfl
      | cons y ys =>
        have := y.property.1
        simp [strcmp] at h
        omega
    | cons x xs ih =>
      cases b with
      | nil =>
        have := x.property.1
        simp [strcmp] at h
        omega
      | cons y ys =>
        simp only [strcmp] at h
        split at h
        · rename_i hxy
          rw [Subtype.ext hxy, ih h]
        · omega
  · rintro rfl
    exact strcmp_self a

theorem strcmp_swap (a b : CStr) : strcmp b a = - strcmp a b := by
  induction a generalizing b with
  | nil =>
    cases b with
    | nil => rfl
    | cons y ys => simp [strcmp]
  | cons x xs ih =>
    cases b with
    | nil => simp [strcmp]
    | cons y ys =>
      simp only [strcmp]
      by_cases hxy : x.val = y.val
      · simp [hxy, ih]
      · have hyx : ¬ y.val = x.val := fun h => hxy h.symm
        simp [hxy, hyx]

theorem strcmp_lt_trans {a b c : CStr} (hab : strcmp a b < 0) (hbc : strcmp b c < 0) :
    strcmp a c < 0 := by
  induction a generalizing b c with
  | nil =>
    cases c with
    | nil =>
      cases b with
      | nil => simp [strcmp] at hab
      | cons y ys =>
        have := y.property.1
        simp [strcmp] at hbc
        omega
    | cons z zs =>
      have := z.property.1
      simp [strcmp]
      omega
  | cons x xs ih =>
    cases b with
    | nil =>
      have := x.property.1
      simp [strcmp] at hab
      omega
    | cons y ys =>
      cases c with
      | nil =>
        have := y.property.1
        simp [strcmp] at hbc
        omega
      | cons z zs =>
        simp only [strcmp] at hab hbc ⊢
        by_cases hxy : x.val = y.val
        · by_cases hyz : y.val = z.val
          · simp only [hxy, hyz, if_true] at hab hbc ⊢
            exact ih hab hbc
          · simp only [hxy, hyz, if_true, if_false] at hab hbc ⊢
            exact hbc
        · by_cases hyz : y.val = z.val
          · simp only [hxy, if_false] at hab
            have hxz : ¬ x.val = z.val := by omega
            simp only [hxz, if_false]
            omega
          · simp only [hxy, hyz, if_false] at hab hbc
            have hxz : ¬ x.val = z.val := by omega
            simp only [hxz, if_false]
            omega

theorem strcmp_le_trans {a b c : CStr} (hab : strcmp a b ≤ 0) (hbc : strcmp b c ≤ 0) :
    strcmp a c ≤ 0 := by
  rcases lt_or_eq_of_le hab with h1 | h1
  · rcases lt_or_eq_of_le hbc with h2 | h2
    · exact le_of_lt (strcmp_lt_trans h1 h2)
    · rw [← strcmp_eq_zero.mp h2]; exact hab
  · rw [strcmp_eq_zero.mp h1]; exact hbc

theorem strcmp_lt_of_lt_of_le {a b c : CStr} (hab : strcmp a b < 0) (hbc : strcmp b c ≤ 0) :
    strcmp a c < 0 := by
  rcases lt_or_eq_of_le hbc with h2 | h2
  · exact strcmp_lt_trans hab h2
  · rw [← strcmp_eq_zero.mp h2]; exact hab

theorem strcmp_le_antisymm {a b : CStr} (hab : strcmp a b ≤ 0) (hba : strcmp b a ≤ 0) :
    a = b := by
  rw [strcmp_swap a b] at hba
  exact strcmp_eq_zero.mp (by omega)

end MapReduce

namespace MapReduce

/-! ## The default partitioner is DJB2 -/

theorem int_to_ulong_natCast (n : Nat) (h : n < 2 ^ 64) : int_to_ulong (n : Int) = n := by
  unfold int_to_ulong
  have h1 : ((n : Int) % (2 ^ 64 : Int)) = (n : Int) :=
    Int.emod_eq_of_lt (by omega) (by exact_mod_cast h)
  rw [h1]
  exact Int.toNat_natCast n

theorem hash_loop_eq_foldl (char_is_signed : Bool) (key : CStr)
    (hkey : char_is_signed = false ∨ ∀ c ∈ key, c.val < 128) (hash : Nat) :
    hash_loop char_is_signed key hash
      = key.foldl (fun h c => (h * 33 + c.val) % 2 ^ 64) hash := by
  induction key generalizing hash with
  | nil => rfl
  | cons c key ih =>
    have hc : char_to_int char_is_signed c = (c.val : Int) := by
      unfold char_to_int
      rcases hkey with h | h
      · simp [h]
      · have := h c (List.mem_cons_self _ _)
        simp only [ite_eq_right_iff]
        intro hh
        omega
    have hk : char_is_signed = false ∨ ∀ c ∈ key, c.val < 128 := by
      rcases hkey with h | h
      · exact Or.inl h
      · exact Or.inr (fun d hd => h d (List.mem_cons_of_mem _ hd))
    have hlt : c.val < 2 ^ 64 := by
      have := c.property.2
      omega
    simp only [hash_loop, List.foldl_cons, hc, int_to_ulong_natCast c.val hlt, Nat.mod_add_mod]
    exact ih hk _

theorem hashpartition_eq_spec (char_is_signed : Bool) (key : CStr) (P : Nat)
    (hP : 1 ≤ P) (hP32 : P < 2 ^ 32)
    (hkey : char_is_signed = false ∨ ∀ c ∈ key, c.val < 128) :
    mr_default_hashpartition char_is_signed key P = some (djb2_spec key % P) := by
  unfold mr_default_hashpartition djb2_spec
  have hmod : P % 2 ^ 32 = P := Nat.mod_eq_of_lt hP32
  have hne : ¬ P = 0 := by omega
  simp only [hmod, hne, if_false]
  rw [hash_loop_eq_foldl char_is_signed key hkey]

/-- C9, as amended: for every key whose bytes are all below 128, and for every
key at all where plain `char` is unsigned, and for every `P` with
`1 ≤ P < 2^32`, `mr_default_hashpartition key P` is `h mod P`, where `h` starts
from 5381 and is replaced by `(h * 33 + c) mod 2^64` for each byte `c` of the
key in order. -/
theorem mr_default_hashpartition_djb2 (char_is_signed : Bool) (key : CStr) (P : Nat)
    (hP : 1 ≤ P) (hP32 : P < 2 ^ 32)
    (hkey : char_is_signed = false ∨ ∀ c ∈ key, c.val < 128) :
    mr_default_hashpartition char_is_signed key P = some (djb2_spec key % P) :=
  hashpartition_eq_spec char_is_signed key P hP hP32 hkey

/-- Witness of C9: the key "abc" with 7 partitions, `char` signed. -/
theorem mr_default_hashpartition_djb2_witness :
    mr_default_hashpartition true (cstr [97, 98, 99]) 7
      = some (djb2_spec (cstr [97, 98, 99]) % 7) :=
  mr_default_hashpartition_djb2 true (cstr [97, 98, 99]) 7 (by decide) (by decide)
    (Or.inr (by decide))

/-- C9 as stated fails where plain `char` is signed: for the one-byte key 0x80
and `P = 1000000` the code returns `(5381 * 33 - 128) mod P = 177445`, the
claim's recurrence gives `(5381 * 33 + 128) mod P = 177701`. -/
theorem mr_default_hashpartition_djb2_counterexample :
    mr_default_hashpartition true (cstr [128]) 1000000 = some 177445
      ∧ djb2_spec (cstr [128]) % 1000000 = 177701
      ∧ mr_default_hashpartition true (cstr [128]) 1000000
          ≠ some (djb2_spec (cstr [128]) % 1000000) := by
  decide

/-- C10, as amended: on the empty key with `P = 1` the default partitioner
returns 0, and on the key "abc" with any `P` between 193485964 and `2^32 - 1`
(the largest `unsigned int`) it returns
`((5381*33+'a')*33+'b')*33+'c' mod 2^32 mod P`, the literal 193485963. -/
theorem mr_default_hashpartition_abc (char_is_signed : Bool) (P : Nat)
    (hlo : 193485963 < P) (hhi : P < 2 ^ 32) :
    mr_default_hashpartition char_is_signed (cstr []) 1 = some 0
      ∧ mr_default_hashpartition char_is_signed (cstr [97, 98, 99]) P
          = some ((((5381 * 33 + 97) * 33 + 98) * 33 + 99) % 2 ^ 32 % P)
      ∧ (((5381 * 33 + 97) * 33 + 98) * 33 + 99) % 2 ^ 32 % P = 193485963 := by
  have h3 : (((5381 * 33 + 97) * 33 + 98) * 33 + 99) % 2 ^ 32 % P = 193485963 := by
    norm_num
    exact Nat.mod_eq_of_lt hlo
  refine ⟨?_, ?_, h3⟩
  · cases char_is_signed <;> decide
  · rw [hashpartition_eq_spec char_is_signed (cstr [97, 98, 99]) P (by omega) hhi
      (Or.inr (by decide)), h3]
    have : djb2_spec (cstr [97, 98, 99]) = 193485963 := by decide
    rw [this, Nat.mod_eq_of_lt hlo]

/-- Witness of C10: `P = 2^32 - 1`. -/
theorem mr_default_hashpartition_abc_witness :
    mr_default_hashpartition true (cstr []) 1 = some 0
      ∧ mr_default_hashpartition true (cstr [97, 98, 99]) (2 ^ 32 - 1)
          = some ((((5381 * 33 + 97) * 33 + 98) * 33 + 99) % 2 ^ 32 % (2 ^ 32 - 1))
      ∧ (((5381 * 33 + 97) * 33 + 98) * 33 + 99) % 2 ^ 32 % (2 ^ 32 - 1) = 193485963 :=
  mr_default_hashpartition_abc true (2 ^ 32 - 1) (by decide) (by decide)

/-- C10 as stated fails: `P = 2^32` does not fit the `unsigned int` parameter,
it arrives as 0 and `hash % 0` is undefined; no value is returned. -/
theorem mr_default_hashpartition_abc_counterexample :
    mr_default_hashpartition true (cstr [97, 98, 99]) (2 ^ 32) = none
      ∧ mr_default_hashpartition false (cstr [97, 98, 99]) (2 ^ 32) = none
      ∧ mr_default_hashpartition true (cstr [97, 98, 99]) (2 ^ 32) ≠ some 193485963 := by
  decide

end MapReduce

namespace MapReduce

/-! ## Sorted insertion into a value list -/

@[simp] theorem mr_vlist_push_nil (v : CStr) : mr_vlist_push [] v = [v] := by
  simp [mr_vlist_push]

theorem mr_vlist_push_cons (x : CStr) (rest : List CStr) (v : CStr) :
    mr_vlist_push (x :: rest) v
      = if strcmp x v > 0 then v :: x :: rest else x :: mr_vlist_push rest v := by
  cases rest with
  | nil => simp [mr_vlist_push, mr_vlist_push_loop]
  | cons y ys => simp [mr_vlist_push, mr_vlist_push_loop]

theorem mr_vlist_push_ne_nil (l : List CStr) (v : CStr) : mr_vlist_push l v ≠ [] := by
  cases l with
  | nil => simp
  | cons x rest =>
    rw [mr_vlist_push_cons]
    split <;> simp

theorem mr_vlist_push_perm (l : List CStr) (v : CStr) :
    (mr_vlist_push l v).Perm (v :: l) := by
  induction l with
  | nil => simp
  | cons x rest ih =>
    rw [mr_vlist_push_cons]
    split
    · exact List.Perm.refl _
    · exact (List.Perm.cons x ih).trans (List.Perm.swap v x rest)

theorem mr_vlist_push_sorted (l : List CStr) (v : CStr) (h : values_sorted l) :
    values_sorted (mr_vlist_push l v) := by
  unfold values_sorted at *
  induction l with
  | nil => simp
  | cons x rest ih =>
    rw [mr_vlist_push_cons]
    rw [List.pairwise_cons] at h
    split
    · rename_i hgt
      have hvx : strcmp v x ≤ 0 := by
        rw [strcmp_swap x v]; omega
      rw [List.pairwise_cons]
      refine ⟨?_, List.pairwise_cons.mpr h⟩
      intro y hy
      rcases List.mem_cons.mp hy with rfl | hy
      · exact hvx
      · exact strcmp_le_trans hvx (h.1 y hy)
    · rename_i hgt
      rw [List.pairwise_cons]
      refine ⟨?_, ih h.2⟩
      intro y hy
      rcases List.mem_cons.mp ((mr_vlist_push_perm rest v).mem_iff.mp hy) with rfl | hy
      · omega
      · exact h.1 y hy

theorem values_sorted_perm_eq {l1 l2 : List CStr} (hp : l1.Perm l2)
    (h1 : values_sorted l1) (h2 : values_sorted l2) : l1 = l2 := by
  unfold values_sorted at *
  induction l1 generalizing l2 with
  | nil => exact (List.Perm.nil_eq hp)
  | cons x xs ih =>
    cases l2 with
    | nil => exact absurd hp.symm.nil_eq (by simp)
    | cons y ys =>
      rw [List.pairwise_cons] at h1 h2
      have hxy : x = y := by
        have hx : x ∈ y :: ys := hp.mem_iff.mp (List.mem_cons_self _ _)
        have hy : y ∈ x :: xs := hp.mem_iff.mpr (List.mem_cons_self _ _)
        rcases List.mem_cons.mp hx with h | h
        · exact h
        · rcases List.mem_cons.mp hy with h' | h'
          · exact h'.symm
          · exact strcmp_le_antisymm (h1.1 y h') (h2.1 x h)
      subst hxy
      rw [ih (List.Perm.cons_inv hp) h1.2 h2.2]

end MapReduce

namespace MapReduce

/-! ## Sorted insertion into a key list -/

@[simp] theorem kvnode_push_key (n : mr_kvnode) (v : CStr) : (kvnode_push n v).key = n.key := rfl

@[simp] theorem kvnode_push_start (n : mr_kvnode) (v : CStr) :
    (kvnode_push n v).start = mr_vlist_push n.start v := rfl

@[simp] theorem kvnode_push_access_next (n : mr_kvnode) (v : CStr) :
    (kvnode_push n v).access_next = mr_vlist_push n.start v := rfl

@[simp] theorem kvlist_push_nil (k v : CStr) :
    kvlist_push k v [] = [kvnode_push (mr_kvnode_new k) v] := by
  simp [kvlist_push]

theorem kvlist_push_cons (k v : CStr) (x : mr_kvnode) (rest : List mr_kvnode) :
    kvlist_push k v (x :: rest)
      = if strcmp x.key k > 0 then kvnode_push (mr_kvnode_new k) v :: x :: rest
        else if strcmp x.key k = 0 then kvnode_push x v :: rest
        else x :: kvlist_push k v rest := by
  cases rest with
  | nil => simp [kvlist_push, mr_kvlist_push_loop]
  | cons y ys => simp [kvlist_push, mr_kvlist_push_loop]

theorem kvlist_find_nil (k : CStr) : kvlist_find k [] = none := rfl

theorem kvlist_find_cons (k : CStr) (x : mr_kvnode) (rest : List mr_kvnode) :
    kvlist_find k (x :: rest) = if x.key = k then some x else kvlist_find k rest := by
  unfold kvlist_find
  by_cases h : x.key = k <;> simp [List.find?_cons, h]

theorem kvlist_find_some {k : CStr} {l : List mr_kvnode} {n : mr_kvnode}
    (h : kvlist_find k l = some n) : n ∈ l ∧ n.key = k := by
  unfold kvlist_find at h
  exact ⟨List.mem_of_find?_eq_some h, by simpa using List.find?_some h⟩

theorem kvlist_find_none {k : CStr} {l : List mr_kvnode} :
    kvlist_find k l = none ↔ ∀ n ∈ l, n.key ≠ k := by
  unfold kvlist_find
  simp [List.find?_eq_none]

theorem keys_sorted_gt_not_mem {k : CStr} {x : mr_kvnode} {rest : List mr_kvnode}
    (hs : keys_sorted (x :: rest)) (hgt : strcmp x.key k > 0) :
    ∀ n ∈ x :: rest, strcmp k n.key < 0 := by
  unfold keys_sorted at hs
  rw [List.pairwise_cons] at hs
  have hkx : strcmp k x.key < 0 := by
    rw [strcmp_swap x.key k]; omega
  intro n hn
  rcases List.mem_cons.mp hn with rfl | hn
  · exact hkx
  · exact strcmp_lt_trans hkx (hs.1 n hn)

theorem strcmp_lt_ne {a b : CStr} (h : strcmp a b < 0) : a ≠ b := by
  intro hab
  rw [hab, strcmp_self] at h
  omega

theorem kvlist_find_of_mem {l : List mr_kvnode} (hs : keys_sorted l) {n : mr_kvnode}
    (hn : n ∈ l) : kvlist_find n.key l = some n := by
  induction l with
  | nil => simp at hn
  | cons x rest ih =>
    unfold keys_sorted at hs
    rw [List.pairwise_cons] at hs
    rw [kvlist_find_cons]
    rcases List.mem_cons.mp hn with rfl | hn
    · simp
    · have : x.key ≠ n.key := strcmp_lt_ne (hs.1 n hn)
      simp only [this, if_false]
      exact ih hs.2 hn

theorem kvlist_push_mem_key (k v : CStr) (l : List mr_kvnode) :
    ∀ n ∈ kvlist_push k v l, n.key = k ∨ n ∈ l := by
  induction l with
  | nil => simp [mr_kvnode_new]
  | cons x rest ih =>
    rw [kvlist_push_cons]
    intro n hn
    split at hn
    · rcases List.mem_cons.mp hn with rfl | hn
      · simp [mr_kvnode_new]
      · exact Or.inr hn
    · split at hn
      · rename_i h0
        rcases List.mem_cons.mp hn with rfl | hn
        · exact Or.inl (by simpa using strcmp_eq_zero.mp h0)
        · exact Or.inr (List.mem_cons_of_mem _ hn)
      · rcases List.mem_cons.mp hn with rfl | hn
        · exact Or.inr (List.mem_cons_self _ _)
        · rcases ih n hn with h | h
          · exact Or.inl h
          · exact Or.inr (List.mem_cons_of_mem _ h)

theorem kvlist_push_keys_sorted (k v : CStr) (l : List mr_kvnode) (hs : keys_sorted l) :
    keys_sorted (kvlist_push k v l) := by
  induction l with
  | nil => simp [keys_sorted]
  | cons x rest ih =>
    rw [kvlist_push_cons]
    have hs' := hs
    unfold keys_sorted at hs'
    rw [List.pairwise_cons] at hs'
    split
    · rename_i hgt
      unfold keys_sorted
      rw [List.pairwise_cons]
      exact ⟨fun n hn => keys_sorted_gt_not_mem hs hgt n hn, hs⟩
    · split
      · rename_i h0
        unfold keys_sorted
        rw [List.pairwise_cons]
        exact ⟨fun n hn => by simpa using hs'.1 n hn, hs'.2⟩
      · rename_i hgt h0
        have hlt : strcmp x.key k < 0 := by omega
        unfold keys_sorted
        rw [List.pairwise_cons]
        refine ⟨?_, ih hs'.2⟩
        intro n hn
        rcases kvlist_push_mem_key k v rest n hn with h | h
        · rw [h]; exact hlt
        · exact hs'.1 n h

theorem kvlist_find_push (k v : CStr) (l : List mr_kvnode) (hs : keys_sorted l) (k1 : CStr) :
    kvlist_find k1 (kvlist_push k v l)
      = if k1 = k then some (kvnode_push ((kvlist_find k l).getD (mr_kvnode_new k)) v)
        else kvlist_find k1 l := by
  induction l with
  | nil =>
    by_cases h : k1 = k
    · simp [kvlist_find_cons, kvlist_find_nil, h, mr_kvnode_new]
    · have h' : ¬ k = k1 := fun e => h e.symm
      simp [kvlist_find_cons, kvlist_find_nil, h, h', mr_kvnode_new]
  | cons x rest ih =>
    have hs' := hs
    unfold keys_sorted at hs'
    rw [List.pairwise_cons] at hs'
    rw [kvlist_push_cons]
    split
    · rename_i hgt
      have hnone : kvlist_find k (x :: rest) = none :=
        kvlist_find_none.mpr
          (fun n hn => (strcmp_lt_ne (keys_sorted_gt_not_mem hs hgt n hn)).symm)
      rw [hnone, kvlist_find_cons (k1) (kvnode_push (mr_kvnode_new k) v)]
      by_cases h : k1 = k
      · simp [h, mr_kvnode_new]
      · have h' : ¬ k = k1 := fun e => h e.symm
        simp [h, h', mr_kvnode_new]
    · split
      · rename_i hgt h0
        have hxk : x.key = k := strcmp_eq_zero.mp h0
        rw [kvlist_find_cons k1 (kvnode_push x v), kvlist_find_cons k x, kvlist_find_cons k1 x]
        by_cases h : k1 = k
        · simp [h, hxk]
        · have h' : ¬ k = k1 := fun e => h e.symm
          simp [h, h', hxk]
      · rename_i hgt h0
        have hxk : ¬ x.key = k := fun e => h0 (strcmp_eq_zero.mpr e)
        rw [kvlist_find_cons k1 x, kvlist_find_cons k x, kvlist_find_cons k1 x, ih hs'.2]
        by_cases h : k1 = k
        · subst h
          simp [hxk]
        · simp only [h, if_false, hxk]

theorem keys_sorted_ext {l1 l2 : List mr_kvnode} (h1 : keys_sorted l1) (h2 : keys_sorted l2)
    (h : ∀ k, kvlist_find k l1 = kvlist_find k l2) : l1 = l2 := by
  induction l1 generalizing l2 with
  | nil =>
    cases l2 with
    | nil => rfl
    | cons y ys =>
      have := h y.key
      simp [kvlist_find_cons, kvlist_find_nil] at this
  | cons x xs ih =>
    cases l2 with
    | nil =>
      have := h x.key
      simp [kvlist_find_cons, kvlist_find_nil] at this
    | cons y ys =>
      have h1' := h1
      have h2' := h2
      unfold keys_sorted at h1' h2'
      rw [List.pairwise_cons] at h1' h2'
      have hx : x ∈ y :: ys := by
        have := h x.key
        rw [kvlist_find_of_mem h1 (List.mem_cons_self _ _)] at this
        exact (kvlist_find_some this.symm).1
      have hy : y ∈ x :: xs := by
        have := h y.key
        rw [kvlist_find_of_mem h2 (List.mem_cons_self _ _)] at this
        exact (kvlist_find_some this).1
      have hxy : x = y := by
        rcases List.mem_cons.mp hx with e | hx'
        · exact e
        · rcases List.mem_cons.mp hy with e | hy'
          · exact e.symm
          · have a := h1'.1 y hy'
            have b := h2'.1 x hx'
            rw [strcmp_swap x.key y.key] at b
            omega
      subst hxy
      congr 1
      apply ih h1'.2 h2'.2
      intro k
      have := h k
      rw [kvlist_find_cons, kvlist_find_cons] at this
      by_cases hk : x.key = k
      · subst hk
        rw [kvlist_find_none.mpr (fun n hn => (strcmp_lt_ne (h1'.1 n hn)).symm),
          kvlist_find_none.mpr (fun n hn => (strcmp_lt_ne (h2'.1 n hn)).symm)]
      · simpa [hk] using this

end MapReduce

namespace MapReduce

/-! ## The getter on a key list -/

theorem get_next_loop_none {key : CStr} {l : List mr_kvnode}
    (h : kvlist_find key l = none) : get_next_loop key l = (none, l) := by
  induction l with
  | nil => rfl
  | cons x rest ih =>
    rw [kvlist_find_cons] at h
    by_cases hx : x.key = key
    · simp [hx] at h
    · simp only [hx, if_false] at h
      have h0 : strcmp x.key key ≠ 0 := fun e => hx (strcmp_eq_zero.mp e)
      simp only [get_next_loop, h0, ne_eq, not_false_eq_true, if_true, ih h]

theorem get_next_loop_some {key : CStr} {l : List mr_kvnode} {n : mr_kvnode}
    (h : kvlist_find key l = some n) :
    (get_next_loop key l).1 = n.access_next.head?
      ∧ kvlist_find key (get_next_loop key l).2
          = some { n with access_next := n.access_next.tail }
      ∧ ∀ k1, k1 ≠ key → kvlist_find k1 (get_next_loop key l).2 = kvlist_find k1 l := by
  induction l with
  | nil => simp [kvlist_find_nil] at h
  | cons x rest ih =>
    rw [kvlist_find_cons] at h
    by_cases hx : x.key = key
    · simp only [hx, if_true, Option.some.injEq] at h
      subst h
      have h0 : ¬ strcmp x.key key ≠ 0 := by
        simp [strcmp_eq_zero.mpr hx]
      simp only [get_next_loop, h0, if_false]
      cases hc : x.access_next with
      | nil =>
        refine ⟨by simp, ?_, fun k1 _ => rfl⟩
        rw [kvlist_find_cons]
        simp only [hx, if_true]
        cases x
        simp_all
      | cons value next =>
        refine ⟨by simp, ?_, ?_⟩
        · rw [kvlist_find_cons]
          simp [hx]
        · intro k1 hk1
          have : ¬ key = k1 := fun e => hk1 e.symm
          rw [kvlist_find_cons, kvlist_find_cons]
          simp [hx, this]
    · simp only [hx, if_false] at h
      have h0 : strcmp x.key key ≠ 0 := fun e => hx (strcmp_eq_zero.mp e)
      simp only [get_next_loop, h0, ne_eq, not_false_eq_true, if_true]
      obtain ⟨a, b, c⟩ := ih h
      refine ⟨a, ?_, ?_⟩
      · rw [kvlist_find_cons]
        simp only [hx, if_false]
        exact b
      · intro k1 hk1
        rw [kvlist_find_cons, kvlist_find_cons, c k1 hk1]

theorem get_next_loop_shape (key : CStr) (l : List mr_kvnode) :
    (get_next_loop key l).2.map (fun n => (n.key, n.start))
      = l.map (fun n => (n.key, n.start)) := by
  induction l with
  | nil => rfl
  | cons x rest ih =>
    simp only [get_next_loop]
    split
    · simp [ih]
    · split <;> simp

theorem keys_sorted_of_shape {l1 l2 : List mr_kvnode}
    (h : l1.map (fun n => (n.key, n.start)) = l2.map (fun n => (n.key, n.start)))
    (hs : keys_sorted l2) : keys_sorted l1 := by
  unfold keys_sorted at *
  have e1 : List.Pairwise (fun a b : CStr × List CStr => strcmp a.1 b.1 < 0)
      (l2.map (fun n => (n.key, n.start))) := by
    rw [List.pairwise_map]; exact hs
  rw [← h, List.pairwise_map] at e1
  exact e1

theorem mem_of_shape {l1 l2 : List mr_kvnode}
    (h : l1.map (fun n => (n.key, n.start)) = l2.map (fun n => (n.key, n.start)))
    {n : mr_kvnode} (hn : n ∈ l1) : ∃ m ∈ l2, m.key = n.key ∧ m.start = n.start := by
  have : (n.key, n.start) ∈ l1.map (fun n => (n.key, n.start)) :=
    List.mem_map.mpr ⟨n, hn, rfl⟩
  rw [h] at this
  obtain ⟨m, hm, e⟩ := List.mem_map.mp this
  simp only [Prod.mk.injEq] at e
  exact ⟨m, hm, e.1, e.2⟩

end MapReduce

namespace MapReduce

/-! ## What a store holds after a sequence of emits -/

theorem emitted_values_append (k : CStr) (acc kvs : List (CStr × CStr)) :
    emitted_values k (acc ++ kvs) = emitted_values k acc ++ emitted_values k kvs := by
  simp [emitted_values]

theorem emitted_values_single (k k1 v : CStr) :
    emitted_values k [(k1, v)] = if k1 = k then [v] else [] := by
  by_cases h : k1 = k <;> simp [emitted_values, h]

theorem emitted_values_eq_nil {k : CStr} {kvs : List (CStr × CStr)} :
    emitted_values k kvs = [] ↔ ∀ kv ∈ kvs, kv.1 ≠ k := by
  simp [emitted_values, List.filter_eq_nil_iff]

theorem mr_emit_eq_some {partition_fn : partitioner} {P : Nat} {k v : CStr} {s s1 : Store}
    (h : mr_emit partition_fn P k v s = some s1) :
    ∃ p part, partition_fn k P = some p ∧ s[p]? = some part
      ∧ s1 = s.set p (kvlist_push k v part) := by
  unfold mr_emit at h
  cases hp : partition_fn k P with
  | none => simp [hp] at h
  | some p =>
    simp only [hp, mr_kvlist_push] at h
    cases hq : s[p]? with
    | none => simp [hq] at h
    | some part =>
      simp only [hq, Option.some.injEq] at h
      exact ⟨p, part, rfl, hq, h.symm⟩

theorem mr_emit_of_lt {partition_fn : partitioner} {P : Nat} {k : CStr} (v : CStr) {s : Store}
    {p : Nat} (hp : partition_fn k P = some p) (hlt : p < s.length) :
    mr_emit partition_fn P k v s = some (s.set p (kvlist_push k v (s.get ⟨p, hlt⟩))) := by
  unfold mr_emit mr_kvlist_push
  simp only [hp]
  rw [List.getElem?_eq_getElem hlt]
  rfl

theorem store_holds_init (partition_fn : partitioner) (P : Nat) :
    store_holds partition_fn P [] (mr_master_kvlist_init P) := by
  refine ⟨by simp [mr_master_kvlist_init], ?_, by simp⟩
  intro p part hp
  have : part = [] := by
    unfold mr_master_kvlist_init at hp
    rw [List.getElem?_replicate] at hp
    split at hp
    · exact (Option.some.inj hp).symm
    · simp at hp
  subst this
  exact ⟨by simp [keys_sorted], by simp⟩

theorem store_holds_emit {partition_fn : partitioner} {P : Nat} {acc : List (CStr × CStr)}
    {s s1 : Store} {k v : CStr} (hs : store_holds partition_fn P acc s)
    (he : mr_emit partition_fn P k v s = some s1) :
    store_holds partition_fn P (acc ++ [(k, v)]) s1 := by
  obtain ⟨p, part, hp, hpart, rfl⟩ := mr_emit_eq_some he
  obtain ⟨hlen, hparts, hkeys⟩ := hs
  have hplt : p < s.length := by
    by_contra hge
    rw [List.getElem?_eq_none (by omega)] at hpart
    simp at hpart
  obtain ⟨hsorted, hnodes⟩ := hparts p part hpart
  -- the node the value is pushed into
  have hnode : ∀ n0, (kvlist_find k part).getD (mr_kvnode_new k) = n0 →
      n0.key = k ∧ values_sorted n0.start ∧ n0.start.Perm (emitted_values k acc) := by
    intro n0 hn0
    cases hf : kvlist_find k part with
    | none =>
      rw [hf] at hn0
      simp only [Option.getD_none] at hn0
      subst hn0
      refine ⟨rfl, by simp [mr_kvnode_new, values_sorted], ?_⟩
      have : emitted_values k acc = [] := by
        rw [emitted_values_eq_nil]
        intro kv hkv hk
        obtain ⟨q, part1, n, hq, hpart1, hn, hnk⟩ := hkeys kv hkv
        rw [hk, hp] at hq
        cases hq
        rw [hpart] at hpart1
        cases hpart1
        exact kvlist_find_none.mp hf n hn (hnk.trans hk)
      rw [this]
      exact List.Perm.refl _
    | some n =>
      rw [hf] at hn0
      simp only [Option.getD_some] at hn0
      subst hn0
      obtain ⟨hmem, hkey⟩ := kvlist_find_some hf
      obtain ⟨_, _, _, hvs, hperm⟩ := hnodes n hmem
      rw [hkey] at hperm
      exact ⟨hkey, hvs, hperm⟩
  refine ⟨by rw [List.length_set]; exact hlen, ?_, ?_⟩
  · intro q part1 hq
    by_cases hqp : q = p
    · subst hqp
      rw [List.getElem?_set_self hplt] at hq
      cases hq
      have hsorted1 := kvlist_push_keys_sorted k v part hsorted
      refine ⟨hsorted1, ?_⟩
      intro n hn
      have hfind := kvlist_find_of_mem hsorted1 hn
      rw [kvlist_find_push k v part hsorted] at hfind
      by_cases hnk : n.key = k
      · simp only [hnk, if_true, Option.some.injEq] at hfind
        obtain ⟨hk0, hvs0, hperm0⟩ := hnode _ rfl
        rw [← hfind]
        refine ⟨by simpa [hk0] using hp, rfl, mr_vlist_push_ne_nil _ _,
          mr_vlist_push_sorted _ _ hvs0, ?_⟩
        simp only [kvnode_push_key, kvnode_push_start, hk0, emitted_values_append,
          emitted_values_single, if_true]
        exact (mr_vlist_push_perm _ v).trans
          ((List.Perm.cons v hperm0).trans (List.perm_append_singleton v _).symm)
      · simp only [hnk, if_false] at hfind
        obtain ⟨hmem, _⟩ := kvlist_find_some hfind
        obtain ⟨a, b, c, d, e⟩ := hnodes n hmem
        refine ⟨a, b, c, d, ?_⟩
        have : ¬ k = n.key := fun e => hnk e.symm
        simpa [emitted_values_append, emitted_values_single, this] using e
    · rw [List.getElem?_set_ne (fun e => hqp e.symm)] at hq
      obtain ⟨hsq, hnq⟩ := hparts q part1 hq
      refine ⟨hsq, ?_⟩
      intro n hn
      obtain ⟨a, b, c, d, e⟩ := hnq n hn
      refine ⟨a, b, c, d, ?_⟩
      have : ¬ k = n.key := by
        intro hk
        rw [← hk, hp] at a
        exact hqp (Option.some.inj a).symm
      simpa [emitted_values_append, emitted_values_single, this] using e
  · intro kv hkv
    have hsorted1 := kvlist_push_keys_sorted k v part hsorted
    have hpushed : ∃ n ∈ kvlist_push k v part, n.key = k := by
      have := kvlist_find_push k v part hsorted k
      simp only [if_true] at this
      obtain ⟨hmem, hkey⟩ := kvlist_find_some this
      exact ⟨_, hmem, hkey⟩
    rcases List.mem_append.mp hkv with hold | hnew
    · obtain ⟨q, part1, n, hq, hpart1, hn, hnk⟩ := hkeys kv hold
      by_cases hqp : q = p
      · subst hqp
        rw [hpart] at hpart1
        cases hpart1
        refine ⟨q, kvlist_push k v part, ?_⟩
        by_cases hk : kv.1 = k
        · obtain ⟨m, hm, hmk⟩ := hpushed
          exact ⟨m, hq, List.getElem?_set_self hplt, hm, hmk.trans hk.symm⟩
        · have hf := kvlist_find_of_mem hsorted hn
          have hf1 := kvlist_find_push k v part hsorted n.key
          have hne : ¬ n.key = k := fun e => hk (hnk.symm.trans e)
          simp only [hne, if_false] at hf1
          rw [hf] at hf1
          exact ⟨n, hq, List.getElem?_set_self hplt, (kvlist_find_some hf1).1, hnk⟩
      · exact ⟨q, part1, n, hq, by rw [List.getElem?_set_ne (fun e => hqp e.symm)]; exact hpart1,
          hn, hnk⟩
    · simp only [List.mem_singleton] at hnew
      subst hnew
      obtain ⟨m, hm, hmk⟩ := hpushed
      exact ⟨p, kvlist_push k v part, m, hp, List.getElem?_set_self hplt, hm, hmk⟩

theorem store_holds_emit_all {partition_fn : partitioner} {P : Nat}
    (kvs : List (CStr × CStr)) {acc : List (CStr × CStr)} {s s1 : Store}
    (hs : store_holds partition_fn P acc s)
    (he : mr_emit_all partition_fn P kvs s = some s1) :
    store_holds partition_fn P (acc ++ kvs) s1 := by
  induction kvs generalizing acc s with
  | nil =>
    simp only [mr_emit_all, Option.some.injEq] at he
    subst he
    simpa using hs
  | cons kv rest ih =>
    simp only [mr_emit_all] at he
    cases h1 : mr_emit partition_fn P kv.1 kv.2 s with
    | none => simp [h1] at he
    | some s2 =>
      simp only [h1] at he
      have := ih (store_holds_emit hs h1) he
      simpa using this

theorem store_holds_of_emit_all {partition_fn : partitioner} {P : Nat}
    {kvs : List (CStr × CStr)} {s : Store}
    (he : mr_emit_all partition_fn P kvs (mr_master_kvlist_init P) = some s) :
    store_holds partition_fn P kvs s := by
  simpa using store_holds_emit_all kvs (store_holds_init partition_fn P) he

end MapReduce

namespace MapReduce

/-! ## The getter on a store -/

theorem store_holds_find {partition_fn : partitioner} {P : Nat} {kvs : List (CStr × CStr)}
    {s : Store} (hs : store_holds partition_fn P kvs s) {k : CStr} {p : Nat}
    (hp : partition_fn k P = some p) {part : List mr_kvnode} (hpart : s[p]? = some part) :
    (emitted_values k kvs = [] ∧ kvlist_find k part = none)
      ∨ ∃ n, kvlist_find k part = some n ∧ n.key = k ∧ n.access_next = n.start
          ∧ values_sorted n.start ∧ n.start.Perm (emitted_values k kvs) := by
  obtain ⟨_, hparts, hkeys⟩ := hs
  obtain ⟨hsorted, hnodes⟩ := hparts p part hpart
  cases hf : kvlist_find k part with
  | none =>
    left
    refine ⟨?_, rfl⟩
    rw [emitted_values_eq_nil]
    intro kv hkv hk
    obtain ⟨q, part1, n, hq, hpart1, hn, hnk⟩ := hkeys kv hkv
    rw [hk, hp] at hq
    cases hq
    rw [hpart] at hpart1
    cases hpart1
    exact kvlist_find_none.mp hf n hn (hnk.trans hk)
  | some n =>
    right
    obtain ⟨hmem, hkey⟩ := kvlist_find_some hf
    obtain ⟨_, b, _, d, e⟩ := hnodes n hmem
    rw [hkey] at e
    exact ⟨n, rfl, hkey, b, d, e⟩

theorem mr_get_next_value_eq {key : CStr} {p : Nat} {s : Store} {part : List mr_kvnode}
    (hpart : s[p]? = some part) :
    mr_get_next_value key p s
      = some ((get_next_loop key part).1, s.set p (get_next_loop key part).2) := by
  unfold mr_get_next_value
  simp only [hpart]

theorem getElem?_set_some {s : Store} {p : Nat} {part : List mr_kvnode}
    (hpart : s[p]? = some part) (part1 : List mr_kvnode) : (s.set p part1)[p]? = some part1 := by
  have hplt : p < s.length := by
    by_contra hge
    rw [List.getElem?_eq_none (by omega)] at hpart
    simp at hpart
  exact List.getElem?_set_self hplt

theorem get_next_all_none {key : CStr} {p : Nat} {s : Store} {part : List mr_kvnode}
    (hpart : s[p]? = some part) (hf : kvlist_find key part = none) (fuel : Nat) :
    get_next_all mr_get_next_value key p (fuel + 1) s = some ([], s)
      ∧ ∀ count, reduce_count mr_get_next_value key p (fuel + 1) count s = some (count, s) := by
  have hset : s.set p part = s := by
    apply List.ext_getElem?
    intro i
    by_cases hi : i = p
    · subst hi
      rw [getElem?_set_some hpart, hpart]
    · rw [List.getElem?_set_ne (fun e => hi e.symm)]
  simp only [get_next_all, reduce_count, mr_get_next_value_eq hpart, get_next_loop_none hf, hset]
  simp

theorem get_next_all_some (key : CStr) (p : Nat) (cursor : List CStr) :
    ∀ (s : Store) (part : List mr_kvnode) (n : mr_kvnode) (fuel : Nat),
      s[p]? = some part → kvlist_find key part = some n → n.access_next = cursor →
      cursor.length < fuel →
      (∃ s1, get_next_all mr_get_next_value key p fuel s = some (cursor, s1))
        ∧ ∀ count, count + cursor.length < 2 ^ 31 →
            ∃ s1, reduce_count mr_get_next_value key p fuel count s
              = some (count + cursor.length, s1) := by
  induction cursor with
  | nil =>
    intro s part n fuel hpart hf hc hfuel
    obtain ⟨fuel, rfl⟩ : ∃ f, fuel = f + 1 := ⟨fuel - 1, by simp at hfuel; omega⟩
    obtain ⟨h1, _, _⟩ := get_next_loop_some hf
    rw [hc] at h1
    simp only [List.head?_nil] at h1
    simp only [get_next_all, reduce_count, mr_get_next_value_eq hpart, h1]
    simp
  | cons value next ih =>
    intro s part n fuel hpart hf hc hfuel
    obtain ⟨fuel, rfl⟩ : ∃ f, fuel = f + 1 := ⟨fuel - 1, by simp at hfuel; omega⟩
    obtain ⟨h1, h2, _⟩ := get_next_loop_some hf
    rw [hc] at h1 h2
    simp only [List.head?_cons, List.tail_cons] at h1 h2
    have hfuel1 : next.length < fuel := by simp at hfuel; omega
    obtain ⟨⟨s1, hs1⟩, hcount⟩ := ih (s.set p (get_next_loop key part).2) _ _ fuel
      (getElem?_set_some hpart _) h2 rfl hfuel1
    constructor
    · refine ⟨s1, ?_⟩
      simp only [get_next_all, mr_get_next_value_eq hpart, h1, hs1]
    · intro count hbound
      simp only [List.length_cons] at hbound
      obtain ⟨s2, hs2⟩ := hcount (count + 1) (by omega)
      refine ⟨s2, ?_⟩
      have hlt : count + 1 < 2 ^ 31 := by omega
      simp only [reduce_count, mr_get_next_value_eq hpart, h1, hlt, if_true, hs2,
        List.length_cons]
      congr 2
      omega

theorem reduce_count_overflow (key : CStr) (p : Nat) (cursor : List CStr) :
    ∀ (s : Store) (part : List mr_kvnode) (n : mr_kvnode) (fuel count : Nat),
      s[p]? = some part → kvlist_find key part = some n → n.access_next = cursor →
      count < 2 ^ 31 → 2 ^ 31 ≤ count + cursor.length →
      reduce_count mr_get_next_value key p fuel count s = none := by
  induction cursor with
  | nil =>
    intro s part n fuel count _ _ _ h1 h2
    simp only [List.length_nil] at h2
    omega
  | cons value next ih =>
    intro s part n fuel count hpart hf hc hlt hbig
    cases fuel with
    | zero => rfl
    | succ fuel =>
      obtain ⟨h1, h2, _⟩ := get_next_loop_some hf
      rw [hc] at h1 h2
      simp only [List.head?_cons, List.tail_cons] at h1 h2
      simp only [reduce_count, mr_get_next_value_eq hpart, h1]
      simp only [List.length_cons] at hbig
      by_cases hnext : count + 1 < 2 ^ 31
      · rw [if_pos hnext]
        exact ih (s.set p (get_next_loop key part).2) _ _ fuel (count + 1)
          (getElem?_set_some hpart _) h2 rfl hnext (by omega)
      · rw [if_neg hnext]

end MapReduce

namespace MapReduce

/-! ## Emits succeed when the partitioner is in range, and commute -/

theorem mr_emit_all_some_iff (partition_fn : partitioner) (P : Nat) (kvs : List (CStr × CStr)) :
    ∀ s : Store, s.length = P →
      ((∃ s1, mr_emit_all partition_fn P kvs s = some s1)
        ↔ ∀ kv ∈ kvs, ∃ p, partition_fn kv.1 P = some p ∧ p < P) := by
  induction kvs with
  | nil => intro s _; simp [mr_emit_all]
  | cons kv rest ih =>
    intro s hlen
    constructor
    · rintro ⟨s1, h⟩
      simp only [mr_emit_all] at h
      cases h1 : mr_emit partition_fn P kv.1 kv.2 s with
      | none => simp [h1] at h
      | some s2 =>
        simp only [h1] at h
        obtain ⟨p, part, hp, hpart, rfl⟩ := mr_emit_eq_some h1
        have hplt : p < P := by
          by_contra hge
          rw [List.getElem?_eq_none (by omega)] at hpart
          simp at hpart
        have hrest := (ih (s.set p (kvlist_push kv.1 kv.2 part))
          (by rw [List.length_set]; exact hlen)).mp ⟨s1, h⟩
        intro kv1 hkv1
        rcases List.mem_cons.mp hkv1 with rfl | hmem
        · exact ⟨p, hp, hplt⟩
        · exact hrest kv1 hmem
    · intro h
      obtain ⟨p, hp, hplt⟩ := h kv (List.mem_cons_self _ _)
      have hlt : p < s.length := by omega
      obtain ⟨s1, hs1⟩ := (ih (s.set p (kvlist_push kv.1 kv.2 (s.get ⟨p, hlt⟩)))
        (by rw [List.length_set]; exact hlen)).mpr
        (fun kv1 hkv1 => h kv1 (List.mem_cons_of_mem _ hkv1))
      refine ⟨s1, ?_⟩
      simp only [mr_emit_all, mr_emit_of_lt kv.2 hp hlt, hs1]

theorem mr_emit_all_some (partition_fn : partitioner) (P : Nat)
    (hpf : partitioner_in_range partition_fn P) (kvs : List (CStr × CStr)) :
    ∃ s, mr_emit_all partition_fn P kvs (mr_master_kvlist_init P) = some s :=
  (mr_emit_all_some_iff partition_fn P kvs _ (by simp [mr_master_kvlist_init])).mpr
    (fun kv _ => hpf kv.1)

theorem store_holds_find_perm {partition_fn : partitioner} {P : Nat}
    {l1 l2 : List (CStr × CStr)} {s1 s2 : Store} (hperm : l1.Perm l2)
    (h1 : store_holds partition_fn P l1 s1) (h2 : store_holds partition_fn P l2 s2)
    {p : Nat} {part1 part2 : List mr_kvnode} (hp1 : s1[p]? = some part1)
    (hp2 : s2[p]? = some part2) {k : CStr} {n : mr_kvnode}
    (hf : kvlist_find k part1 = some n) : kvlist_find k part2 = some n := by
  obtain ⟨hmem, hkey⟩ := kvlist_find_some hf
  obtain ⟨hpk, hacc, hne, hvs, hpm⟩ := (h1.2.1 p part1 hp1).2 n hmem
  rw [hkey] at hpk hpm
  have hvals : (emitted_values k l1).Perm (emitted_values k l2) := by
    unfold emitted_values
    exact (hperm.filter _).map _
  rcases store_holds_find h2 hpk hp2 with ⟨hnil, _⟩ | ⟨m, hm, hmk, hmacc, hmvs, hmpm⟩
  · rw [hnil] at hvals
    have := (hpm.trans hvals).eq_nil
    exact absurd this hne
  · rw [hm]
    have hstart : m.start = n.start :=
      values_sorted_perm_eq (hmpm.trans (hvals.symm.trans hpm.symm)) hmvs hvs
    congr 1
    cases m
    cases n
    simp_all

theorem mr_emit_all_perm (partition_fn : partitioner) (P : Nat) {l1 l2 : List (CStr × CStr)}
    (hperm : l1.Perm l2) :
    mr_emit_all partition_fn P l1 (mr_master_kvlist_init P)
      = mr_emit_all partition_fn P l2 (mr_master_kvlist_init P) := by
  have hlen : (mr_master_kvlist_init P).length = P := by simp [mr_master_kvlist_init]
  have hiff1 := mr_emit_all_some_iff partition_fn P l1 _ hlen
  have hiff2 := mr_emit_all_some_iff partition_fn P l2 _ hlen
  have hsame : (∀ kv ∈ l1, ∃ p, partition_fn kv.1 P = some p ∧ p < P)
      ↔ ∀ kv ∈ l2, ∃ p, partition_fn kv.1 P = some p ∧ p < P :=
    ⟨fun h kv hkv => h kv (hperm.mem_iff.mpr hkv), fun h kv hkv => h kv (hperm.mem_iff.mp hkv)⟩
  cases e1 : mr_emit_all partition_fn P l1 (mr_master_kvlist_init P) with
  | none =>
    cases e2 : mr_emit_all partition_fn P l2 (mr_master_kvlist_init P) with
    | none => rfl
    | some s2 =>
      obtain ⟨s1, hs1⟩ := hiff1.mpr (hsame.mpr (hiff2.mp ⟨s2, e2⟩))
      rw [e1] at hs1
      cases hs1
  | some s1 =>
    obtain ⟨s2, e2⟩ := hiff2.mpr (hsame.mp (hiff1.mp ⟨s1, e1⟩))
    rw [e2]
    congr 1
    have h1 := store_holds_of_emit_all e1
    have h2 := store_holds_of_emit_all e2
    apply List.ext_getElem?
    intro p
    cases hp1 : s1[p]? with
    | none =>
      have : s1.length ≤ p := by
        by_contra hc
        rw [List.getElem?_eq_getElem (by omega)] at hp1
        cases hp1
      rw [List.getElem?_eq_none (by rw [h2.1, ← h1.1]; exact this)]
    | some part1 =>
      have hlt : p < s2.length := by
        rw [h2.1, ← h1.1]
        by_contra hc
        rw [List.getElem?_eq_none (by omega)] at hp1
        cases hp1
      have hp2 : s2[p]? = some (s2.get ⟨p, hlt⟩) := List.getElem?_eq_getElem hlt
      rw [hp2]
      congr 1
      apply keys_sorted_ext (h1.2.1 p part1 hp1).1 (h2.2.1 p _ hp2).1
      intro k
      cases hf1 : kvlist_find k part1 with
      | none =>
        cases hf2 : kvlist_find k (s2.get ⟨p, hlt⟩) with
        | none => rfl
        | some n =>
          have := store_holds_find_perm hperm.symm h2 h1 hp2 hp1 hf2
          rw [hf1] at this
          cases this
      | some n => exact (store_holds_find_perm hperm h1 h2 hp1 hp2 hf1).symm

end MapReduce

namespace MapReduce

/-! ## The store invariant and the partition of a key -/

theorem kvlist_inv_push (k v : CStr) {l : List mr_kvnode} (h : kvlist_inv l) :
    kvlist_inv (kvlist_push k v l) := by
  obtain ⟨hs, hn⟩ := h
  have hs1 := kvlist_push_keys_sorted k v l hs
  refine ⟨hs1, ?_⟩
  intro n hmem
  have hfind := kvlist_find_of_mem hs1 hmem
  rw [kvlist_find_push k v l hs] at hfind
  by_cases hk : n.key = k
  · simp only [hk, if_true, Option.some.injEq] at hfind
    rw [← hfind]
    refine ⟨mr_vlist_push_ne_nil _ _, mr_vlist_push_sorted _ _ ?_⟩
    cases hf : kvlist_find k l with
    | none => simp [mr_kvnode_new, values_sorted]
    | some m => exact (hn m (kvlist_find_some hf).1).2
  · simp only [hk, if_false] at hfind
    exact hn n (kvlist_find_some hfind).1

theorem kvlist_inv_get_next (key : CStr) {l : List mr_kvnode} (h : kvlist_inv l) :
    kvlist_inv (get_next_loop key l).2 := by
  obtain ⟨hs, hn⟩ := h
  refine ⟨keys_sorted_of_shape (get_next_loop_shape key l) hs, ?_⟩
  intro n hmem
  obtain ⟨m, hm, _, hstart⟩ := mem_of_shape (get_next_loop_shape key l) hmem
  rw [← hstart]
  exact hn m hm

theorem store_inv_set {s : Store} (h : store_inv s) (p : Nat) {part : List mr_kvnode}
    (hpart : kvlist_inv part) : store_inv (s.set p part) := by
  intro part1 hmem
  rcases List.mem_or_eq_of_mem_set hmem with h1 | h1
  · exact h part1 h1
  · rw [h1]; exact hpart

theorem store_inv_kvlist_push {k v : CStr} {p : Nat} {s s1 : Store} (h : store_inv s)
    (he : mr_kvlist_push k v p s = some s1) : store_inv s1 := by
  unfold mr_kvlist_push at he
  cases hq : s[p]? with
  | none => simp [hq] at he
  | some part =>
    simp only [hq, Option.some.injEq] at he
    rw [← he]
    exact store_inv_set h p (kvlist_inv_push k v (h part (List.getElem?_mem hq)))

theorem store_inv_run_op {partition_fn : partitioner} {P : Nat} {op : store_op} {s s1 : Store}
    (h : store_inv s) (he : run_op partition_fn P op s = some s1) : store_inv s1 := by
  cases op with
  | emit key value =>
    simp only [run_op, mr_emit] at he
    cases hp : partition_fn key P with
    | none => simp [hp] at he
    | some p =>
      simp only [hp] at he
      exact store_inv_kvlist_push h he
  | get_next key p =>
    simp only [run_op] at he
    cases hq : s[p]? with
    | none => simp [mr_get_next_value, hq] at he
    | some part =>
      rw [mr_get_next_value_eq hq] at he
      simp only [Option.some.injEq] at he
      rw [← he]
      exact store_inv_set h p (kvlist_inv_get_next key (h part (List.getElem?_mem hq)))

theorem store_inv_run_ops {partition_fn : partitioner} {P : Nat} (ops : List store_op) :
    ∀ {s s1 : Store}, store_inv s → run_ops partition_fn P ops s = some s1 → store_inv s1 := by
  induction ops with
  | nil =>
    intro s s1 h he
    simp only [run_ops, Option.some.injEq] at he
    rw [← he]; exact h
  | cons op rest ih =>
    intro s s1 h he
    simp only [run_ops] at he
    cases h1 : run_op partition_fn P op s with
    | none => simp [h1] at he
    | some s2 =>
      simp only [h1] at he
      exact ih (store_inv_run_op h h1) he

theorem store_inv_init (P : Nat) : store_inv (mr_master_kvlist_init P) := by
  intro part hmem
  have : part = [] := List.eq_of_mem_replicate hmem
  subst this
  exact ⟨by simp [keys_sorted], by simp⟩

theorem keys_sorted_nodup {l : List mr_kvnode} (h : keys_sorted l) : (kvlist_keys l).Nodup := by
  unfold keys_sorted at h
  unfold kvlist_keys List.Nodup
  rw [List.pairwise_map]
  exact h.imp (fun hab => strcmp_lt_ne hab)

/-- C6: in every store reached from the empty store by `mr_emit` and getter
calls, the keys of each partition are strictly ascending in byte-lexicographic
order (hence pairwise different) and the values under each key are not empty and
non-decreasing; `mr_kvlist_push` preserves this predicate. -/
theorem store_invariant (partition_fn : partitioner) (P : Nat) :
    (∀ (ops : List store_op) (s : Store),
        run_ops partition_fn P ops (mr_master_kvlist_init P) = some s →
        store_inv s ∧ ∀ part ∈ s, (kvlist_keys part).Nodup)
    ∧ (∀ (k v : CStr) (p : Nat) (s s1 : Store),
        store_inv s → mr_kvlist_push k v p s = some s1 → store_inv s1) := by
  constructor
  · intro ops s he
    have h := store_inv_run_ops ops (store_inv_init P) he
    exact ⟨h, fun part hpart => keys_sorted_nodup (h part hpart).1⟩
  · intro k v p s s1 h he
    exact store_inv_kvlist_push h he

theorem mr_emit_frame {partition_fn : partitioner} {P : Nat} (k v : CStr) {s : Store} {p : Nat}
    (hlen : s.length = P) (hp : partition_fn k P = some p) (hplt : p < P) :
    ∃ s1, mr_emit partition_fn P k v s = some s1 ∧ s1.length = P
      ∧ ∀ q, q ≠ p → s1[q]? = s[q]? := by
  have hlt : p < s.length := by omega
  refine ⟨_, mr_emit_of_lt v hp hlt, by rw [List.length_set]; exact hlen, ?_⟩
  intro q hq
  exact List.getElem?_set_ne (fun e => hq e.symm)

theorem keys_in_partition_run_op {partition_fn : partitioner} {P : Nat} {op : store_op}
    {s s1 : Store}
    (h : ∀ p part n, s[p]? = some part → n ∈ part → partition_fn n.key P = some p)
    (he : run_op partition_fn P op s = some s1) :
    ∀ p part n, s1[p]? = some part → n ∈ part → partition_fn n.key P = some p := by
  cases op with
  | emit key value =>
    simp only [run_op] at he
    obtain ⟨q, part0, hq, hpart0, rfl⟩ := mr_emit_eq_some he
    intro p part n hpart hn
    by_cases hpq : p = q
    · subst hpq
      rw [getElem?_set_some hpart0] at hpart
      cases hpart
      rcases kvlist_push_mem_key key value part0 n hn with hk | hmem
      · rw [hk]; exact hq
      · exact h p part0 n hpart0 hmem
    · rw [List.getElem?_set_ne (fun e => hpq e.symm)] at hpart
      exact h p part n hpart hn
  | get_next key q =>
    simp only [run_op] at he
    cases hq : s[q]? with
    | none => simp [mr_get_next_value, hq] at he
    | some part0 =>
      rw [mr_get_next_value_eq hq] at he
      simp only [Option.some.injEq] at he
      subst he
      intro p part n hpart hn
      by_cases hpq : p = q
      · subst hpq
        rw [getElem?_set_some hq] at hpart
        cases hpart
        obtain ⟨m, hm, hmk, _⟩ := mem_of_shape (get_next_loop_shape key part0) hn
        rw [← hmk]
        exact h p part0 m hq hm
      · rw [List.getElem?_set_ne (fun e => hpq e.symm)] at hpart
        exact h p part n hpart hn

theorem keys_in_partition_run_ops {partition_fn : partitioner} {P : Nat} (ops : List store_op) :
    ∀ {s s1 : Store},
      (∀ p part n, s[p]? = some part → n ∈ part → partition_fn n.key P = some p) →
      run_ops partition_fn P ops s = some s1 →
      ∀ p part n, s1[p]? = some part → n ∈ part → partition_fn n.key P = some p := by
  induction ops with
  | nil =>
    intro s s1 h he
    simp only [run_ops, Option.some.injEq] at he
    rw [← he]; exact h
  | cons op rest ih =>
    intro s s1 h he
    simp only [run_ops] at he
    cases h1 : run_op partition_fn P op s with
    | none => simp [h1] at he
    | some s2 =>
      simp only [h1] at he
      exact ih (keys_in_partition_run_op h h1) he

/-- C7: on a store with `P` partitions, `mr_emit(k, v)` with
`partitioner(k, P) = p < P` returns a store with `P` partitions in which every
partition other than `p` is unchanged; and in every store reached from the empty
store by `mr_emit` and getter calls, every key node of partition `p` has a key
`k` with `partitioner(k, P) = p`. -/
theorem emit_partition_frame (partition_fn : partitioner) (P : Nat) :
    (∀ (k v : CStr) (s : Store) (p : Nat),
        s.length = P → partition_fn k P = some p → p < P →
        ∃ s1, mr_emit partition_fn P k v s = some s1 ∧ s1.length = P
          ∧ ∀ q, q ≠ p → s1[q]? = s[q]?)
    ∧ (∀ (ops : List store_op) (s : Store),
        run_ops partition_fn P ops (mr_master_kvlist_init P) = some s →
        ∀ p part n, s[p]? = some part → n ∈ part → partition_fn n.key P = some p) := by
  constructor
  · intro k v s p hlen hp hplt
    exact mr_emit_frame k v hlen hp hplt
  · intro ops s he
    refine keys_in_partition_run_ops ops ?_ he
    intro p part n hpart hn
    have : part = [] := List.eq_of_mem_replicate (List.getElem?_mem hpart)
    subst this
    simp at hn

end MapReduce

namespace MapReduce

/-! ## Cursors stay inside their value lists -/

theorem get_next_loop_suffix (key : CStr) (l : List mr_kvnode) :
    ∀ n ∈ (get_next_loop key l).2, ∃ m ∈ l, n.start = m.start
      ∧ n.access_next <:+ m.access_next := by
  induction l with
  | nil => simp [get_next_loop]
  | cons x rest ih =>
    intro n hn
    simp only [get_next_loop] at hn
    split at hn
    · rcases List.mem_cons.mp hn with rfl | hn
      · exact ⟨n, List.mem_cons_self _ _, rfl, List.suffix_refl _⟩
      · obtain ⟨m, hm, h1, h2⟩ := ih n hn
        exact ⟨m, List.mem_cons_of_mem _ hm, h1, h2⟩
    · split at hn
      · exact ⟨n, hn, rfl, List.suffix_refl _⟩
      · rename_i value next hc
        rcases List.mem_cons.mp hn with rfl | hn
        · refine ⟨x, List.mem_cons_self _ _, rfl, ?_⟩
          rw [hc]
          exact List.suffix_cons value next
        · exact ⟨n, List.mem_cons_of_mem _ hn, rfl, List.suffix_refl _⟩

end MapReduce

namespace MapReduce

/-! ## Conservation, value order and order independence -/

theorem hashpartition_in_range (char_is_signed : Bool) (P : Nat) (hP : 1 ≤ P)
    (hP32 : P < 2 ^ 32) : partitioner_in_range (mr_default_hashpartition char_is_signed) P := by
  intro key
  unfold mr_default_hashpartition
  have hmod : P % 2 ^ 32 = P := Nat.mod_eq_of_lt hP32
  have hne : ¬ P = 0 := by omega
  simp only [hmod, hne, if_false]
  exact ⟨_, rfl, Nat.mod_lt _ (by omega)⟩

theorem getElem?_of_lt_length {s : Store} {p : Nat} (h : p < s.length) :
    ∃ part, s[p]? = some part :=
  ⟨s.get ⟨p, h⟩, List.getElem?_eq_getElem h⟩

theorem emitted_values_length (k : CStr) (kvs : List (CStr × CStr)) :
    (kvs.filter (fun kv => decide (kv.1 = k))).length = (emitted_values k kvs).length := by
  simp [emitted_values]

theorem emitted_values_replicate (k v : CStr) (N : Nat) :
    emitted_values k (List.replicate N (k, v)) = List.replicate N v := by
  induction N with
  | zero => rfl
  | succ N ih =>
    rw [List.replicate_succ, List.replicate_succ]
    have hcons : emitted_values k ((k, v) :: List.replicate N (k, v))
        = v :: emitted_values k (List.replicate N (k, v)) := by
      simp [emitted_values]
    rw [hcons, ih]

theorem reduce_count_overflow_of_emits {partition_fn : partitioner} {P : Nat}
    {kvs : List (CStr × CStr)} {s : Store}
    (hs : mr_emit_all partition_fn P kvs (mr_master_kvlist_init P) = some s)
    {k : CStr} {p : Nat} (hp : partition_fn k P = some p)
    (hbig : 2 ^ 31 ≤ (emitted_values k kvs).length) (fuel : Nat) :
    reduce_count mr_get_next_value k p fuel 0 s = none := by
  have hholds := store_holds_of_emit_all hs
  have hplt : p < s.length := by
    obtain ⟨kv, hkv⟩ : ∃ kv, kv ∈ kvs.filter (fun kv => decide (kv.1 = k)) := by
      apply List.exists_mem_of_length_pos
      rw [emitted_values_length]
      omega
    obtain ⟨hmem, hkey⟩ := List.mem_filter.mp hkv
    obtain ⟨q, part, n, hq, hpart, _, _⟩ := hholds.2.2 kv hmem
    have hk : kv.1 = k := by simpa using hkey
    rw [hk, hp] at hq
    cases hq
    by_contra hge
    rw [List.getElem?_eq_none (by omega)] at hpart
    cases hpart
  obtain ⟨part, hpart⟩ := getElem?_of_lt_length hplt
  rcases store_holds_find hholds hp hpart with ⟨hnil, _⟩ | ⟨n, hn, _, hacc, _, hperm⟩
  · rw [hnil] at hbig
    simp at hbig
  · exact reduce_count_overflow k p n.start s part n fuel 0 hpart hn hacc (by omega)
      (by rw [Nat.zero_add, hperm.length_eq]; exact hbig)

/-- C2, as amended: after any sequence of emits into the empty store (`P ≥ 1`
partitions, partitioner in range), calling the getter with
`(k, partitioner(k, P))` until it returns `NULL` returns, as a multiset, exactly
the values emitted with `k`; and when `k` was emitted at most
`INT_MAX = 2^31 - 1` times, the loop of the example's `reduce` ends with `count`
equal to the number of emits of `k`.  Any `fuel` above the number of emits of
`k` is enough. -/
theorem emit_conservation (partition_fn : partitioner) (P : Nat) (_hP : 1 ≤ P)
    (hpf : partitioner_in_range partition_fn P) (kvs : List (CStr × CStr)) (k : CStr) :
    ∃ s p, mr_emit_all partition_fn P kvs (mr_master_kvlist_init P) = some s
      ∧ partition_fn k P = some p
      ∧ ∀ fuel, (emitted_values k kvs).length < fuel →
          ∃ values s1,
            get_next_all mr_get_next_value k p fuel s = some (values, s1)
            ∧ (values : Multiset CStr) = (emitted_values k kvs : Multiset CStr)
            ∧ ((kvs.filter (fun kv => decide (kv.1 = k))).length < 2 ^ 31 →
                ∃ s2, reduce_count mr_get_next_value k p fuel 0 s
                  = some ((kvs.filter (fun kv => decide (kv.1 = k))).length, s2)) := by
  obtain ⟨s, hs⟩ := mr_emit_all_some partition_fn P hpf kvs
  obtain ⟨p, hp, hplt⟩ := hpf k
  have hholds := store_holds_of_emit_all hs
  obtain ⟨part, hpart⟩ := getElem?_of_lt_length
    (show p < s.length from by rw [hholds.1]; exact hplt)
  refine ⟨s, p, hs, hp, ?_⟩
  intro fuel hfuel
  have hlen := emitted_values_length k kvs
  rcases store_holds_find hholds hp hpart with ⟨hnil, hnone⟩ | ⟨n, hn, _, hacc, _, hperm⟩
  · obtain ⟨fuel, rfl⟩ : ∃ f, fuel = f + 1 := ⟨fuel - 1, by omega⟩
    obtain ⟨h1, h2⟩ := get_next_all_none hpart hnone fuel
    refine ⟨[], s, h1, by rw [hnil], ?_⟩
    intro _
    refine ⟨s, ?_⟩
    rw [h2 0, hlen, hnil]
    rfl
  · have hl : n.start.length = (emitted_values k kvs).length := hperm.length_eq
    obtain ⟨⟨s1, h1⟩, h2⟩ := get_next_all_some k p n.start s part n fuel hpart hn hacc
      (by omega)
    refine ⟨n.start, s1, h1, Multiset.coe_eq_coe.mpr hperm, ?_⟩
    intro hbound
    obtain ⟨s2, h2⟩ := h2 0 (by omega)
    refine ⟨s2, ?_⟩
    rw [h2, hlen, ← hl, Nat.zero_add]

/-- Witness of C2: "a", "b", "a" emitted with the value "1" into two partitions
under the default partitioner, read back for the key "a". -/
theorem emit_conservation_witness :
    ∃ s p, mr_emit_all (mr_default_hashpartition true) 2
          [(cstr [97], cstr [49]), (cstr [98], cstr [49]), (cstr [97], cstr [49])]
          (mr_master_kvlist_init 2) = some s
      ∧ mr_default_hashpartition true (cstr [97]) 2 = some p
      ∧ ∀ fuel, (emitted_values (cstr [97])
            [(cstr [97], cstr [49]), (cstr [98], cstr [49]), (cstr [97], cstr [49])]).length
            < fuel →
          ∃ values s1,
            get_next_all mr_get_next_value (cstr [97]) p fuel s = some (values, s1)
            ∧ (values : Multiset CStr) = (emitted_values (cstr [97])
                [(cstr [97], cstr [49]), (cstr [98], cstr [49]), (cstr [97], cstr [49])]
                  : Multiset CStr)
            ∧ (([(cstr [97], cstr [49]), (cstr [98], cstr [49]),
                  (cstr [97], cstr [49])].filter
                    (fun kv => decide (kv.1 = cstr [97]))).length < 2 ^ 31 →
                ∃ s2, reduce_count mr_get_next_value (cstr [97]) p fuel 0 s
                  = some (([(cstr [97], cstr [49]), (cstr [98], cstr [49]),
                      (cstr [97], cstr [49])].filter
                        (fun kv => decide (kv.1 = cstr [97]))).length, s2)) :=
  emit_conservation (mr_default_hashpartition true) 2 (by decide)
    (hashpartition_in_range true 2 (by decide) (by decide))
    [(cstr [97], cstr [49]), (cstr [98], cstr [49]), (cstr [97], cstr [49])] (cstr [97])

/-- C2 as stated fails: the key "a" is emitted `2^31` times with the value "1"
into one partition.  All `2^31` values are in the store, and the getter returns
them one by one and then `NULL`; but the counter of the example's `reduce` is an
`int`: the increment from `INT_MAX = 2^31 - 1` overflows, which is undefined,
and the loop does not end with the count `2^31`, whatever the fuel. -/
theorem emit_conservation_counterexample :
    ∃ s, mr_emit_all (mr_default_hashpartition true) 1
          (List.replicate (2 ^ 31) (cstr [97], cstr [49])) (mr_master_kvlist_init 1) = some s
      ∧ mr_default_hashpartition true (cstr [97]) 1 = some 0
      ∧ ((List.replicate (2 ^ 31) (cstr [97], cstr [49])).filter
            (fun kv => decide (kv.1 = cstr [97]))).length = 2 ^ 31
      ∧ (∃ values s1, get_next_all mr_get_next_value (cstr [97]) 0 (2 ^ 31 + 1) s
            = some (values, s1) ∧ values.length = 2 ^ 31)
      ∧ ∀ fuel, reduce_count mr_get_next_value (cstr [97]) 0 fuel 0 s = none := by
  obtain ⟨s, hs⟩ := mr_emit_all_some (mr_default_hashpartition true) 1
    (hashpartition_in_range true 1 (by decide) (by decide))
    (List.replicate (2 ^ 31) (cstr [97], cstr [49]))
  have hp : mr_default_hashpartition true (cstr [97]) 1 = some 0 := by decide
  have hlen : (emitted_values (cstr [97])
      (List.replicate (2 ^ 31) (cstr [97], cstr [49]))).length = 2 ^ 31 := by
    rw [emitted_values_replicate, List.length_replicate]
  refine ⟨s, hs, hp, ?_, ?_, ?_⟩
  · rw [emitted_values_length, hlen]
  · have hholds := store_holds_of_emit_all hs
    obtain ⟨part, hpart⟩ := getElem?_of_lt_length
      (show 0 < s.length from by rw [hholds.1]; exact Nat.one_pos)
    rcases store_holds_find hholds hp hpart with ⟨hnil, _⟩ | ⟨n, hn, _, hacc, _, hperm⟩
    · rw [hnil] at hlen
      simp at hlen
    · have hl : n.start.length = 2 ^ 31 := by rw [hperm.length_eq, hlen]
      obtain ⟨⟨s1, h1⟩, _⟩ := get_next_all_some (cstr [97]) 0 n.start s part n (2 ^ 31 + 1)
        hpart hn hacc (by omega)
      exact ⟨n.start, s1, h1, hl⟩
  · intro fuel
    exact reduce_count_overflow_of_emits hs hp (by rw [hlen]) fuel

/-- C8: emitting a list of pairs into the empty store and emitting any
permutation of it give the same result: the same store, cursors included (and
the same failure when a key has no partition); in that store every cursor is at
the first value of its key. -/
theorem emit_order_independent (partition_fn : partitioner) (P : Nat)
    (l1 l2 : List (CStr × CStr)) (hperm : l1.Perm l2) :
    mr_emit_all partition_fn P l1 (mr_master_kvlist_init P)
        = mr_emit_all partition_fn P l2 (mr_master_kvlist_init P)
      ∧ ∀ s, mr_emit_all partition_fn P l1 (mr_master_kvlist_init P) = some s →
          ∀ part ∈ s, ∀ n ∈ part, n.access_next = n.start := by
  refine ⟨mr_emit_all_perm partition_fn P hperm, ?_⟩
  intro s hs part hpart n hn
  obtain ⟨p, hp⟩ := List.getElem?_of_mem hpart
  exact ((store_holds_of_emit_all hs).2.1 p part hp).2 n hn |>.2.1

end MapReduce


namespace MapReduce

/-! ## The reducer of a partition -/

theorem store_shape_set {s : Store} {p : Nat} {part part1 : List mr_kvnode}
    (hpart : s[p]? = some part)
    (h : part1.map (fun n => (n.key, n.start)) = part.map (fun n => (n.key, n.start))) :
    store_shape (s.set p part1) = store_shape s := by
  unfold store_shape
  apply List.ext_getElem?
  intro i
  rw [List.getElem?_map, List.getElem?_map]
  by_cases hi : i = p
  · subst hi
    rw [getElem?_set_some hpart, hpart]
    simp [h]
  · rw [List.getElem?_set_ne (fun e => hi e.symm)]

theorem mr_get_next_value_shape {key : CStr} {p : Nat} {s s1 : Store} {r : Option CStr}
    (h : mr_get_next_value key p s = some (r, s1)) :
    store_shape s1 = store_shape s ∧ (cursors_valid s → cursors_valid s1) := by
  cases hq : s[p]? with
  | none => simp [mr_get_next_value, hq] at h
  | some part =>
    rw [mr_get_next_value_eq hq] at h
    simp only [Option.some.injEq, Prod.mk.injEq] at h
    obtain ⟨_, rfl⟩ := h
    refine ⟨store_shape_set hq (get_next_loop_shape key part), ?_⟩
    intro hv part1 hmem n hn
    rcases List.mem_or_eq_of_mem_set hmem with h1 | h1
    · exact hv part1 h1 n hn
    · subst h1
      obtain ⟨m, hm, hstart, hsuf⟩ := get_next_loop_suffix key part n hn
      rw [hstart]
      exact hsuf.trans (hv part (List.getElem?_mem hq) m hm)

theorem reduce_count_shape (key : CStr) (p : Nat) (fuel : Nat) :
    ∀ (count : Nat) (s s1 : Store) (c : Nat),
      reduce_count mr_get_next_value key p fuel count s = some (c, s1) →
      store_shape s1 = store_shape s ∧ (cursors_valid s → cursors_valid s1) := by
  induction fuel with
  | zero => intro count s s1 c h; simp [reduce_count] at h
  | succ fuel ih =>
    intro count s s1 c h
    simp only [reduce_count] at h
    cases hg : mr_get_next_value key p s with
    | none => simp [hg] at h
    | some rs =>
      obtain ⟨r, s2⟩ := rs
      obtain ⟨hshape, hvalid⟩ := mr_get_next_value_shape hg
      cases r with
      | none =>
        simp only [hg, Option.some.injEq, Prod.mk.injEq] at h
        rw [← h.2]
        exact ⟨hshape, hvalid⟩
      | some value =>
        simp only [hg] at h
        by_cases hlt : count + 1 < 2 ^ 31
        · rw [if_pos hlt] at h
          obtain ⟨h1, h2⟩ := ih _ _ _ _ h
          exact ⟨h1.trans hshape, fun hv => h2 (hvalid hv)⟩
        · rw [if_neg hlt] at h
          cases h

theorem store_shape_getElem? {s1 s : Store} (h : store_shape s1 = store_shape s) {p : Nat}
    {part : List mr_kvnode} (hpart : s[p]? = some part) :
    ∃ part1, s1[p]? = some part1
      ∧ part1.map (fun n => (n.key, n.start)) = part.map (fun n => (n.key, n.start)) := by
  have h1 : (store_shape s1)[p]? = (store_shape s)[p]? := by rw [h]
  unfold store_shape at h1
  rw [List.getElem?_map, List.getElem?_map, hpart] at h1
  cases hq : s1[p]? with
  | none => simp [hq] at h1
  | some part1 =>
    simp only [hq, Option.map_some', Option.some.injEq] at h1
    exact ⟨part1, rfl, h1⟩

/-- The example's `reduce` is a reduce function of the assumed kind when its
fuel is positive and exceeds the length of every value list, and no value list
is longer than `INT_MAX`. -/
theorem test_reduce_only_reads (fuel : Nat) (j : Nat) (s : Store) (hj : j < s.length)
    (hpos : 0 < fuel) (hfuel : ∀ part ∈ store_shape s, ∀ kv ∈ part, kv.2.length < fuel)
    (hint : ∀ part ∈ store_shape s, ∀ kv ∈ part, kv.2.length < 2 ^ 31) :
    reducer_only_reads (test_reduce fuel) j s := by
  intro key s1 hshape hvalid
  obtain ⟨part, hpart⟩ := getElem?_of_lt_length hj
  obtain ⟨part1, hpart1, hmap⟩ := store_shape_getElem? hshape hpart
  have hcount : ∃ c s2, reduce_count mr_get_next_value key j fuel 0 s1 = some (c, s2) := by
    cases hf : kvlist_find key part1 with
    | none =>
      obtain ⟨f, rfl⟩ : ∃ f, fuel = f + 1 := ⟨fuel - 1, by omega⟩
      exact ⟨0, s1, (get_next_all_none hpart1 hf f).2 0⟩
    | some n =>
      obtain ⟨hmem, _⟩ := kvlist_find_some hf
      have hsuf := hvalid part1 (List.getElem?_mem hpart1) n hmem
      have hin : part.map (fun n => (n.key, n.start)) ∈ store_shape s := by
        unfold store_shape
        exact List.mem_map.mpr ⟨part, List.getElem?_mem hpart, rfl⟩
      have hkv : (n.key, n.start) ∈ part.map (fun n => (n.key, n.start)) := by
        rw [← hmap]
        exact List.mem_map.mpr ⟨n, hmem, rfl⟩
      have hlen := hfuel _ hin _ hkv
      have hlen31 := hint _ hin _ hkv
      have hle : n.access_next.length ≤ n.start.length := hsuf.length_le
      obtain ⟨s2, h2⟩ := (get_next_all_some key j n.access_next s1 part1 n fuel hpart1 hf rfl
        (by simp at hlen; omega)).2 0 (by simp at hlen31; omega)
      exact ⟨_, s2, h2⟩
  obtain ⟨c, s2, h2⟩ := hcount
  obtain ⟨h3, h4⟩ := reduce_count_shape key j fuel 0 s1 s2 c h2
  refine ⟨s2, ?_, h3.trans hshape, h4 hvalid⟩
  simp only [test_reduce, h2]

end MapReduce

namespace MapReduce

theorem reducer_dispatcher_loop_calls (packet : reducer_dispatch_packet) (s : Store)
    (hred : reducer_only_reads packet.reducer_fn packet.this_id s) (nodes : List mr_kvnode) :
    ∀ st : mr_state, store_shape st.master_kvlist = store_shape s →
      cursors_valid st.master_kvlist →
      ∃ st1, reducer_dispatcher_loop packet nodes st = some st1
        ∧ st1.reduce_calls
            = st.reduce_calls ++ nodes.map (fun n => (n.key, packet.this_id))
        ∧ store_shape st1.master_kvlist = store_shape s
        ∧ cursors_valid st1.master_kvlist
        ∧ st1.map_calls = st.map_calls ∧ st1.reducer_ids = st.reducer_ids
        ∧ reduce_keys packet.reducer_fn packet.this_id (nodes.map (fun n => n.key))
            st.master_kvlist = some st1.master_kvlist := by
  induction nodes with
  | nil =>
    intro st h1 h2
    exact ⟨st, rfl, by simp, h1, h2, rfl, rfl, rfl⟩
  | cons itr next ih =>
    intro st h1 h2
    obtain ⟨s2, hs2, h3, h4⟩ := hred itr.key st.master_kvlist h1 h2
    obtain ⟨st1, hst1, hc, h5, h6, h7, h8, h9⟩ := ih
      { st with master_kvlist := s2,
                reduce_calls := st.reduce_calls ++ [(itr.key, packet.this_id)] } h3 h4
    refine ⟨st1, ?_, ?_, h5, h6, h7, h8, ?_⟩
    · simp only [reducer_dispatcher_loop, hs2, hst1]
    · rw [hc]
      simp
    · simp only [List.map_cons, reduce_keys, hs2]
      exact h9

theorem cursors_valid_of_holds {partition_fn : partitioner} {P : Nat}
    {kvs : List (CStr × CStr)} {s : Store} (h : store_holds partition_fn P kvs s) :
    cursors_valid s := by
  intro part hpart n hn
  obtain ⟨p, hp⟩ := List.getElem?_of_mem hpart
  rw [((h.2.1 p part hp).2 n hn).2.1]

theorem emitted_values_ne_nil {k : CStr} {kvs : List (CStr × CStr)} :
    emitted_values k kvs ≠ [] ↔ ∃ v, (k, v) ∈ kvs := by
  rw [Ne, emitted_values_eq_nil]
  constructor
  · intro h
    by_contra hc
    apply h
    intro kv hkv hk
    exact hc ⟨kv.2, by rw [← hk]; exact hkv⟩
  · rintro ⟨v, hv⟩ h
    exact h (k, v) hv rfl

/-- C4: on a store reached from the empty store by `mr_emit` calls,
`reducer_dispatcher` for a partition `j < P` returns, having called the reduce
function once for each key that was emitted and belongs to partition `j`, for
no other key, with partition number `j`, the keys strictly ascending in
byte-lexicographic order; the store it leaves is the store after these calls
of the reduce function, in this order.  The reduce function is assumed to
return and to leave keys and values as they are (it only calls the getter). -/
theorem reducer_dispatcher_keys (partition_fn : partitioner) (P : Nat)
    (kvs : List (CStr × CStr)) (s : Store)
    (hs : mr_emit_all partition_fn P kvs (mr_master_kvlist_init P) = some s)
    (j : Nat) (hj : j < P) (reduce : reducer) (hred : reducer_only_reads reduce j s)
    (st : mr_state) (hst : st.master_kvlist = s) :
    ∃ (st1 : mr_state) (keys : List CStr),
      reducer_dispatcher { reducer_fn := reduce, this_id := j } st = some st1
      ∧ st1.reduce_calls = st.reduce_calls ++ keys.map (fun k => (k, j))
      ∧ keys.Nodup
      ∧ (∀ k, k ∈ keys ↔ (∃ v, (k, v) ∈ kvs) ∧ partition_fn k P = some j)
      ∧ keys.Pairwise (fun a b => strcmp a b < 0)
      ∧ reduce_keys reduce j keys st.master_kvlist = some st1.master_kvlist := by
  have hholds := store_holds_of_emit_all hs
  obtain ⟨part, hpart⟩ := getElem?_of_lt_length
    (show j < s.length from by rw [hholds.1]; exact hj)
  obtain ⟨hsorted, hnodes⟩ := hholds.2.1 j part hpart
  obtain ⟨st1, h1, h2, _, _, _, _, h9⟩ := reducer_dispatcher_loop_calls
    { reducer_fn := reduce, this_id := j } s hred part st (by rw [hst])
    (by rw [hst]; exact cursors_valid_of_holds hholds)
  refine ⟨st1, kvlist_keys part, ?_, ?_, keys_sorted_nodup hsorted, ?_, ?_, h9⟩
  · simp only [reducer_dispatcher, hst, hpart]
    exact h1
  · rw [h2]
    simp [kvlist_keys]
  · intro k
    constructor
    · intro hk
      obtain ⟨n, hn, hnk⟩ := List.mem_map.mp hk
      obtain ⟨a, _, c, _, e⟩ := hnodes n hn
      rw [hnk] at a e
      refine ⟨emitted_values_ne_nil.mp ?_, a⟩
      intro hnil
      rw [hnil] at e
      exact c e.eq_nil
    · rintro ⟨⟨v, hv⟩, hp⟩
      obtain ⟨q, part1, n, hq, hpart1, hn, hnk⟩ := hholds.2.2 (k, v) hv
      simp only at hq hnk
      rw [hp] at hq
      cases hq
      rw [hpart] at hpart1
      cases hpart1
      exact List.mem_map.mpr ⟨n, hn, hnk⟩
  · unfold keys_sorted at hsorted
    unfold kvlist_keys
    rw [List.pairwise_map]
    exact hsorted

end MapReduce

namespace MapReduce

/-! ## Concrete runs -/

/-- Witness of C4: "c", "a", "b", "a" emitted into two partitions under the
default partitioner; the reducer of partition 0 runs the example's `reduce`. -/
theorem reducer_dispatcher_keys_witness :
    ∃ (st1 : mr_state) (keys : List CStr),
      reducer_dispatcher { reducer_fn := test_reduce 3, this_id := 0 }
          { master_kvlist :=
              [[{ key := cstr [97], start := [cstr [49], cstr [49]],
                  access_next := [cstr [49], cstr [49]] },
                { key := cstr [99], start := [cstr [49]], access_next := [cstr [49]] }],
               [{ key := cstr [98], start := [cstr [49]], access_next := [cstr [49]] }]],
            map_calls := [], reducer_ids := [0], reduce_calls := [] } = some st1
      ∧ st1.reduce_calls = [] ++ keys.map (fun k => (k, 0))
      ∧ keys.Nodup
      ∧ (∀ k, k ∈ keys ↔
          (∃ v, (k, v) ∈ [(cstr [99], cstr [49]), (cstr [97], cstr [49]),
              (cstr [98], cstr [49]), (cstr [97], cstr [49])])
            ∧ mr_default_hashpartition true k 2 = some 0)
      ∧ keys.Pairwise (fun a b => strcmp a b < 0)
      ∧ reduce_keys (test_reduce 3) 0 keys
          [[{ key := cstr [97], start := [cstr [49], cstr [49]],
              access_next := [cstr [49], cstr [49]] },
            { key := cstr [99], start := [cstr [49]], access_next := [cstr [49]] }],
           [{ key := cstr [98], start := [cstr [49]], access_next := [cstr [49]] }]]
          = some st1.master_kvlist :=
  reducer_dispatcher_keys (mr_default_hashpartition true) 2
    [(cstr [99], cstr [49]), (cstr [97], cstr [49]), (cstr [98], cstr [49]),
      (cstr [97], cstr [49])]
    [[{ key := cstr [97], start := [cstr [49], cstr [49]],
        access_next := [cstr [49], cstr [49]] },
      { key := cstr [99], start := [cstr [49]], access_next := [cstr [49]] }],
     [{ key := cstr [98], start := [cstr [49]], access_next := [cstr [49]] }]]
    rfl 0 (by decide) (test_reduce 3)
    (test_reduce_only_reads 3 0 _ (by decide) (by decide) (by decide) (by decide))
    { master_kvlist :=
        [[{ key := cstr [97], start := [cstr [49], cstr [49]],
            access_next := [cstr [49], cstr [49]] },
          { key := cstr [99], start := [cstr [49]], access_next := [cstr [49]] }],
         [{ key := cstr [98], start := [cstr [49]], access_next := [cstr [49]] }]],
      map_calls := [], reducer_ids := [0], reduce_calls := [] }
    rfl

/-- Witness of C6: two emits, a read, an emit and a read; and a push into a
partition that holds the key "b". -/
theorem store_invariant_witness :
    (store_inv
        [[{ key := cstr [97], start := [cstr [49], cstr [50]], access_next := [cstr [50]] }],
         [{ key := cstr [98], start := [cstr [49]], access_next := [cstr [49]] }]]
      ∧ ∀ part ∈
          ([[{ key := cstr [97], start := [cstr [49], cstr [50]], access_next := [cstr [50]] }],
            [{ key := cstr [98], start := [cstr [49]], access_next := [cstr [49]] }]] : Store),
          (kvlist_keys part).Nodup)
    ∧ store_inv
        [[{ key := cstr [97], start := [cstr [49]], access_next := [cstr [49]] },
          { key := cstr [98], start := [cstr [50]], access_next := [] }]] :=
  ⟨(store_invariant (mr_default_hashpartition true) 2).1
      [.emit (cstr [98]) (cstr [49]), .emit (cstr [97]) (cstr [50]), .get_next (cstr [97]) 0,
        .emit (cstr [97]) (cstr [49]), .get_next (cstr [97]) 0] _ rfl,
    (store_invariant (mr_default_hashpartition true) 2).2 (cstr [97]) (cstr [49]) 0
      [[{ key := cstr [98], start := [cstr [50]], access_next := [] }]] _ (by decide) rfl⟩

/-- Witness of C7: "a" is emitted into a store that holds "b" in partition 1;
and the store after two emits, a read, an emit and a read. -/
theorem emit_partition_frame_witness :
    (∃ s1, mr_emit (mr_default_hashpartition true) 2 (cstr [97]) (cstr [49])
          [[], [{ key := cstr [98], start := [cstr [49]], access_next := [] }]] = some s1
        ∧ s1.length = 2
        ∧ ∀ q, q ≠ 0 → s1[q]?
            = ([[], [{ key := cstr [98], start := [cstr [49]], access_next := [] }]]
                : Store)[q]?)
    ∧ ∀ p part n,
        ([[{ key := cstr [97], start := [cstr [49], cstr [50]], access_next := [cstr [50]] }],
          [{ key := cstr [98], start := [cstr [49]], access_next := [cstr [49]] }]]
            : Store)[p]? = some part →
        n ∈ part → mr_default_hashpartition true n.key 2 = some p :=
  ⟨(emit_partition_frame (mr_default_hashpartition true) 2).1 (cstr [97]) (cstr [49])
      [[], [{ key := cstr [98], start := [cstr [49]], access_next := [] }]] 0 rfl rfl
      (by decide),
    (emit_partition_frame (mr_default_hashpartition true) 2).2
      [.emit (cstr [98]) (cstr [49]), .emit (cstr [97]) (cstr [50]), .get_next (cstr [97]) 0,
        .emit (cstr [97]) (cstr [49]), .get_next (cstr [97]) 0] _ rfl⟩

/-- Witness of C8: "c", "a", "b", "a" and the same pairs with the first two
exchanged. -/
theorem emit_order_independent_witness :
    mr_emit_all (mr_default_hashpartition true) 2
        [(cstr [99], cstr [49]), (cstr [97], cstr [49]), (cstr [98], cstr [49]),
          (cstr [97], cstr [50])] (mr_master_kvlist_init 2)
      = mr_emit_all (mr_default_hashpartition true) 2
        [(cstr [97], cstr [49]), (cstr [99], cstr [49]), (cstr [98], cstr [49]),
          (cstr [97], cstr [50])] (mr_master_kvlist_init 2)
    ∧ ∀ s, mr_emit_all (mr_default_hashpartition true) 2
          [(cstr [99], cstr [49]), (cstr [97], cstr [49]), (cstr [98], cstr [49]),
            (cstr [97], cstr [50])] (mr_master_kvlist_init 2) = some s →
        ∀ part ∈ s, ∀ n ∈ part, n.access_next = n.start :=
  emit_order_independent (mr_default_hashpartition true) 2
    [(cstr [99], cstr [49]), (cstr [97], cstr [49]), (cstr [98], cstr [49]),
      (cstr [97], cstr [50])]
    [(cstr [97], cstr [49]), (cstr [99], cstr [49]), (cstr [98], cstr [49]),
      (cstr [97], cstr [50])]
    (List.Perm.swap _ _ _)

/-- C1 fails on the code: `mr_run` with one input, a map function that emits
("a","1") and ("b","1"), `num_mappers = 1`, `num_reducers = 2` and the default
partitioner.  "a" lies in partition 0 and "b" in partition 1; the reducer loops
run `j` up to `num_mappers`, only the reducer of partition 0 exists, and the
reduce function is called for "a" only: "b" is still unread when the reducers
have been joined. -/
theorem mr_run_skips_partition :
    ∃ st, mr_run 2 [cstr [112], cstr [102]]
        (fun _ => [(cstr [97], cstr [49]), (cstr [98], cstr [49])]) 1
        (test_reduce 8) 2 (mr_default_hashpartition true) = some st
      ∧ st.map_calls = [(0, 1)]
      ∧ st.reduce_calls = [(cstr [97], 0)]
      ∧ st.master_kvlist
          = [[{ key := cstr [97], start := [cstr [49]], access_next := [] }],
             [{ key := cstr [98], start := [cstr [49]], access_next := [cstr [49]] }]] :=
  ⟨_, rfl, rfl, rfl, rfl⟩

/-- C3 fails on the code: with `num_mappers = 1` and `num_reducers = 2` (no
input, any map and reduce function, any partitioner) `mr_run` creates the
reducer with `this_id = 0` only; partition 1 has no worker. -/
theorem mr_run_reducer_workers (argv : List CStr) (map : mapper) (reduce : reducer)
    (partition : partitioner) :
    ∃ st, mr_run 1 argv map 1 reduce 2 partition = some st
      ∧ st.reducer_ids = [0] ∧ 1 ∉ st.reducer_ids :=
  ⟨_, rfl, rfl, by decide⟩

end MapReduce

namespace MapReduce

/-! ## The default partitioner is in range -/

/-- C11: for every key and every `num_partitions` from 1 to `2^32 - 1` (the
values of the `unsigned int` parameter other than 0),
`mr_default_hashpartition(key, num_partitions)` is defined and its result is
below `num_partitions`: it is an index into a store of `num_partitions`
partitions. -/
theorem mr_default_hashpartition_in_range (char_is_signed : Bool) (key : CStr)
    (num_partitions : Nat) (h1 : 1 ≤ num_partitions) (h32 : num_partitions < 2 ^ 32) :
    ∃ p, mr_default_hashpartition char_is_signed key num_partitions = some p
      ∧ p < num_partitions
      ∧ ∃ part, (mr_master_kvlist_init num_partitions)[p]? = some part := by
  obtain ⟨p, hp, hlt⟩ := hashpartition_in_range char_is_signed num_partitions h1 h32 key
  exact ⟨p, hp, hlt, getElem?_of_lt_length (by simpa [mr_master_kvlist_init] using hlt)⟩

/-- Witness of C11: the key "abc" and three partitions. -/
theorem mr_default_hashpartition_in_range_witness :
    ∃ p, mr_default_hashpartition true (cstr [97, 98, 99]) 3 = some p ∧ p < 3
      ∧ ∃ part, (mr_master_kvlist_init 3)[p]? = some part :=
  mr_default_hashpartition_in_range true (cstr [97, 98, 99]) 3 (by decide) (by decide)

/-! ## The getter: unknown keys, exhausted cursors, one step of a cursor -/

theorem set_getElem?_self {s : Store} {p : Nat} {part : List mr_kvnode}
    (hpart : s[p]? = some part) : s.set p part = s := by
  apply List.ext_getElem?
  intro i
  by_cases hi : i = p
  · subst hi
    rw [getElem?_set_some hpart, hpart]
  · rw [List.getElem?_set_ne (fun e => hi e.symm)]

theorem get_next_loop_fst_none {key : CStr} {l : List mr_kvnode}
    (h : (get_next_loop key l).1 = none) :
    (get_next_loop key l).2 = l ∧ cursor_exhausted key l := by
  cases hf : kvlist_find key l with
  | none =>
    rw [get_next_loop_none hf]
    exact ⟨rfl, fun n hn => by rw [hf] at hn; cases hn⟩
  | some n =>
    obtain ⟨h1, h2, h3⟩ := get_next_loop_some hf
    rw [h] at h1
    have hnil : n.access_next = [] := by
      cases hc : n.access_next with
      | nil => rfl
      | cons value next => rw [hc] at h1; cases h1
    constructor
    · apply List.ext_getElem?
      intro i
      have hshape := get_next_loop_shape key l
      -- the two lists have the same nodes: compare them through `kvlist_find`
      clear h1 h3
      induction l generalizing i with
      | nil => rfl
      | cons x rest ih =>
        rw [kvlist_find_cons] at hf
        by_cases hx : x.key = key
        · simp only [hx, if_true, Option.some.injEq] at hf
          subst hf
          have h0 : ¬ strcmp x.key key ≠ 0 := by simp [strcmp_eq_zero.mpr hx]
          simp only [get_next_loop, h0, if_false, hnil]
        · simp only [hx, if_false] at hf
          have h0 : strcmp x.key key ≠ 0 := fun e => hx (strcmp_eq_zero.mp e)
          simp only [get_next_loop, h0, ne_eq, not_false_eq_true, if_true] at h h2 hshape ⊢
          rw [kvlist_find_cons] at h2
          simp only [hx, if_false] at h2
          have hrest : (get_next_loop key rest).2 = rest := by
            apply List.ext_getElem?
            intro j
            exact ih h hf h2 j (by simpa using hshape)
          rw [hrest]
    · intro m hm
      rw [hf] at hm
      cases hm
      exact hnil

theorem get_next_loop_of_exhausted {key : CStr} {l : List mr_kvnode}
    (h : cursor_exhausted key l) : get_next_loop key l = (none, l) := by
  cases hf : kvlist_find key l with
  | none => exact get_next_loop_none hf
  | some n =>
    have h1 : (get_next_loop key l).1 = none := by
      rw [(get_next_loop_some hf).1, h n hf]
      rfl
    exact Prod.ext h1 (get_next_loop_fst_none h1).1

theorem cursor_exhausted_get_next_loop {key : CStr} {l : List mr_kvnode} (key1 : CStr)
    (h : cursor_exhausted key l) : cursor_exhausted key (get_next_loop key1 l).2 := by
  by_cases hk : key1 = key
  · subst hk
    rw [get_next_loop_of_exhausted h]
    exact h
  · cases hf : kvlist_find key1 l with
    | none =>
      rw [get_next_loop_none hf]
      exact h
    | some n =>
      intro m hm
      rw [(get_next_loop_some hf).2.2 key (fun e => hk e.symm)] at hm
      exact h m hm

/-- C14: for every store, every partition `p` of it and every key `k` that no
node of partition `p` has, `mr_get_next_value(k, p)` returns `NULL` and the
store after the call is the store before it, every cursor included. -/
theorem getter_unknown_key (k : CStr) (p : Nat) (s : Store) (part : List mr_kvnode)
    (hpart : s[p]? = some part) (hk : ∀ n ∈ part, n.key ≠ k) :
    mr_get_next_value k p s = some (none, s) := by
  rw [mr_get_next_value_eq hpart, get_next_loop_none (kvlist_find_none.mpr hk),
    set_getElem?_self hpart]

/-- Witness of C14: the key "c" is asked of a partition that holds "a" (one
value read) and "b". -/
theorem getter_unknown_key_witness :
    mr_get_next_value (cstr [99]) 0
        [[{ key := cstr [97], start := [cstr [49], cstr [50]], access_next := [cstr [50]] },
          { key := cstr [98], start := [cstr [49]], access_next := [cstr [49]] }]]
      = some (none,
        [[{ key := cstr [97], start := [cstr [49], cstr [50]], access_next := [cstr [50]] },
          { key := cstr [98], start := [cstr [49]], access_next := [cstr [49]] }]]) :=
  getter_unknown_key (cstr [99]) 0 _ _ rfl (by decide)

theorem getter_exhausted_after_ops (partition_fn : partitioner) (P : Nat) (k : CStr) (p : Nat)
    (ops : List store_op) :
    ∀ (s s2 : Store), (∃ part, s[p]? = some part ∧ cursor_exhausted k part) →
      (∀ op ∈ ops, is_get_next op = true) → run_ops partition_fn P ops s = some s2 →
      ∃ part, s2[p]? = some part ∧ cursor_exhausted k part := by
  induction ops with
  | nil =>
    intro s s2 h _ he
    simp only [run_ops, Option.some.injEq] at he
    rw [← he]; exact h
  | cons op rest ih =>
    intro s s2 h hops he
    simp only [run_ops] at he
    cases h1 : run_op partition_fn P op s with
    | none => simp [h1] at he
    | some s1 =>
      simp only [h1] at he
      refine ih s1 s2 ?_ (fun o ho => hops o (List.mem_cons_of_mem _ ho)) he
      cases op with
      | emit key value =>
        have := hops (.emit key value) (List.mem_cons_self _ _)
        simp [is_get_next] at this
      | get_next key1 q =>
        obtain ⟨part, hpart, hex⟩ := h
        simp only [run_op] at h1
        cases hq : s[q]? with
        | none => simp [mr_get_next_value, hq] at h1
        | some part0 =>
          rw [mr_get_next_value_eq hq] at h1
          simp only [Option.some.injEq] at h1
          subst h1
          by_cases hqp : q = p
          · subst hqp
            rw [hpart] at hq
            cases hq
            exact ⟨_, getElem?_set_some hpart _, cursor_exhausted_get_next_loop key1 hex⟩
          · exact ⟨part, by rw [List.getElem?_set_ne hqp]; exact hpart, hex⟩

/-- C15: when `mr_get_next_value(k, p)` has returned `NULL`, the store is as it
was before the call, and after any further getter calls (any keys and
partitions, no `mr_emit`) a call with the same `(k, p)` returns `NULL` again
and leaves the store as it is. -/
theorem getter_exhaustion_stable (partition_fn : partitioner) (P : Nat) (k : CStr) (p : Nat)
    (s s1 : Store) (h : mr_get_next_value k p s = some (none, s1)) :
    s1 = s
      ∧ ∀ (ops : List store_op) (s2 : Store), (∀ op ∈ ops, is_get_next op = true) →
          run_ops partition_fn P ops s1 = some s2 →
          mr_get_next_value k p s2 = some (none, s2) := by
  cases hq : s[p]? with
  | none => simp [mr_get_next_value, hq] at h
  | some part =>
    rw [mr_get_next_value_eq hq] at h
    simp only [Option.some.injEq, Prod.mk.injEq] at h
    obtain ⟨hnone, hs1⟩ := h
    obtain ⟨hsame, hex⟩ := get_next_loop_fst_none hnone
    rw [hsame, set_getElem?_self hq] at hs1
    subst hs1
    refine ⟨rfl, ?_⟩
    intro ops s2 hops he
    obtain ⟨part2, hpart2, hex2⟩ :=
      getter_exhausted_after_ops partition_fn P k p ops s s2 ⟨part, hq, hex⟩ hops he
    rw [mr_get_next_value_eq hpart2, get_next_loop_of_exhausted hex2, set_getElem?_self hpart2]

/-- Witness of C15: "a" has one value; the second read returns `NULL`, then
"b" is read and "a" is asked for again. -/
theorem getter_exhaustion_stable_witness :
    ([[{ key := cstr [97], start := [cstr [49]], access_next := [] },
       { key := cstr [98], start := [cstr [49]], access_next := [cstr [49]] }]] : Store)
      = [[{ key := cstr [97], start := [cstr [49]], access_next := [] },
          { key := cstr [98], start := [cstr [49]], access_next := [cstr [49]] }]]
    ∧ mr_get_next_value (cstr [97]) 0
        [[{ key := cstr [97], start := [cstr [49]], access_next := [] },
          { key := cstr [98], start := [cstr [49]], access_next := [] }]]
      = some (none,
        [[{ key := cstr [97], start := [cstr [49]], access_next := [] },
          { key := cstr [98], start := [cstr [49]], access_next := [] }]]) :=
  ⟨(getter_exhaustion_stable (mr_default_hashpartition true) 1 (cstr [97]) 0
      [[{ key := cstr [97], start := [cstr [49]], access_next := [] },
        { key := cstr [98], start := [cstr [49]], access_next := [cstr [49]] }]] _ rfl).1,
    (getter_exhaustion_stable (mr_default_hashpartition true) 1 (cstr [97]) 0
      [[{ key := cstr [97], start := [cstr [49]], access_next := [] },
        { key := cstr [98], start := [cstr [49]], access_next := [cstr [49]] }]] _ rfl).2
      [.get_next (cstr [98]) 0] _ (by decide) rfl⟩

end MapReduce

namespace MapReduce

theorem kvlist_find_split {k : CStr} {l : List mr_kvnode} {n : mr_kvnode}
    (h : kvlist_find k l = some n) :
    ∃ pre post, l = pre ++ n :: post ∧ ∀ m ∈ pre, m.key ≠ k := by
  induction l with
  | nil => simp [kvlist_find_nil] at h
  | cons x rest ih =>
    rw [kvlist_find_cons] at h
    by_cases hx : x.key = k
    · simp only [hx, if_true, Option.some.injEq] at h
      subst h
      exact ⟨[], rest, rfl, by simp⟩
    · simp only [hx, if_false] at h
      obtain ⟨pre, post, hl, hpre⟩ := ih h
      refine ⟨x :: pre, post, by rw [hl]; rfl, ?_⟩
      intro m hm
      rcases List.mem_cons.mp hm with rfl | hm
      · exact hx
      · exact hpre m hm

theorem get_next_loop_split (key : CStr) (pre post : List mr_kvnode) (n : mr_kvnode)
    (hpre : ∀ m ∈ pre, m.key ≠ key) (hn : n.key = key) :
    get_next_loop key (pre ++ n :: post)
      = (n.access_next.head?,
          pre ++ { n with access_next := n.access_next.tail } :: post) := by
  induction pre with
  | nil =>
    have h0 : ¬ strcmp n.key key ≠ 0 := by simp [strcmp_eq_zero.mpr hn]
    simp only [List.nil_append, get_next_loop, h0, if_false]
    cases hc : n.access_next with
    | nil =>
      cases n
      simp_all
    | cons value next => simp
  | cons x rest ih =>
    have hx : x.key ≠ key := hpre x (List.mem_cons_self _ _)
    have h0 : strcmp x.key key ≠ 0 := fun e => hx (strcmp_eq_zero.mp e)
    have := ih (fun m hm => hpre m (List.mem_cons_of_mem _ hm))
    rw [List.cons_append]
    simp only [get_next_loop, h0, ne_eq, not_false_eq_true, if_true]
    rw [this]
    rfl

/-- C19: when the first node `n` with key `k` in partition `p` has a cursor
that is not exhausted (`access_next` at `value`, the rest of the value list
behind it being `next`), `mr_get_next_value(k, p)` returns `value`, and the
store after the call differs from the store before in one place: the cursor of
`n` is at `next`, one position further in the value list of `k` (inside it when
it was inside it).  Keys, values, the cursors of the other nodes and the other
partitions are as before. -/
theorem getter_advances_cursor (k : CStr) (p : Nat) (s : Store) (part : List mr_kvnode)
    (n : mr_kvnode) (value : CStr) (next : List CStr)
    (hpart : s[p]? = some part) (hfind : kvlist_find k part = some n)
    (hcur : n.access_next = value :: next) :
    ∃ pre post, part = pre ++ n :: post ∧ (∀ m ∈ pre, m.key ≠ k)
      ∧ mr_get_next_value k p s
          = some (some value, s.set p (pre ++ { n with access_next := next } :: post))
      ∧ store_shape (s.set p (pre ++ { n with access_next := next } :: post)) = store_shape s
      ∧ (∀ q, q ≠ p →
          (s.set p (pre ++ { n with access_next := next } :: post))[q]? = s[q]?)
      ∧ n.access_next.length = next.length + 1
      ∧ (n.access_next <:+ n.start → next <:+ n.start) := by
  obtain ⟨pre, post, hl, hpre⟩ := kvlist_find_split hfind
  have hn : n.key = k := (kvlist_find_some hfind).2
  have hloop := get_next_loop_split k pre post n hpre hn
  rw [hcur] at hloop
  simp only [List.head?_cons, List.tail_cons] at hloop
  refine ⟨pre, post, hl, hpre, ?_, ?_, ?_, by rw [hcur]; rfl, ?_⟩
  · rw [mr_get_next_value_eq hpart, hl, hloop]
  · apply store_shape_set hpart
    rw [hl]
    simp
  · intro q hq
    exact List.getElem?_set_ne (fun e => hq e.symm)
  · intro hsuf
    rw [hcur] at hsuf
    exact (List.suffix_cons value next).trans hsuf

/-- Witness of C19: "b", behind "a" in partition 0, has the values "1", "2"
and the cursor at "2". -/
theorem getter_advances_cursor_witness :
    ∃ pre post,
      ([{ key := cstr [97], start := [cstr [49]], access_next := [cstr [49]] },
        { key := cstr [98], start := [cstr [49], cstr [50]], access_next := [cstr [50]] }]
          : List mr_kvnode)
        = pre ++ { key := cstr [98], start := [cstr [49], cstr [50]],
                   access_next := [cstr [50]] } :: post
      ∧ (∀ m ∈ pre, m.key ≠ cstr [98])
      ∧ mr_get_next_value (cstr [98]) 0
          [[{ key := cstr [97], start := [cstr [49]], access_next := [cstr [49]] },
            { key := cstr [98], start := [cstr [49], cstr [50]], access_next := [cstr [50]] }]]
          = some (some (cstr [50]),
              ([[{ key := cstr [97], start := [cstr [49]], access_next := [cstr [49]] },
                 { key := cstr [98], start := [cstr [49], cstr [50]],
                   access_next := [cstr [50]] }]] : Store).set 0
                (pre ++ { key := cstr [98], start := [cstr [49], cstr [50]],
                          access_next := [] } :: post))
      ∧ store_shape
          (([[{ key := cstr [97], start := [cstr [49]], access_next := [cstr [49]] },
              { key := cstr [98], start := [cstr [49], cstr [50]],
                access_next := [cstr [50]] }]] : Store).set 0
            (pre ++ { key := cstr [98], start := [cstr [49], cstr [50]],
                      access_next := [] } :: post))
          = store_shape
              [[{ key := cstr [97], start := [cstr [49]], access_next := [cstr [49]] },
                { key := cstr [98], start := [cstr [49], cstr [50]],
                  access_next := [cstr [50]] }]]
      ∧ (∀ q, q ≠ 0 →
          (([[{ key := cstr [97], start := [cstr [49]], access_next := [cstr [49]] },
              { key := cstr [98], start := [cstr [49], cstr [50]],
                access_next := [cstr [50]] }]] : Store).set 0
            (pre ++ { key := cstr [98], start := [cstr [49], cstr [50]],
                      access_next := [] } :: post))[q]?
          = ([[{ key := cstr [97], start := [cstr [49]], access_next := [cstr [49]] },
               { key := cstr [98], start := [cstr [49], cstr [50]],
                 access_next := [cstr [50]] }]] : Store)[q]?)
      ∧ [cstr [50]].length = ([] : List CStr).length + 1
      ∧ ([cstr [50]] <:+ [cstr [49], cstr [50]] → [] <:+ [cstr [49], cstr [50]]) :=
  getter_advances_cursor (cstr [98]) 0
    [[{ key := cstr [97], start := [cstr [49]], access_next := [cstr [49]] },
      { key := cstr [98], start := [cstr [49], cstr [50]], access_next := [cstr [50]] }]]
    [{ key := cstr [97], start := [cstr [49]], access_next := [cstr [49]] },
      { key := cstr [98], start := [cstr [49], cstr [50]], access_next := [cstr [50]] }]
    { key := cstr [98], start := [cstr [49], cstr [50]], access_next := [cstr [50]] }
    (cstr [50]) [] rfl rfl rfl

theorem kvlist_push_split (k v : CStr) (l : List mr_kvnode) :
    ∃ pre post n0, kvlist_push k v l = pre ++ kvnode_push n0 v :: post
      ∧ (∀ m ∈ pre, strcmp m.key k < 0)
      ∧ ((l = pre ++ n0 :: post ∧ n0.key = k)
          ∨ (l = pre ++ post ∧ n0 = mr_kvnode_new k
              ∧ ∀ x, post.head? = some x → strcmp x.key k > 0)) := by
  induction l with
  | nil =>
    exact ⟨[], [], mr_kvnode_new k, by simp, by simp, Or.inr ⟨rfl, rfl, by simp⟩⟩
  | cons x rest ih =>
    rw [kvlist_push_cons]
    split
    · rename_i hgt
      refine ⟨[], x :: rest, mr_kvnode_new k, rfl, by simp, Or.inr ⟨rfl, rfl, ?_⟩⟩
      intro y hy
      simp only [List.head?_cons, Option.some.injEq] at hy
      rw [← hy]
      exact hgt
    · split
      · rename_i h0
        exact ⟨[], rest, x, rfl, by simp, Or.inl ⟨rfl, strcmp_eq_zero.mp h0⟩⟩
      · rename_i hgt h0
        obtain ⟨pre, post, n0, h1, h2, h3⟩ := ih
        refine ⟨x :: pre, post, n0, by rw [h1]; rfl, ?_, ?_⟩
        · intro m hm
          rcases List.mem_cons.mp hm with rfl | hm
          · omega
          · exact h2 m hm
        · rcases h3 with ⟨h4, h5⟩ | ⟨h4, h5, h6⟩
          · exact Or.inl ⟨by rw [h4]; rfl, h5⟩
          · exact Or.inr ⟨by rw [h4]; rfl, h5, h6⟩

theorem kvlist_find_append_left {k : CStr} {pre : List mr_kvnode}
    (hpre : ∀ m ∈ pre, m.key ≠ k) (l : List mr_kvnode) :
    kvlist_find k (pre ++ l) = kvlist_find k l := by
  induction pre with
  | nil => rfl
  | cons x rest ih =>
    rw [List.cons_append, kvlist_find_cons]
    have hx : ¬ x.key = k := hpre x (List.mem_cons_self _ _)
    simp only [hx, if_false]
    exact ih (fun m hm => hpre m (List.mem_cons_of_mem _ hm))

theorem kvlist_push_split_sorted {k : CStr} {part pre post : List mr_kvnode}
    {n0 : mr_kvnode} (hpre : ∀ m ∈ pre, strcmp m.key k < 0)
    (hcase : (part = pre ++ n0 :: post ∧ n0.key = k)
      ∨ (part = pre ++ post ∧ n0 = mr_kvnode_new k
          ∧ ∀ x, post.head? = some x → strcmp x.key k > 0))
    (hs : keys_sorted part) (n : mr_kvnode) (hf : kvlist_find k part = some n) :
    n0 = n ∧ part = pre ++ n :: post := by
  have hne : ∀ m ∈ pre, m.key ≠ k := fun m hm => strcmp_lt_ne (hpre m hm)
  rcases hcase with ⟨h1, h2⟩ | ⟨h1, _, h3⟩
  · rw [h1, kvlist_find_append_left hne, kvlist_find_cons] at hf
    simp only [h2, if_true, Option.some.injEq] at hf
    subst hf
    exact ⟨rfl, h1⟩
  · exfalso
    rw [h1, kvlist_find_append_left hne] at hf
    obtain ⟨hmem, hkey⟩ := kvlist_find_some hf
    cases post with
    | nil => simp at hmem
    | cons x rest =>
      have hx := h3 x rfl
      have hsp : keys_sorted (x :: rest) := by
        unfold keys_sorted at hs ⊢
        rw [h1] at hs
        exact (List.pairwise_append.mp hs).2.1
      have := keys_sorted_gt_not_mem hsp hx n hmem
      rw [hkey, strcmp_self] at this
      omega

theorem mr_vlist_push_head_le (l : List CStr) (v : CStr) (h : values_sorted l) :
    ∃ first, (mr_vlist_push l v).head? = some first
      ∧ ∀ x ∈ mr_vlist_push l v, strcmp first x ≤ 0 := by
  have hs := mr_vlist_push_sorted l v h
  cases hc : mr_vlist_push l v with
  | nil => exact absurd hc (mr_vlist_push_ne_nil l v)
  | cons first rest =>
    rw [hc] at hs
    unfold values_sorted at hs
    rw [List.pairwise_cons] at hs
    refine ⟨first, rfl, ?_⟩
    intro x hx
    rcases List.mem_cons.mp hx with rfl | hx
    · rw [strcmp_self]
    · exact hs.1 x hx

/-- C20: `mr_kvlist_push(k, v, p)` changes one node of partition `p`.  The
nodes `pre` that the loop passes have keys below `k`; the node behind them has
the key `k` and takes the value, or it has a greater key (or there is none)
and a new node for `k` is put in front of it.  When the keys of the partition
are sorted, as in every store the library builds, and `k` has a node, that
node is the one that takes the value.  After the insert the values of that node
are its values before together with `v`, and its cursor is `start`, the first
value of the value list of `k`, whatever the cursor was before, a smallest
value when the values were sorted; every other node of the partition, its
values and its cursor, is as before. -/
theorem kvlist_push_resets_cursor (k v : CStr) (p : Nat) (s : Store)
    (part : List mr_kvnode) (hpart : s[p]? = some part) :
    ∃ pre post n0,
      mr_kvlist_push k v p s = some (s.set p (pre ++ kvnode_push n0 v :: post))
      ∧ (∀ m ∈ pre, strcmp m.key k < 0)
      ∧ ((part = pre ++ n0 :: post ∧ n0.key = k)
          ∨ (part = pre ++ post ∧ n0 = mr_kvnode_new k
              ∧ ∀ x, post.head? = some x → strcmp x.key k > 0))
      ∧ (keys_sorted part → ∀ n, kvlist_find k part = some n →
          n0 = n ∧ part = pre ++ n :: post)
      ∧ (kvnode_push n0 v).key = k
      ∧ (kvnode_push n0 v).start = mr_vlist_push n0.start v
      ∧ ((kvnode_push n0 v).start).Perm (v :: n0.start)
      ∧ (kvnode_push n0 v).access_next = (kvnode_push n0 v).start
      ∧ (values_sorted n0.start →
          values_sorted (kvnode_push n0 v).start
            ∧ ∃ first, (kvnode_push n0 v).access_next.head? = some first
                ∧ ∀ x ∈ (kvnode_push n0 v).start, strcmp first x ≤ 0) := by
  obtain ⟨pre, post, n0, h1, h2, h3⟩ := kvlist_push_split k v part
  refine ⟨pre, post, n0, ?_, h2, h3, ?_, ?_, rfl, mr_vlist_push_perm n0.start v, rfl, ?_⟩
  · simp only [mr_kvlist_push, hpart, h1]
  · intro hs n hf
    exact kvlist_push_split_sorted h2 h3 hs n hf
  · rcases h3 with ⟨_, h5⟩ | ⟨_, h5, _⟩
    · exact h5
    · rw [h5]; rfl
  · intro hs
    exact ⟨mr_vlist_push_sorted n0.start v hs, mr_vlist_push_head_le n0.start v hs⟩

/-- Witness of C20: "b" has the values "2", "3", both read; "1" is pushed. -/
theorem kvlist_push_resets_cursor_witness :
    ∃ pre post n0,
      mr_kvlist_push (cstr [98]) (cstr [49]) 0
          [[{ key := cstr [97], start := [cstr [49]], access_next := [] },
            { key := cstr [98], start := [cstr [50], cstr [51]], access_next := [] }]]
        = some (([[{ key := cstr [97], start := [cstr [49]], access_next := [] },
                   { key := cstr [98], start := [cstr [50], cstr [51]], access_next := [] }]]
                  : Store).set 0 (pre ++ kvnode_push n0 (cstr [49]) :: post))
      ∧ (∀ m ∈ pre, strcmp m.key (cstr [98]) < 0)
      ∧ ((([{ key := cstr [97], start := [cstr [49]], access_next := [] },
            { key := cstr [98], start := [cstr [50], cstr [51]], access_next := [] }]
              : List mr_kvnode) = pre ++ n0 :: post ∧ n0.key = cstr [98])
          ∨ (([{ key := cstr [97], start := [cstr [49]], access_next := [] },
               { key := cstr [98], start := [cstr [50], cstr [51]], access_next := [] }]
                : List mr_kvnode) = pre ++ post ∧ n0 = mr_kvnode_new (cstr [98])
              ∧ ∀ x, post.head? = some x → strcmp x.key (cstr [98]) > 0))
      ∧ (keys_sorted
            [{ key := cstr [97], start := [cstr [49]], access_next := [] },
             { key := cstr [98], start := [cstr [50], cstr [51]], access_next := [] }] →
          ∀ n, kvlist_find (cstr [98])
              [{ key := cstr [97], start := [cstr [49]], access_next := [] },
               { key := cstr [98], start := [cstr [50], cstr [51]], access_next := [] }]
              = some n →
            n0 = n
              ∧ ([{ key := cstr [97], start := [cstr [49]], access_next := [] },
                  { key := cstr [98], start := [cstr [50], cstr [51]], access_next := [] }]
                  : List mr_kvnode) = pre ++ n :: post)
      ∧ (kvnode_push n0 (cstr [49])).key = cstr [98]
      ∧ (kvnode_push n0 (cstr [49])).start = mr_vlist_push n0.start (cstr [49])
      ∧ ((kvnode_push n0 (cstr [49])).start).Perm (cstr [49] :: n0.start)
      ∧ (kvnode_push n0 (cstr [49])).access_next = (kvnode_push n0 (cstr [49])).start
      ∧ (values_sorted n0.start →
          values_sorted (kvnode_push n0 (cstr [49])).start
            ∧ ∃ first, (kvnode_push n0 (cstr [49])).access_next.head? = some first
                ∧ ∀ x ∈ (kvnode_push n0 (cstr [49])).start, strcmp first x ≤ 0) :=
  kvlist_push_resets_cursor (cstr [98]) (cstr [49]) 0
    [[{ key := cstr [97], start := [cstr [49]], access_next := [] },
      { key := cstr [98], start := [cstr [50], cstr [51]], access_next := [] }]]
    [{ key := cstr [97], start := [cstr [49]], access_next := [] },
      { key := cstr [98], start := [cstr [50], cstr [51]], access_next := [] }]
    rfl

end MapReduce

namespace MapReduce

/-! ## The mapper pool -/

theorem mapper_indices_mem {N M j : Nat} (hj : j < M) (x : Nat) :
    x ∈ mapper_indices N M j ↔ 1 ≤ x ∧ x ≤ N ∧ (x - 1) % M = j := by
  have hdiv : N / M * M ≤ N := Nat.div_mul_le_self N M
  unfold mapper_indices
  rw [List.mem_append, List.mem_map]
  constructor
  · rintro (⟨i, hi, rfl⟩ | hx)
    · rw [List.mem_range] at hi
      have h1 : (i + 1) * M ≤ N / M * M := Nat.mul_le_mul_right M hi
      have h2 : (i + 1) * M = i * M + M := Nat.succ_mul i M
      refine ⟨by omega, by omega, ?_⟩
      have : j + 1 + i * M - 1 = j + i * M := by omega
      rw [this, Nat.add_mul_mod_self_right, Nat.mod_eq_of_lt hj]
    · split at hx
      · rename_i hc
        simp only [List.mem_singleton] at hx
        subst hx
        refine ⟨by omega, by omega, ?_⟩
        have : j + 1 + N / M * M - 1 = j + N / M * M := by omega
        rw [this, Nat.add_mul_mod_self_right, Nat.mod_eq_of_lt hj]
      · simp at hx
  · rintro ⟨h1, h2, h3⟩
    have hdm : M * ((x - 1) / M) + (x - 1) % M = x - 1 := Nat.div_add_mod (x - 1) M
    have hcomm : M * ((x - 1) / M) = (x - 1) / M * M := Nat.mul_comm _ _
    have hle : (x - 1) / M ≤ N / M := Nat.div_le_div_right (by omega)
    rcases Nat.lt_or_ge ((x - 1) / M) (N / M) with hlt | hge
    · left
      exact ⟨(x - 1) / M, List.mem_range.mpr hlt, by omega⟩
    · right
      have heq : (x - 1) / M = N / M := by omega
      rw [heq] at hcomm hdm
      have hc : N > j + N / M * M := by omega
      rw [if_pos hc]
      simp only [List.mem_singleton]
      omega

theorem mapper_indices_sorted {N M j : Nat} (hM : 0 < M) :
    (mapper_indices N M j).Pairwise (fun a b => a < b) := by
  unfold mapper_indices
  rw [List.pairwise_append]
  refine ⟨?_, ?_, ?_⟩
  · rw [List.pairwise_map]
    exact (List.pairwise_lt_range (N / M)).imp (fun h => by
      have := Nat.mul_lt_mul_of_pos_right h hM
      omega)
  · split <;> simp
  · intro a ha b hb
    obtain ⟨i, hi, rfl⟩ := List.mem_map.mp ha
    rw [List.mem_range] at hi
    split at hb
    · simp only [List.mem_singleton] at hb
      subst hb
      have := Nat.mul_lt_mul_of_pos_right hi hM
      omega
    · simp at hb

theorem mr_emit_all_length {partition_fn : partitioner} {P : Nat} (kvs : List (CStr × CStr)) :
    ∀ {s s1 : Store}, mr_emit_all partition_fn P kvs s = some s1 → s1.length = s.length := by
  induction kvs with
  | nil =>
    intro s s1 h
    simp only [mr_emit_all, Option.some.injEq] at h
    rw [← h]
  | cons kv rest ih =>
    intro s s1 h
    simp only [mr_emit_all] at h
    cases h1 : mr_emit partition_fn P kv.1 kv.2 s with
    | none => simp [h1] at h
    | some s2 =>
      simp only [h1] at h
      obtain ⟨p, part, _, _, rfl⟩ := mr_emit_eq_some h1
      rw [ih h, List.length_set]

theorem mapper_call_some {partition_fn : partitioner} {P : Nat}
    (hpf : partitioner_in_range partition_fn P) (packet : mapper_dispatch_packet)
    (index : Nat) (st : mr_state) (hlen : st.master_kvlist.length = P)
    (hidx : index < packet.arglist.length) :
    ∃ st1, mapper_call partition_fn P packet index st = some st1
      ∧ st1.map_calls = st.map_calls ++ [(packet.this_id, index)]
      ∧ st1.master_kvlist.length = P
      ∧ st1.reducer_ids = st.reducer_ids ∧ st1.reduce_calls = st.reduce_calls := by
  obtain ⟨s1, hs1⟩ := (mr_emit_all_some_iff partition_fn P
    (packet.mapper_fn (packet.arglist.get ⟨index, hidx⟩)) st.master_kvlist hlen).mpr
    (fun kv _ => hpf kv.1)
  refine ⟨{ st with master_kvlist := s1,
                    map_calls := st.map_calls ++ [(packet.this_id, index)] }, ?_, rfl, ?_,
    rfl, rfl⟩
  · unfold mapper_call
    rw [List.getElem?_eq_getElem hidx]
    simp only [List.get_eq_getElem] at hs1
    simp only [hs1]
  · simp only
    rw [mr_emit_all_length _ hs1, hlen]

theorem mapper_dispatcher_loop_some {partition_fn : partitioner} {P : Nat}
    (hpf : partitioner_in_range partition_fn P) (packet : mapper_dispatch_packet)
    (h32 : packet.arglist.length ≤ 2 ^ 32) (n : Nat) :
    ∀ (i : Nat) (st : mr_state), st.master_kvlist.length = P →
      (∀ t, i ≤ t → t < i + n →
        packet.this_id + 1 + t * packet.step_count < packet.arglist.length) →
      ∃ st1, mapper_dispatcher_loop partition_fn P packet n i st = some st1
        ∧ st1.map_calls = st.map_calls
            ++ (List.range' i n).map
                (fun t => (packet.this_id, packet.this_id + 1 + t * packet.step_count))
        ∧ st1.master_kvlist.length = P
        ∧ st1.reducer_ids = st.reducer_ids ∧ st1.reduce_calls = st.reduce_calls := by
  induction n with
  | zero =>
    intro i st hlen _
    exact ⟨st, rfl, by simp, hlen, rfl, rfl⟩
  | succ n ih =>
    intro i st hlen hidx
    have hi := hidx i (Nat.le_refl i) (by omega)
    have hmod : (packet.this_id + 1 + i * packet.step_count) % 2 ^ 32
        = packet.this_id + 1 + i * packet.step_count := Nat.mod_eq_of_lt (by omega)
    obtain ⟨st1, h1, h2, h3, h4, h5⟩ := mapper_call_some hpf packet _ st hlen hi
    obtain ⟨st2, g1, g2, g3, g4, g5⟩ := ih (i + 1) st1 h3
      (fun t ht1 ht2 => hidx t (by omega) (by omega))
    refine ⟨st2, ?_, ?_, g3, g4.trans h4, g5.trans h5⟩
    · simp only [mapper_dispatcher_loop, hmod, h1, g1]
    · rw [g2, h2, List.range'_succ]
      simp

theorem mapper_dispatcher_some {partition_fn : partitioner} {P : Nat}
    (hpf : partitioner_in_range partition_fn P) (argv : List CStr) (map : mapper)
    (N M j : Nat) (hM : 0 < M) (hM32 : M < 2 ^ 32) (hj : j < M) (hN : N + 1 < 2 ^ 31)
    (hargv : argv.length = N + 1) (st : mr_state) (hlen : st.master_kvlist.length = P) :
    ∃ st1, mapper_dispatcher partition_fn P
        { arglist := argv, mapper_fn := map, this_id := j, total_item_count := N,
          step_count := M, iternation := N / M } st = some st1
      ∧ st1.map_calls = st.map_calls ++ (mapper_indices N M j).map (fun x => (j, x))
      ∧ st1.master_kvlist.length = P
      ∧ st1.reducer_ids = st.reducer_ids ∧ st1.reduce_calls = st.reduce_calls := by
  have hdiv : N / M * M ≤ N := Nat.div_mul_le_self N M
  obtain ⟨st1, h1, h2, h3, h4, h5⟩ := mapper_dispatcher_loop_some hpf
    { arglist := argv, mapper_fn := map, this_id := j, total_item_count := N,
      step_count := M, iternation := N / M } (by simp only; omega) (N / M) 0 st hlen
    (by
      intro t _ ht
      simp only [hargv]
      have ht' : t + 1 ≤ N / M := by omega
      have a1 : (t + 1) * M ≤ N / M * M := Nat.mul_le_mul_right M ht'
      have a2 : (t + 1) * M = t * M + M := Nat.succ_mul t M
      omega)
  have hsum : (j + N / M * M) % 2 ^ 32 = j + N / M * M := by
    apply Nat.mod_eq_of_lt
    rcases Nat.lt_or_ge N M with hlt | hge
    · rw [Nat.div_eq_of_lt hlt]
      omega
    · omega
  simp only [mapper_dispatcher, h1, hsum]
  simp only at h2
  by_cases hc : N > j + N / M * M
  · have hidx : j + 1 + N / M * M < argv.length := by omega
    have hmod : (j + 1 + N / M * M) % 2 ^ 32 = j + 1 + N / M * M :=
      Nat.mod_eq_of_lt (by omega)
    obtain ⟨st2, g1, g2, g3, g4, g5⟩ := mapper_call_some hpf
      { arglist := argv, mapper_fn := map, this_id := j, total_item_count := N,
        step_count := M, iternation := N / M } (j + 1 + N / M * M) st1 h3 hidx
    refine ⟨st2, ?_, ?_, g3, g4.trans h4, g5.trans h5⟩
    · simp only [hc, if_true, hmod, g1]
    · rw [g2, h2]
      simp only [mapper_indices, hc, if_true, List.map_append, List.map_map,
        List.range_eq_range', List.append_assoc]
      rfl
  · refine ⟨st1, ?_, ?_, h3, h4, h5⟩
    · simp only [hc, if_false]
    · rw [h2]
      simp only [mapper_indices, hc, if_false, List.append_nil, List.map_map,
        List.range_eq_range']
      rfl

end MapReduce

namespace MapReduce

theorem total_item_count_eq (N : Nat) (hN : N + 1 < 2 ^ 31) :
    ((((N + 1 : Nat) : Int) - 1) % (2 ^ 32 : Int)).toNat = N := by
  have h1 : ((N + 1 : Nat) : Int) - 1 = (N : Int) := by push_cast; ring
  rw [h1]
  have h2 : (N : Int) % (2 ^ 32 : Int) = (N : Int) :=
    Int.emod_eq_of_lt (by omega) (by
      have : (N : Int) < 2 ^ 31 := by exact_mod_cast (by omega : N < 2 ^ 31)
      omega)
  rw [h2]
  exact Int.toNat_natCast N

theorem mr_run_mpacket_eq (argv : List CStr) (map : mapper) (N M j : Nat)
    (hN : N + 1 < 2 ^ 31) :
    mr_run_mpacket ((N + 1 : Nat) : Int) argv map M j
      = { arglist := argv, mapper_fn := map, this_id := j, total_item_count := N,
          step_count := M, iternation := N / M } := by
  unfold mr_run_mpacket
  rw [total_item_count_eq N hN]

theorem mr_run_mappers_succ (partition_fn : partitioner) (P : Nat) (argc : Int)
    (argv : List CStr) (map : mapper) (M n j : Nat) (st : mr_state) :
    mr_run_mappers partition_fn P argc argv map M (n + 1) j st
      = match mapper_dispatcher partition_fn P (mr_run_mpacket argc argv map M j) st with
        | none => none
        | some st1 => mr_run_mappers partition_fn P argc argv map M n (j + 1) st1 := rfl

theorem mr_run_mappers_some {partition_fn : partitioner} {P : Nat}
    (hpf : partitioner_in_range partition_fn P) (argv : List CStr) (map : mapper)
    (N M : Nat) (hM32 : M < 2 ^ 32) (hN : N + 1 < 2 ^ 31) (hargv : argv.length = N + 1)
    (n : Nat) :
    ∀ (j : Nat) (st : mr_state), j + n = M → st.master_kvlist.length = P →
      ∃ st1, mr_run_mappers partition_fn P ((N + 1 : Nat) : Int) argv map M n j st = some st1
        ∧ st1.map_calls = st.map_calls
            ++ (List.range' j n).flatMap
                (fun w => (mapper_indices N M w).map (fun x => (w, x)))
        ∧ st1.master_kvlist.length = P
        ∧ st1.reducer_ids = st.reducer_ids ∧ st1.reduce_calls = st.reduce_calls := by
  induction n with
  | zero =>
    intro j st _ hlen
    exact ⟨st, rfl, by simp, hlen, rfl, rfl⟩
  | succ n ih =>
    intro j st hj hlen
    obtain ⟨st1, h1, h2, h3, h4, h5⟩ := mapper_dispatcher_some hpf argv map N M j
      (by omega) hM32 (by omega) hN hargv st hlen
    obtain ⟨st2, g1, g2, g3, g4, g5⟩ := ih (j + 1) st1 (by omega) h3
    refine ⟨st2, ?_, ?_, g3, g4.trans h4, g5.trans h5⟩
    · rw [mr_run_mappers_succ, mr_run_mpacket_eq argv map N M j hN, h1]
      exact g1
    · rw [g2, h2, List.range'_succ]
      simp [List.flatMap_cons]

theorem worker_calls_spec (N M : Nat) (j : Nat) (hj : j ≤ M) :
    (((List.range j).flatMap
        (fun w => (mapper_indices N M w).map (fun x => (w, x)))).map Prod.snd).Nodup
      ∧ (∀ x, x ∈ ((List.range j).flatMap
            (fun w => (mapper_indices N M w).map (fun x => (w, x)))).map Prod.snd
          ↔ 1 ≤ x ∧ x ≤ N ∧ (x - 1) % M < j)
      ∧ ∀ c ∈ (List.range j).flatMap
            (fun w => (mapper_indices N M w).map (fun x => (w, x))),
          c.1 < j ∧ c.1 = (c.2 - 1) % M ∧ 1 ≤ c.2 ∧ c.2 ≤ N := by
  induction j with
  | zero => simp
  | succ j ih =>
    obtain ⟨h1, h2, h3⟩ := ih (by omega)
    have hjM : j < M := by omega
    have hsnd : ((mapper_indices N M j).map (fun x => (j, x))).map Prod.snd
        = mapper_indices N M j := by
      rw [List.map_map]
      exact List.map_id _
    rw [List.range_succ, List.flatMap_append, List.map_append]
    simp only [List.flatMap_cons, List.flatMap_nil, List.append_nil, hsnd]
    refine ⟨?_, ?_, ?_⟩
    · refine List.Nodup.append h1 ((mapper_indices_sorted (by omega)).imp Nat.ne_of_lt) ?_
      intro x hx1 hx2
      have a := (h2 x).mp hx1
      have b := (mapper_indices_mem hjM x).mp hx2
      omega
    · intro x
      rw [List.mem_append, h2 x, mapper_indices_mem hjM x]
      constructor
      · rintro (h | h) <;> omega
      · intro h
        by_cases hlt : (x - 1) % M < j
        · exact Or.inl ⟨h.1, h.2.1, hlt⟩
        · exact Or.inr ⟨h.1, h.2.1, by omega⟩
    · intro c hc
      rcases List.mem_append.mp hc with hc | hc
      · have := h3 c hc
        omega
      · obtain ⟨x, hx, rfl⟩ := List.mem_map.mp hc
        have := (mapper_indices_mem hjM x).mp hx
        simp only
        omega

end MapReduce

namespace MapReduce

theorem mr_emit_all_append (partition_fn : partitioner) (P : Nat)
    (l1 l2 : List (CStr × CStr)) :
    ∀ s : Store, mr_emit_all partition_fn P (l1 ++ l2) s
      = match mr_emit_all partition_fn P l1 s with
        | none => none
        | some s1 => mr_emit_all partition_fn P l2 s1 := by
  induction l1 with
  | nil => intro s; rfl
  | cons kv rest ih =>
    intro s
    simp only [List.cons_append, mr_emit_all]
    cases mr_emit partition_fn P kv.1 kv.2 s with
    | none => rfl
    | some s1 => exact ih s1

theorem mapper_call_emits {partition_fn : partitioner} {P : Nat}
    {packet : mapper_dispatch_packet} {index : Nat} {st st1 : mr_state} (s0 : Store)
    (h : mapper_call partition_fn P packet index st = some st1)
    (hinv : mr_emit_all partition_fn P
      (map_calls_emits packet.mapper_fn packet.arglist st.map_calls) s0
        = some st.master_kvlist) :
    mr_emit_all partition_fn P
      (map_calls_emits packet.mapper_fn packet.arglist st1.map_calls) s0
        = some st1.master_kvlist := by
  unfold mapper_call at h
  cases hq : packet.arglist[index]? with
  | none => simp [hq] at h
  | some file_name =>
    simp only [hq] at h
    cases he : mr_emit_all partition_fn P (packet.mapper_fn file_name) st.master_kvlist with
    | none => simp [he] at h
    | some s1 =>
      simp only [he, Option.some.injEq] at h
      subst h
      have hsplit : map_calls_emits packet.mapper_fn packet.arglist
          (st.map_calls ++ [(packet.this_id, index)])
          = map_calls_emits packet.mapper_fn packet.arglist st.map_calls
            ++ packet.mapper_fn file_name := by
        simp [map_calls_emits, List.flatMap_append, hq]
      simp only
      rw [hsplit, mr_emit_all_append, hinv]
      exact he

theorem mapper_dispatcher_loop_emits {partition_fn : partitioner} {P : Nat}
    {packet : mapper_dispatch_packet} (s0 : Store) (n : Nat) :
    ∀ (i : Nat) (st st1 : mr_state),
      mapper_dispatcher_loop partition_fn P packet n i st = some st1 →
      mr_emit_all partition_fn P
        (map_calls_emits packet.mapper_fn packet.arglist st.map_calls) s0
          = some st.master_kvlist →
      mr_emit_all partition_fn P
        (map_calls_emits packet.mapper_fn packet.arglist st1.map_calls) s0
          = some st1.master_kvlist := by
  induction n with
  | zero =>
    intro i st st1 h hinv
    simp only [mapper_dispatcher_loop, Option.some.injEq] at h
    rw [← h]; exact hinv
  | succ n ih =>
    intro i st st1 h hinv
    rw [mapper_dispatcher_loop] at h
    cases hc : mapper_call partition_fn P packet
        ((packet.this_id + 1 + i * packet.step_count) % 2 ^ 32) st with
    | none =>
      rw [hc] at h
      cases h
    | some st2 =>
      rw [hc] at h
      exact ih (i + 1) st2 st1 h (mapper_call_emits s0 hc hinv)

theorem mapper_dispatcher_emits {partition_fn : partitioner} {P : Nat}
    {packet : mapper_dispatch_packet} (s0 : Store) {st st1 : mr_state}
    (h : mapper_dispatcher partition_fn P packet st = some st1)
    (hinv : mr_emit_all partition_fn P
      (map_calls_emits packet.mapper_fn packet.arglist st.map_calls) s0
        = some st.master_kvlist) :
    mr_emit_all partition_fn P
      (map_calls_emits packet.mapper_fn packet.arglist st1.map_calls) s0
        = some st1.master_kvlist := by
  unfold mapper_dispatcher at h
  cases hl : mapper_dispatcher_loop partition_fn P packet packet.iternation 0 st with
  | none => simp [hl] at h
  | some st2 =>
    simp only [hl] at h
    have h2 := mapper_dispatcher_loop_emits s0 packet.iternation 0 st st2 hl hinv
    split at h
    · exact mapper_call_emits s0 h h2
    · simp only [Option.some.injEq] at h
      rw [← h]; exact h2

theorem mr_run_mappers_emits {partition_fn : partitioner} {P : Nat} (argc : Int)
    (argv : List CStr) (map : mapper) (M : Nat) (s0 : Store) (n : Nat) :
    ∀ (j : Nat) (st st1 : mr_state),
      mr_run_mappers partition_fn P argc argv map M n j st = some st1 →
      mr_emit_all partition_fn P (map_calls_emits map argv st.map_calls) s0
          = some st.master_kvlist →
      mr_emit_all partition_fn P (map_calls_emits map argv st1.map_calls) s0
          = some st1.master_kvlist := by
  induction n with
  | zero =>
    intro j st st1 h hinv
    simp only [mr_run_mappers, Option.some.injEq] at h
    rw [← h]; exact hinv
  | succ n ih =>
    intro j st st1 h hinv
    rw [mr_run_mappers_succ] at h
    cases hd : mapper_dispatcher partition_fn P (mr_run_mpacket argc argv map M j) st with
    | none => simp [hd] at h
    | some st2 =>
      simp only [hd] at h
      exact ih (j + 1) st2 st1 h (mapper_dispatcher_emits s0 hd hinv)

theorem mr_run_eq (argc : Int) (argv : List CStr) (map : mapper) (num_mappers : Nat)
    (reduce : reducer) (num_reducers : Nat) (partition : partitioner) :
    mr_run argc argv map num_mappers reduce num_reducers partition
      = match mr_run_mappers partition (num_reducers % 2 ^ 32) argc argv map
            (num_mappers % 2 ^ 32) (num_mappers % 2 ^ 32) 0
            (mr_state_init (num_reducers % 2 ^ 32)) with
        | none => none
        | some st => mr_run_reducers reduce (num_reducers % 2 ^ 32) (num_mappers % 2 ^ 32) 0 st :=
  rfl

/-- C12: for `N` inputs (`argc = N + 1` an `int`, so `N + 1 < 2^31`; `argv` has
`argc` entries), `1 ≤ M < 2^32` mappers and a partitioner in range, the mapper
phase of `mr_run` comes to an end; the calls of the map function are, worker
after worker, those of `mapper_indices`; the indices passed are, as a multiset,
exactly `1, ..., N`; and the index `i` is passed by the worker `(i - 1) mod M`.
With `N = 2` and `M = 2` worker 0 passes `argv[1]` and worker 1 `argv[2]`.  The
store at the end of the phase holds what the map function emits for the entries
of `argv` passed, in the order of the calls. -/
theorem mappers_map_every_input_once (partition_fn : partitioner) (P : Nat)
    (hpf : partitioner_in_range partition_fn P) (argv : List CStr) (map : mapper)
    (N M : Nat) (hM1 : 1 ≤ M) (hM32 : M < 2 ^ 32) (hN : N + 1 < 2 ^ 31)
    (hargv : argv.length = N + 1) :
    ∃ st, mr_run_mappers partition_fn P ((N + 1 : Nat) : Int) argv map M M 0
          (mr_state_init P) = some st
      ∧ st.map_calls
          = (List.range M).flatMap (fun w => (mapper_indices N M w).map (fun x => (w, x)))
      ∧ ((st.map_calls.map Prod.snd : List Nat) : Multiset Nat)
          = ((List.range' 1 N : List Nat) : Multiset Nat)
      ∧ (∀ c ∈ st.map_calls, c.1 < M ∧ c.1 = (c.2 - 1) % M)
      ∧ (N = 2 → M = 2 → st.map_calls = [(0, 1), (1, 2)])
      ∧ mr_emit_all partition_fn P (map_calls_emits map argv st.map_calls)
          (mr_master_kvlist_init P) = some st.master_kvlist := by
  obtain ⟨st, h1, h2, _⟩ := mr_run_mappers_some hpf argv map N M hM32 hN hargv M 0
    (mr_state_init P) (by omega) (by simp [mr_state_init, mr_master_kvlist_init])
  have hcalls : st.map_calls
      = (List.range M).flatMap (fun w => (mapper_indices N M w).map (fun x => (w, x))) := by
    rw [h2, List.range_eq_range']
    simp [mr_state_init]
  obtain ⟨g1, g2, g3⟩ := worker_calls_spec N M M (Nat.le_refl M)
  have hemits := mr_run_mappers_emits ((N + 1 : Nat) : Int) argv map M
    (mr_master_kvlist_init P) M 0 (mr_state_init P) st h1 rfl
  refine ⟨st, h1, hcalls, ?_, ?_, ?_, hemits⟩
  · rw [hcalls]
    apply Multiset.coe_eq_coe.mpr
    rw [List.perm_ext_iff_of_nodup g1 (List.nodup_range' 1 N)]
    intro x
    rw [g2 x, List.mem_range'_1]
    have : (x - 1) % M < M := Nat.mod_lt _ (by omega)
    omega
  · intro c hc
    rw [hcalls] at hc
    have := g3 c hc
    exact ⟨this.1, this.2.1⟩
  · intro hN2 hM2
    subst hN2 hM2
    rw [hcalls]
    decide

/-- Witness of C12: two inputs, two mappers, two partitions, the default
partitioner; the map function emits its file name with the value "1". -/
theorem mappers_map_every_input_once_witness :
    ∃ st, mr_run_mappers (mr_default_hashpartition true) 2 ((2 + 1 : Nat) : Int)
          [cstr [112], cstr [65], cstr [66]] (fun f => [(f, cstr [49])]) 2 2 0
          (mr_state_init 2) = some st
      ∧ st.map_calls
          = (List.range 2).flatMap (fun w => (mapper_indices 2 2 w).map (fun x => (w, x)))
      ∧ ((st.map_calls.map Prod.snd : List Nat) : Multiset Nat)
          = ((List.range' 1 2 : List Nat) : Multiset Nat)
      ∧ (∀ c ∈ st.map_calls, c.1 < 2 ∧ c.1 = (c.2 - 1) % 2)
      ∧ (2 = 2 → 2 = 2 → st.map_calls = [(0, 1), (1, 2)])
      ∧ mr_emit_all (mr_default_hashpartition true) 2
          (map_calls_emits (fun f => [(f, cstr [49])]) [cstr [112], cstr [65], cstr [66]]
            st.map_calls) (mr_master_kvlist_init 2) = some st.master_kvlist :=
  mappers_map_every_input_once (mr_default_hashpartition true) 2
    (hashpartition_in_range true 2 (by decide) (by decide))
    [cstr [112], cstr [65], cstr [66]] (fun f => [(f, cstr [49])]) 2 2
    (by decide) (by decide) (by decide) rfl

/-- C13, as amended: for `N` inputs, `M` mappers and a worker `j < M`, the
indices into `argv` that mapper worker `j` passes to the map function are, in
ascending order and each once, exactly the numbers of the form `j + 1 + i * M`
(`i = 0, 1, 2, ...`) that lie within `1..N`. -/
theorem mapper_worker_indices (partition_fn : partitioner) (P : Nat)
    (hpf : partitioner_in_range partition_fn P) (argv : List CStr) (map : mapper)
    (N M j : Nat) (hM32 : M < 2 ^ 32) (hj : j < M) (hN : N + 1 < 2 ^ 31)
    (hargv : argv.length = N + 1) (st : mr_state) (hlen : st.master_kvlist.length = P) :
    ∃ (st1 : mr_state) (idxs : List Nat),
      mapper_dispatcher partition_fn P (mr_run_mpacket ((N + 1 : Nat) : Int) argv map M j) st
          = some st1
      ∧ st1.map_calls = st.map_calls ++ idxs.map (fun x => (j, x))
      ∧ idxs.Pairwise (fun a b => a < b)
      ∧ ∀ x, x ∈ idxs ↔ (1 ≤ x ∧ x ≤ N ∧ ∃ i, x = j + 1 + i * M) := by
  obtain ⟨st1, h1, h2, _⟩ := mapper_dispatcher_some hpf argv map N M j (by omega) hM32 hj
    hN hargv st hlen
  refine ⟨st1, mapper_indices N M j, ?_, h2, mapper_indices_sorted (by omega), ?_⟩
  · rw [mr_run_mpacket_eq argv map N M j hN]
    exact h1
  · intro x
    rw [mapper_indices_mem hj x]
    constructor
    · rintro ⟨a, b, c⟩
      refine ⟨a, b, (x - 1) / M, ?_⟩
      have hdm : M * ((x - 1) / M) + (x - 1) % M = x - 1 := Nat.div_add_mod (x - 1) M
      have hcomm : M * ((x - 1) / M) = (x - 1) / M * M := Nat.mul_comm _ _
      omega
    · rintro ⟨a, b, i, rfl⟩
      refine ⟨a, b, ?_⟩
      have : j + 1 + i * M - 1 = j + i * M := by omega
      rw [this, Nat.add_mul_mod_self_right, Nat.mod_eq_of_lt hj]

/-- Witness of C13: five inputs, two mappers, worker 1. -/
theorem mapper_worker_indices_witness :
    ∃ (st1 : mr_state) (idxs : List Nat),
      mapper_dispatcher (mr_default_hashpartition true) 2
          (mr_run_mpacket ((5 + 1 : Nat) : Int)
            [cstr [112], cstr [65], cstr [66], cstr [67], cstr [68], cstr [69]]
            (fun f => [(f, cstr [49])]) 2 1) (mr_state_init 2) = some st1
      ∧ st1.map_calls = (mr_state_init 2).map_calls ++ idxs.map (fun x => (1, x))
      ∧ idxs.Pairwise (fun a b => a < b)
      ∧ ∀ x, x ∈ idxs ↔ (1 ≤ x ∧ x ≤ 5 ∧ ∃ i, x = 1 + 1 + i * 2) :=
  mapper_worker_indices (mr_default_hashpartition true) 2
    (hashpartition_in_range true 2 (by decide) (by decide))
    [cstr [112], cstr [65], cstr [66], cstr [67], cstr [68], cstr [69]]
    (fun f => [(f, cstr [49])]) 5 2 1 (by decide) (by decide) (by decide) rfl
    (mr_state_init 2) rfl

/-- C13 as stated fails: with two inputs and two mappers, worker 0 passes the
index 1 to the map function and nothing else; 1 is not of the form `0 + i * 2`,
and 2, which is of that form and lies within `1..2`, is not passed by worker
0. -/
theorem mapper_worker_indices_counterexample :
    ∃ st1, mapper_dispatcher (mr_default_hashpartition true) 2
          (mr_run_mpacket 3 [cstr [112], cstr [65], cstr [66]]
            (fun f => [(f, cstr [49])]) 2 0) (mr_state_init 2) = some st1
      ∧ st1.map_calls = [(0, 1)]
      ∧ (¬ ∃ i, 1 = 0 + i * 2)
      ∧ (1 ≤ 2 ∧ 2 ≤ 2 ∧ ∃ i, 2 = 0 + i * 2)
      ∧ (0, 2) ∉ st1.map_calls :=
  ⟨_, rfl, rfl, by omega, ⟨by decide, by decide, 1, rfl⟩, by decide⟩

end MapReduce

namespace MapReduce

/-! ## No input -/

theorem mr_run_mappers_no_input (partition_fn : partitioner) (P : Nat) (argv : List CStr)
    (map : mapper) (M n : Nat) :
    ∀ (j : Nat) (st : mr_state),
      mr_run_mappers partition_fn P 1 argv map M n j st = some st := by
  induction n with
  | zero => intro j st; rfl
  | succ n ih =>
    intro j st
    have hd : mapper_dispatcher partition_fn P (mr_run_mpacket 1 argv map M j) st = some st := by
      have h0 : (((1 : Int) - 1) % (2 ^ 32 : Int)).toNat = 0 := by decide
      simp only [mapper_dispatcher, mr_run_mpacket, h0, Nat.zero_div, mapper_dispatcher_loop]
      simp
    rw [mr_run_mappers_succ, hd]
    exact ih (j + 1) st

theorem mr_run_reducers_empty (reduce : reducer) (R n : Nat) :
    ∀ (j : Nat) (st : mr_state), j + n ≤ R →
      st.master_kvlist = mr_master_kvlist_init R →
      mr_run_reducers reduce R n j st
        = some { st with reducer_ids := st.reducer_ids ++ List.range' j n } := by
  induction n with
  | zero =>
    intro j st _ _
    simp [mr_run_reducers]
  | succ n ih =>
    intro j st hj hst
    have hlt : j < R := by omega
    have hpart : (mr_master_kvlist_init R)[j]? = some [] := by
      unfold mr_master_kvlist_init
      rw [List.getElem?_replicate]
      simp [hlt]
    simp only [mr_run_reducers, hlt, if_true, reducer_dispatcher, hst, hpart,
      reducer_dispatcher_loop]
    have hstep := ih (j + 1)
      (mr_state.mk (mr_master_kvlist_init R) st.map_calls (st.reducer_ids ++ [j])
        st.reduce_calls) (by omega) rfl
    rw [hstep]
    simp [List.range'_succ]

/-- With no input and no more mappers than reducers `mr_run` comes to an end:
the map and the reduce function were not called and every partition is
empty. -/
theorem mr_run_no_input (argv : List CStr) (map : mapper) (reduce : reducer)
    (partition : partitioner) (M R : Nat) (hMR : M ≤ R) (hR : R < 2 ^ 32) :
    mr_run 1 argv map M reduce R partition
      = some { master_kvlist := List.replicate R [], map_calls := [],
               reducer_ids := List.range M, reduce_calls := [] } := by
  have hM : M % 2 ^ 32 = M := Nat.mod_eq_of_lt (by omega)
  have hR' : R % 2 ^ 32 = R := Nat.mod_eq_of_lt hR
  rw [mr_run_eq, hM, hR', mr_run_mappers_no_input]
  simp only
  rw [mr_run_reducers_empty reduce R M 0 _ (by omega) rfl]
  simp [mr_state_init, mr_master_kvlist_init, List.range_eq_range']

/-- C16 fails on the code: with no input, `num_mappers = 2` and
`num_reducers = 1` (any map and reduce function, any partitioner) the loops
over the reducers run `j` up to `num_mappers`: for `j = 1` they write
`rpacketlist[1]` and read `master_kvlist[1]`, outside both arrays, which is
undefined, and no result is returned.  With `num_mappers ≤ num_reducers` the
claim holds (`mr_run_no_input`). -/
theorem mr_run_no_input_overrun (argv : List CStr) (map : mapper) (reduce : reducer)
    (partition : partitioner) :
    mr_run 1 argv map 2 reduce 1 partition = none
      ∧ mr_run 1 argv map 1 reduce 1 partition
          = some { master_kvlist := [[]], map_calls := [], reducer_ids := [0],
                   reduce_calls := [] } :=
  ⟨rfl, rfl⟩

end MapReduce

namespace MapReduce

/-! ## Allocation failure -/

theorem malloc_log (site : alloc_site) (w : alloc_world) :
    (malloc site w).2.log = w.log ++ [(site, (malloc site w).1)] := by
  unfold malloc
  cases w.oracle <;> rfl

theorem malloc_log_ok {site : alloc_site} {w : alloc_world} (h : log_ok w.log)
    (hok : ¬ (malloc site w).1 = false) : log_ok (malloc site w).2.log := by
  rw [malloc_log]
  intro x hx
  rcases List.mem_append.mp hx with hx | hx
  · exact h x hx
  · simp only [List.mem_singleton] at hx
    rw [hx]
    simpa using hok

theorem malloc_log_failed {site : alloc_site} {w : alloc_world} (h : log_ok w.log)
    (site1 : alloc_site) (hmem : (site1, false) ∈ (malloc site w).2.log) : site1 = site := by
  rw [malloc_log] at hmem
  rcases List.mem_append.mp hmem with hx | hx
  · have := h _ hx
    simp at this
  · simp only [List.mem_singleton, Prod.mk.injEq] at hx
    exact hx.1

theorem log_ok_no_failure {log : List (alloc_site × Bool)} (h : log_ok log)
    (site : alloc_site) : (site, false) ∉ log := by
  intro hmem
  have := h _ hmem
  simp at this

theorem mr_kvlist_push_alloc_ok (key value : CStr) (pn : Nat) (w : alloc_world)
    (h : log_ok w.log) : alloc_step_ok (mr_kvlist_push_alloc key value pn w) := by
  unfold mr_kvlist_push_alloc
  cases hq : w.st.master_kvlist[pn]? with
  | none =>
    simp only [alloc_step_ok]
    intro site hmem
    exact absurd hmem (log_ok_no_failure h site)
  | some start =>
    simp only
    by_cases hnew : kvlist_push_new_node key start = true
    · simp only [hnew, if_true]
      by_cases h1 : (malloc alloc_site.kvnode w).1 = false
      · simp only [h1, if_true, alloc_step_ok]
        intro site hmem
        exact ⟨Or.inl (malloc_log_failed h site hmem), trivial⟩
      · simp only [h1, if_false]
        have hk := malloc_log_ok h h1
        by_cases h2 : (malloc alloc_site.vnode (malloc alloc_site.kvnode w).2).1 = false
        · simp only [h2, if_true, alloc_step_ok]
          intro site hmem
          exact ⟨Or.inr (malloc_log_failed hk site hmem), rfl⟩
        · simp only [h2, if_false, alloc_step_ok]
          exact malloc_log_ok hk h2
    · simp only [hnew, Bool.false_eq_true, if_false]
      by_cases h2 : (malloc alloc_site.vnode w).1 = false
      · simp only [h2, if_true, alloc_step_ok]
        intro site hmem
        exact ⟨Or.inr (malloc_log_failed h site hmem), rfl⟩
      · simp only [h2, if_false, alloc_step_ok]
        exact malloc_log_ok h h2

theorem alloc_step_ok_undefined {log : List (alloc_site × Bool)} (h : log_ok log) :
    alloc_step_ok (.stop .undefined log) := by
  intro site hmem
  exact absurd hmem (log_ok_no_failure h site)

theorem mr_emit_all_alloc_ok (partition_fn : partitioner) (P : Nat)
    (kvs : List (CStr × CStr)) :
    ∀ w : alloc_world, log_ok w.log →
      alloc_step_ok (mr_emit_all_alloc partition_fn P kvs w) := by
  induction kvs with
  | nil => intro w h; exact h
  | cons kv rest ih =>
    intro w h
    simp only [mr_emit_all_alloc]
    cases hp : partition_fn kv.1 P with
    | none => exact alloc_step_ok_undefined h
    | some pn =>
      simp only
      have hpush := mr_kvlist_push_alloc_ok kv.1 kv.2 pn w h
      cases hr : mr_kvlist_push_alloc kv.1 kv.2 pn w with
      | stop how log => rw [hr] at hpush; exact hpush
      | go w1 =>
        rw [hr] at hpush
        exact ih w1 hpush

theorem mapper_call_alloc_ok (partition_fn : partitioner) (P : Nat)
    (packet : mapper_dispatch_packet) (index : Nat) (w : alloc_world) (h : log_ok w.log) :
    alloc_step_ok (mapper_call_alloc partition_fn P packet index w) := by
  unfold mapper_call_alloc
  cases hq : packet.arglist[index]? with
  | none => exact alloc_step_ok_undefined h
  | some file_name =>
    simp only
    have he := mr_emit_all_alloc_ok partition_fn P (packet.mapper_fn file_name) w h
    cases hr : mr_emit_all_alloc partition_fn P (packet.mapper_fn file_name) w with
    | stop how log => rw [hr] at he; exact he
    | go w1 => rw [hr] at he; exact he

theorem mapper_dispatcher_loop_alloc_ok (partition_fn : partitioner) (P : Nat)
    (packet : mapper_dispatch_packet) (n : Nat) :
    ∀ (i : Nat) (w : alloc_world), log_ok w.log →
      alloc_step_ok (mapper_dispatcher_loop_alloc partition_fn P packet n i w) := by
  induction n with
  | zero => intro i w h; exact h
  | succ n ih =>
    intro i w h
    simp only [mapper_dispatcher_loop_alloc]
    have hc := mapper_call_alloc_ok partition_fn P packet
      ((packet.this_id + 1 + i * packet.step_count) % 2 ^ 32) w h
    cases hr : mapper_call_alloc partition_fn P packet
        ((packet.this_id + 1 + i * packet.step_count) % 2 ^ 32) w with
    | stop how log => rw [hr] at hc; exact hc
    | go w1 =>
      rw [hr] at hc
      exact ih (i + 1) w1 hc

theorem mapper_dispatcher_alloc_ok (partition_fn : partitioner) (P : Nat)
    (packet : mapper_dispatch_packet) (w : alloc_world) (h : log_ok w.log) :
    alloc_step_ok (mapper_dispatcher_alloc partition_fn P packet w) := by
  unfold mapper_dispatcher_alloc
  have hl := mapper_dispatcher_loop_alloc_ok partition_fn P packet packet.iternation 0 w h
  cases hr : mapper_dispatcher_loop_alloc partition_fn P packet packet.iternation 0 w with
  | stop how log => rw [hr] at hl; exact hl
  | go w1 =>
    rw [hr] at hl
    simp only
    split
    · exact mapper_call_alloc_ok partition_fn P packet _ w1 hl
    · exact hl

theorem mr_run_mappers_alloc_ok (partition_fn : partitioner) (P : Nat) (argc : Int)
    (argv : List CStr) (map : mapper) (M n : Nat) :
    ∀ (j : Nat) (w : alloc_world), log_ok w.log →
      alloc_step_ok (mr_run_mappers_alloc partition_fn P argc argv map M n j w) := by
  induction n with
  | zero => intro j w h; exact h
  | succ n ih =>
    intro j w h
    simp only [mr_run_mappers_alloc]
    have hd := mapper_dispatcher_alloc_ok partition_fn P (mr_run_mpacket argc argv map M j) w h
    cases hr : mapper_dispatcher_alloc partition_fn P (mr_run_mpacket argc argv map M j) w with
    | stop how log => rw [hr] at hd; exact hd
    | go w1 =>
      rw [hr] at hd
      exact ih (j + 1) w1 hd

theorem mr_run_alloc_failed (oracle : List Bool) (argc : Int) (argv : List CStr)
    (map : mapper) (num_mappers : Nat) (reduce : reducer) (num_reducers : Nat)
    (partition : partitioner) (site : alloc_site)
    (hmem : (site, false)
      ∈ (mr_run_alloc oracle argc argv map num_mappers reduce num_reducers partition).2) :
    ((site = .store ∨ site = .kvnode ∨ site = .vnode)
        ∧ (mr_run_alloc oracle argc argv map num_mappers reduce num_reducers partition).1
            = .exit_failure)
      ∨ ((site = .mappers ∨ site = .mpacketlist ∨ site = .reducers ∨ site = .rpacketlist)
        ∧ (mr_run_alloc oracle argc argv map num_mappers reduce num_reducers partition).1
            = .returned) := by
  unfold mr_run_alloc at hmem ⊢
  simp only at hmem ⊢
  have h0 : log_ok (alloc_world.mk (mr_state_init (num_reducers % 2 ^ 32)) oracle []).log := by
    intro x hx
    simp at hx
  generalize alloc_world.mk (mr_state_init (num_reducers % 2 ^ 32)) oracle [] = w0
    at hmem h0 ⊢
  by_cases c0 : (malloc alloc_site.store w0).1 = false
  · rw [if_pos c0] at hmem ⊢
    exact Or.inl ⟨Or.inl (malloc_log_failed h0 site hmem), rfl⟩
  · rw [if_neg c0] at hmem ⊢
    have l0 := malloc_log_ok h0 c0
    generalize (malloc alloc_site.store w0).2 = w1 at hmem l0 ⊢
    by_cases c1 : (malloc alloc_site.mappers w1).1 = false
    · rw [if_pos c1] at hmem ⊢
      exact Or.inr ⟨Or.inl (malloc_log_failed l0 site hmem), rfl⟩
    · rw [if_neg c1] at hmem ⊢
      have l1 := malloc_log_ok l0 c1
      generalize (malloc alloc_site.mappers w1).2 = w2 at hmem l1 ⊢
      by_cases c2 : (malloc alloc_site.mpacketlist w2).1 = false
      · rw [if_pos c2] at hmem ⊢
        exact Or.inr ⟨Or.inr (Or.inl (malloc_log_failed l1 site hmem)), rfl⟩
      · rw [if_neg c2] at hmem ⊢
        have l2 := malloc_log_ok l1 c2
        generalize (malloc alloc_site.mpacketlist w2).2 = w3 at hmem l2 ⊢
        have hm := mr_run_mappers_alloc_ok partition (num_reducers % 2 ^ 32) argc argv map
          (num_mappers % 2 ^ 32) (num_mappers % 2 ^ 32) 0 w3 l2
        cases hr : mr_run_mappers_alloc partition (num_reducers % 2 ^ 32) argc argv map
            (num_mappers % 2 ^ 32) (num_mappers % 2 ^ 32) 0 w3 with
        | stop how log =>
          rw [hr] at hm hmem
          simp only at hmem ⊢
          obtain ⟨hs, he⟩ := hm site hmem
          exact Or.inl ⟨Or.inr hs, he⟩
        | go w4 =>
          rw [hr] at hm hmem
          simp only at hmem ⊢
          have l3 : log_ok w4.log := hm
          by_cases c4 : (malloc alloc_site.reducers w4).1 = false
          · rw [if_pos c4] at hmem ⊢
            exact Or.inr ⟨Or.inr (Or.inr (Or.inl (malloc_log_failed l3 site hmem))), rfl⟩
          · rw [if_neg c4] at hmem ⊢
            have l4 := malloc_log_ok l3 c4
            generalize (malloc alloc_site.reducers w4).2 = w5 at hmem l4 ⊢
            by_cases c5 : (malloc alloc_site.rpacketlist w5).1 = false
            · rw [if_pos c5] at hmem ⊢
              exact Or.inr ⟨Or.inr (Or.inr (Or.inr (malloc_log_failed l4 site hmem))), rfl⟩
            · rw [if_neg c5] at hmem ⊢
              have l5 := malloc_log_ok l4 c5
              exfalso
              cases hred : mr_run_reducers reduce (num_reducers % 2 ^ 32)
                  (num_mappers % 2 ^ 32) 0 (malloc alloc_site.rpacketlist w5).2.st with
              | none =>
                rw [hred] at hmem
                exact log_ok_no_failure l5 site hmem
              | some st1 =>
                rw [hred] at hmem
                exact log_ok_no_failure l5 site hmem

end MapReduce

namespace MapReduce

theorem mr_kvlist_push_alloc_refines (key value : CStr) (pn : Nat) (st : mr_state)
    (log : List (alloc_site × Bool)) :
    alloc_refines (mr_kvlist_push_alloc key value pn { st := st, oracle := [], log := log })
      (match mr_kvlist_push key value pn st.master_kvlist with
        | none => none
        | some s1 => some { st with master_kvlist := s1 }) := by
  unfold mr_kvlist_push_alloc mr_kvlist_push
  cases hq : st.master_kvlist[pn]? with
  | none => exact ⟨log, rfl⟩
  | some start =>
    simp only
    by_cases hnew : kvlist_push_new_node key start = true
    · simp only [hnew, if_true, malloc]
      exact ⟨_, rfl⟩
    · simp only [hnew, Bool.false_eq_true, if_false, malloc]
      exact ⟨_, rfl⟩

theorem mr_emit_all_alloc_refines (partition_fn : partitioner) (P : Nat)
    (kvs : List (CStr × CStr)) :
    ∀ (st : mr_state) (log : List (alloc_site × Bool)),
      alloc_refines
        (mr_emit_all_alloc partition_fn P kvs { st := st, oracle := [], log := log })
        (match mr_emit_all partition_fn P kvs st.master_kvlist with
          | none => none
          | some s1 => some { st with master_kvlist := s1 }) := by
  induction kvs with
  | nil => intro st log; exact ⟨log, rfl⟩
  | cons kv rest ih =>
    intro st log
    simp only [mr_emit_all_alloc, mr_emit_all, mr_emit]
    cases hp : partition_fn kv.1 P with
    | none => exact ⟨log, rfl⟩
    | some pn =>
      simp only
      have hpush := mr_kvlist_push_alloc_refines kv.1 kv.2 pn st log
      cases hr : mr_kvlist_push kv.1 kv.2 pn st.master_kvlist with
      | none =>
        rw [hr] at hpush
        obtain ⟨log1, h1⟩ := hpush
        rw [h1]
        exact ⟨log1, rfl⟩
      | some s1 =>
        rw [hr] at hpush
        obtain ⟨log1, h1⟩ := hpush
        rw [h1]
        exact ih (mr_state.mk s1 st.map_calls st.reducer_ids st.reduce_calls) log1

theorem mapper_call_alloc_refines (partition_fn : partitioner) (P : Nat)
    (packet : mapper_dispatch_packet) (index : Nat) (st : mr_state)
    (log : List (alloc_site × Bool)) :
    alloc_refines
      (mapper_call_alloc partition_fn P packet index { st := st, oracle := [], log := log })
      (mapper_call partition_fn P packet index st) := by
  unfold mapper_call_alloc mapper_call
  cases hq : packet.arglist[index]? with
  | none => exact ⟨log, rfl⟩
  | some file_name =>
    simp only
    have he := mr_emit_all_alloc_refines partition_fn P (packet.mapper_fn file_name) st log
    cases hr : mr_emit_all partition_fn P (packet.mapper_fn file_name) st.master_kvlist with
    | none =>
      rw [hr] at he
      obtain ⟨log1, h1⟩ := he
      rw [h1]
      exact ⟨log1, rfl⟩
    | some s1 =>
      rw [hr] at he
      obtain ⟨log1, h1⟩ := he
      rw [h1]
      exact ⟨log1, rfl⟩

theorem mapper_dispatcher_loop_alloc_refines (partition_fn : partitioner) (P : Nat)
    (packet : mapper_dispatch_packet) (n : Nat) :
    ∀ (i : Nat) (st : mr_state) (log : List (alloc_site × Bool)),
      alloc_refines
        (mapper_dispatcher_loop_alloc partition_fn P packet n i
          { st := st, oracle := [], log := log })
        (mapper_dispatcher_loop partition_fn P packet n i st) := by
  induction n with
  | zero => intro i st log; exact ⟨log, rfl⟩
  | succ n ih =>
    intro i st log
    simp only [mapper_dispatcher_loop_alloc, mapper_dispatcher_loop]
    have hc := mapper_call_alloc_refines partition_fn P packet
      ((packet.this_id + 1 + i * packet.step_count) % 2 ^ 32) st log
    cases hr : mapper_call partition_fn P packet
        ((packet.this_id + 1 + i * packet.step_count) % 2 ^ 32) st with
    | none =>
      rw [hr] at hc
      obtain ⟨log1, h1⟩ := hc
      rw [h1]
      exact ⟨log1, rfl⟩
    | some st1 =>
      rw [hr] at hc
      obtain ⟨log1, h1⟩ := hc
      rw [h1]
      exact ih (i + 1) st1 log1

theorem mapper_dispatcher_alloc_refines (partition_fn : partitioner) (P : Nat)
    (packet : mapper_dispatch_packet) (st : mr_state) (log : List (alloc_site × Bool)) :
    alloc_refines
      (mapper_dispatcher_alloc partition_fn P packet { st := st, oracle := [], log := log })
      (mapper_dispatcher partition_fn P packet st) := by
  unfold mapper_dispatcher_alloc mapper_dispatcher
  have hl := mapper_dispatcher_loop_alloc_refines partition_fn P packet packet.iternation 0
    st log
  cases hr : mapper_dispatcher_loop partition_fn P packet packet.iternation 0 st with
  | none =>
    rw [hr] at hl
    obtain ⟨log1, h1⟩ := hl
    rw [h1]
    exact ⟨log1, rfl⟩
  | some st1 =>
    rw [hr] at hl
    obtain ⟨log1, h1⟩ := hl
    rw [h1]
    simp only
    split
    · exact mapper_call_alloc_refines partition_fn P packet _ st1 log1
    · exact ⟨log1, rfl⟩

theorem mr_run_mappers_alloc_refines (partition_fn : partitioner) (P : Nat) (argc : Int)
    (argv : List CStr) (map : mapper) (M n : Nat) :
    ∀ (j : Nat) (st : mr_state) (log : List (alloc_site × Bool)),
      alloc_refines
        (mr_run_mappers_alloc partition_fn P argc argv map M n j
          { st := st, oracle := [], log := log })
        (mr_run_mappers partition_fn P argc argv map M n j st) := by
  induction n with
  | zero => intro j st log; exact ⟨log, rfl⟩
  | succ n ih =>
    intro j st log
    rw [mr_run_mappers_succ]
    simp only [mr_run_mappers_alloc]
    have hd := mapper_dispatcher_alloc_refines partition_fn P
      (mr_run_mpacket argc argv map M j) st log
    cases hr : mapper_dispatcher partition_fn P (mr_run_mpacket argc argv map M j) st with
    | none =>
      rw [hr] at hd
      obtain ⟨log1, h1⟩ := hd
      rw [h1]
      exact ⟨log1, rfl⟩
    | some st1 =>
      rw [hr] at hd
      obtain ⟨log1, h1⟩ := hd
      rw [h1]
      exact ih (j + 1) st1 log1

/-- When every allocation succeeds, the run with allocations ends as `mr_run`
does: it returns where `mr_run` has a result and is undefined where it has
none; and no allocation of its log has failed. -/
theorem mr_run_alloc_refines (argc : Int) (argv : List CStr) (map : mapper)
    (num_mappers : Nat) (reduce : reducer) (num_reducers : Nat) (partition : partitioner) :
    (mr_run_alloc [] argc argv map num_mappers reduce num_reducers partition).1
      = match mr_run argc argv map num_mappers reduce num_reducers partition with
        | none => .undefined
        | some _ => .returned := by
  rw [mr_run_eq]
  unfold mr_run_alloc
  simp only [malloc]
  have hm := mr_run_mappers_alloc_refines partition (num_reducers % 2 ^ 32) argc argv map
    (num_mappers % 2 ^ 32) (num_mappers % 2 ^ 32) 0 (mr_state_init (num_reducers % 2 ^ 32))
    ([] ++ [(alloc_site.store, true)] ++ [(alloc_site.mappers, true)]
      ++ [(alloc_site.mpacketlist, true)])
  cases hr : mr_run_mappers partition (num_reducers % 2 ^ 32) argc argv map
      (num_mappers % 2 ^ 32) (num_mappers % 2 ^ 32) 0
      (mr_state_init (num_reducers % 2 ^ 32)) with
  | none =>
    rw [hr] at hm
    obtain ⟨log1, h1⟩ := hm
    simp only [Bool.true_eq_false, if_false]
    rw [h1]
  | some st1 =>
    rw [hr] at hm
    obtain ⟨log1, h1⟩ := hm
    simp only [Bool.true_eq_false, if_false]
    rw [h1]
    simp only [Bool.true_eq_false, if_false]
    cases mr_run_reducers reduce (num_reducers % 2 ^ 32) (num_mappers % 2 ^ 32) 0 st1 <;> rfl

end MapReduce

namespace MapReduce

/-- C17, as amended: whatever the results of the `malloc` calls of a run of
`mr_run` are, when the allocation of the store array or of a key or value node
has failed the process ends with `exit(EXIT_FAILURE)`; when the allocation of
one of the arrays `mappers`, `mpacketlist`, `reducers` or `rpacketlist` has
failed, `mr_run` goes to `cleanup` and returns to its caller. -/
theorem alloc_failure_end (oracle : List Bool) (argc : Int) (argv : List CStr)
    (map : mapper) (num_mappers : Nat) (reduce : reducer) (num_reducers : Nat)
    (partition : partitioner) (site : alloc_site)
    (hfail : (site, false)
      ∈ (mr_run_alloc oracle argc argv map num_mappers reduce num_reducers partition).2) :
    ((site = .store ∨ site = .kvnode ∨ site = .vnode)
        ∧ (mr_run_alloc oracle argc argv map num_mappers reduce num_reducers partition).1
            = .exit_failure)
      ∨ ((site = .mappers ∨ site = .mpacketlist ∨ site = .reducers ∨ site = .rpacketlist)
        ∧ (mr_run_alloc oracle argc argv map num_mappers reduce num_reducers partition).1
            = .returned) :=
  mr_run_alloc_failed oracle argc argv map num_mappers reduce num_reducers partition site hfail

/-- Witness of C17: one input whose map function emits ("a","1"); the store and
the two mapper arrays are allocated, the key node for "a" is not. -/
theorem alloc_failure_end_witness :
    ((alloc_site.kvnode = .store ∨ alloc_site.kvnode = .kvnode ∨ alloc_site.kvnode = .vnode)
        ∧ (mr_run_alloc [true, true, true, false] 2 [cstr [112], cstr [102]]
            (fun _ => [(cstr [97], cstr [49])]) 1 (test_reduce 4) 1
            (mr_default_hashpartition true)).1 = .exit_failure)
      ∨ ((alloc_site.kvnode = .mappers ∨ alloc_site.kvnode = .mpacketlist
            ∨ alloc_site.kvnode = .reducers ∨ alloc_site.kvnode = .rpacketlist)
        ∧ (mr_run_alloc [true, true, true, false] 2 [cstr [112], cstr [102]]
            (fun _ => [(cstr [97], cstr [49])]) 1 (test_reduce 4) 1
            (mr_default_hashpartition true)).1 = .returned) :=
  alloc_failure_end [true, true, true, false] 2 [cstr [112], cstr [102]]
    (fun _ => [(cstr [97], cstr [49])]) 1 (test_reduce 4) 1 (mr_default_hashpartition true)
    .kvnode (by decide)

/-- C17 as stated fails: when the allocation of `mappers` fails (the store
having been allocated), or that of `reducers` after the map phase, `mr_run`
returns to its caller; the process does not end with a failure status. -/
theorem alloc_failure_end_counterexample :
    mr_run_alloc [true, false] 2 [cstr [112], cstr [102]]
        (fun _ => [(cstr [97], cstr [49])]) 1 (test_reduce 4) 1
        (mr_default_hashpartition true)
      = (.returned, [(.store, true), (.mappers, false)])
    ∧ mr_run_alloc [true, true, true, true, true, false] 2 [cstr [112], cstr [102]]
        (fun _ => [(cstr [97], cstr [49])]) 1 (test_reduce 4) 1
        (mr_default_hashpartition true)
      = (.returned, [(.store, true), (.mappers, true), (.mpacketlist, true), (.kvnode, true),
          (.vnode, true), (.reducers, false)]) :=
  ⟨rfl, rfl⟩

end MapReduce
